import Mathlib

/-!
Verification of the ProDy atom-selection engine (src/prody/atomic/select.py,
with the legacy src/prody/select.py consulted where the claims cite it).

The development shallowly embeds the data model and the evaluator of
`Select` (src/prody/atomic/select.py) in Lean:

* numpy boolean arrays become `List Bool` (`Mask`), numpy numeric arrays
  become `List ℚ` (Python floats are modelled by exact rationals; none of
  the checked claims depends on floating-point rounding);
* the columnar atomic data store becomes the `AtomGroup` structure, one
  association list of columns per value kind;
* the module-level keyword tables (`KEYWORD_RESNAMES`, `KEYWORD_MAP`) become
  the `KeywordState` structure so that their mutation by
  `setKeywordResnames` can be stated;
* the pyparsing token trees handed to the parse-action callbacks
  (`_and`, `_or`, `_unary`, `_comp`, ...) become the `SExpr`/`Operand`
  syntax trees; the evaluator `evalExpr` mirrors `Select._evaluate` and the
  callbacks, including the `evalonly` index-narrowing protocol of
  `Select._and` / `Select._or`;
* evaluation failures (`SelectionError`, `ZeroDivisionError`, ...) become
  an `Except PyErr` result; `evalExpr` takes a fuel argument so that the
  recursion over nested sub-expressions is structural (exhausted fuel is
  the artificial error kind `PyErr.fuel`, used by no claim).
-/

/-! ## Mask primitives (numpy boolean-array operations) -/

/-- Boolean membership mask over the atoms, the Lean image of a numpy
boolean array. -/
abbrev Mask := List Bool

/-- Image of `np.invert(torf)` on a boolean array. -/
def negMask (m : Mask) : Mask := m.map (fun b => !b)

/-- Image of `np.zeros(n, bool)`. -/
def zerosMask (n : Nat) : Mask := List.replicate n false

/-- Image of `np.ones(n, bool)`. -/
def onesMask (n : Nat) : Mask := List.replicate n true

/-- Image of `torf.nonzero()[0]` on a boolean array: indices of the `true`
entries in increasing order. -/
def nonzero (m : Mask) : List Nat :=
  (List.range m.length).filter (fun i => m.getD i false)

/-- Image of fancy indexing `m[idx]` on a boolean array; out-of-range
indices (which numpy would reject) read as `false`. -/
def restrict (idx : List Nat) (m : Mask) : Mask :=
  idx.map (fun i => m.getD i false)

/-- Image of fancy indexing `data[idx]` on an arbitrary data array. -/
def restrictD (idx : List Nat) (d : List α) (dflt : α) : List α :=
  idx.map (fun i => d.getD i dflt)

/-- Image of `idx[torf]` (boolean-mask indexing of an index array), as used
to narrow the `evalonly` index set in `Select._and` / `Select._or`. -/
def filterIdx (idx : List Nat) (torf : Mask) : List Nat :=
  ((idx.zip torf).filter (fun p => p.2)).map (fun p => p.1)

/-- Image of the scatter assignment `sel[idx] = torf`. -/
def scatter (sel : Mask) (idx : List Nat) (vals : Mask) : Mask :=
  (idx.zip vals).foldl (fun s p => s.set p.1 p.2) sel

/-- Image of the constant scatter assignments `torf[idx] = True` /
`torf[idx] = False`. -/
def setIdxs (m : Mask) (idx : List Nat) (b : Bool) : Mask :=
  idx.foldl (fun s i => s.set i b) m

/-- Image of the boolean-mask assignment `torf[cond] = True`: entries where
`cond` holds become `true`, the rest keep their value. -/
def orWhere (torf : Mask) (cond : List Bool) : Mask :=
  List.zipWith (fun t c => t || c) torf cond

/-! ## Error kinds

The Python error taxonomy relevant to the claims.  `PyErr.fuel` is an
artifact of the fuel-indexed evaluator, reachable only when the fuel is
smaller than the nesting depth of the query. -/

inductive PyErr where
  /-- `SelectionError` of src/prody/atomic/select.py. -/
  | selErr
  /-- `ZeroDivisionError` (raised by the legacy `Select._mul` in
  src/prody/select.py). -/
  | zeroDiv
  /-- `ValueError` (also stands for numpy's ambiguous-truth-value error). -/
  | valueErr
  /-- `TypeError`. -/
  | typeErr
  /-- `AttributeError`. -/
  | attrErr
  /-- Fuel exhaustion of the embedded evaluator (modelling artifact). -/
  | fuel
  deriving DecidableEq, Repr

/-! ## Python string helpers

The token-string manipulation in `Select._getNumRange` uses Python `str.split`,
`str.replace`, `' '.join` and substring tests.  These are re-implemented
on character lists so that their Python semantics (leftmost,
non-overlapping occurrences) is explicit and kernel-computable. -/

/-- Splitting of a character list at every leftmost, non-overlapping
occurrence of the separator `s0 :: srest` (Python `str.split(sep)`). -/
def pySplitCh (s0 : Char) (srest : List Char) :
    Nat → List Char → List (List Char)
  | _, [] => [[]]
  | 0, cs => [cs]
  | k + 1, c :: cs =>
    if (s0 :: srest).isPrefixOf (c :: cs) then
      [] :: pySplitCh s0 srest k ((c :: cs).drop (srest.length + 1))
    else
      match pySplitCh s0 srest k cs with
      | [] => [[c]]
      | g :: gs => (c :: g) :: gs

/-- Python `s.split(sep)` for a nonempty separator. -/
def pySplit (s : String) (sep : String) : List String :=
  match sep.toList with
  | [] => [s]
  | c :: cs =>
    (pySplitCh c cs s.toList.length s.toList).map (fun g => String.mk g)

/-- Python `sep.join(parts)`. -/
def pyJoin (sep : String) (parts : List String) : String :=
  String.intercalate sep parts

/-- Python substring test `pat in s` (for nonempty `pat`). -/
def strContains (s pat : String) : Bool :=
  (pySplit s pat).length != 1

/-- Python `s.replace(old, new)`: every leftmost, non-overlapping
occurrence of `old` replaced by `new`. -/
def pyReplace (s old new : String) : String :=
  pyJoin new (pySplit s old)

/-- Fixpoint of `while '  ' in tknstr: tknstr = tknstr.replace('  ', ' ')`
(`Select._getNumRange`); each iteration shortens the string, so the string
length is enough fuel to reach the fixpoint. -/
def squeezeSpaces : Nat → String → String
  | 0, s => s
  | k + 1, s =>
    if strContains s "  " then squeezeSpaces k (pyReplace s "  " " ") else s

/-- Python `s.split()` (no argument): split on blanks and drop empty
fields. -/
def pySplitWhite (s : String) : List String :=
  (pySplit s " ").filter (fun t => t ≠ "")

/-- Python `int(s)` on the decimal strings producible by the selection
grammar: optional sign followed by digits. -/
def pyInt? (s : String) : Option Int :=
  let digits : List Char → Option Nat := fun cs =>
    if cs ≠ [] ∧ cs.all Char.isDigit then
      some (cs.foldl (fun a c => a * 10 + (c.toNat - '0'.toNat)) 0)
    else none
  match s.toList with
  | '-' :: cs => (digits cs).map (fun n => -(n : Int))
  | '+' :: cs => (digits cs).map (fun n => (n : Int))
  | cs => (digits cs).map (fun n => (n : Int))

/-- Python `float(s)` on the decimal strings producible by the selection
grammar: optional sign, digits, optional decimal point (exponent forms are
not produced by the grammar and are not modelled). -/
def pyFloat? (s : String) : Option ℚ :=
  let digitsVal : List Char → Option Nat := fun cs =>
    if cs.all Char.isDigit then
      some (cs.foldl (fun a c => a * 10 + (c.toNat - '0'.toNat)) 0)
    else none
  let unsigned : List Char → Option ℚ := fun cs =>
    match (cs.splitOn '.').map digitsVal with
    | [some ip] => if cs ≠ [] then some ((ip : ℚ)) else none
    | [some ip, some fp] =>
      let fdigits := ((cs.splitOn '.').getD 1 []).length
      if cs.length > 1 then some ((ip : ℚ) + (fp : ℚ) / ((10 : ℚ) ^ fdigits))
      else none
    | _ => none
  match s.toList with
  | '-' :: cs => (unsigned cs).map (fun q => -q)
  | '+' :: cs => unsigned cs
  | cs => unsigned cs

/-! ## The columnar atom store

`AtomGroup` is the snapshot of the per-atom attribute arrays that
`Select._getData` / `AtomSubset.getData` read during one evaluation: one
association list of columns per value kind, plus the active coordinate
set.  User-set data columns live in the same maps as the parsed ones
(`AtomGroup._getData` serves both in the source).  The claims below are
stated for evaluation over a whole `AtomGroup` (`Select._indices is None`
in the source). -/

structure AtomGroup where
  /-- `numAtoms()`. -/
  natoms : Nat
  /-- String columns: `name`, `resname`, `chain`, `icode`, `segment`,
  `secondary`, ... plus user string data. -/
  strData : List (String × List String)
  /-- Integer columns: `resnum`, `serial`, `resindex`, `chindex`,
  `segindex`, ... -/
  intData : List (String × List Int)
  /-- Float columns: `beta`, `occupancy`, `charge`, `mass`, `radius`, ...
  plus user numeric data.  Python floats are modelled as rationals. -/
  numData : List (String × List ℚ)
  /-- User-set boolean data columns (`AtomGroup.setData` with a bool
  array). -/
  boolData : List (String × List Bool)
  /-- Active coordinate set, one (x, y, z) triple per atom. -/
  coords : List (ℚ × ℚ × ℚ)

/-- Association-list lookup used for every column table. -/
def lookupCol (t : List (String × α)) (k : String) : Option α :=
  match t.find? (fun p => p.1 = k) with
  | some p => some p.2
  | none => none

/-- Association-list update: Python dict assignment `t[k] = v`. -/
def updateTable (t : List (String × α)) (k : String) (v : α) :
    List (String × α) :=
  if t.any (fun p => p.1 = k) then
    t.map (fun p => if p.1 = k then (k, v) else p)
  else t ++ [(k, v)]

/-- Data-model invariant of the attribute store (spec section 3): every
column has length equal to the atom count. -/
def wfb (g : AtomGroup) : Bool :=
  g.strData.all (fun c => c.2.length = g.natoms) &&
  g.intData.all (fun c => c.2.length = g.natoms) &&
  g.numData.all (fun c => c.2.length = g.natoms) &&
  g.boolData.all (fun c => c.2.length = g.natoms) &&
  (g.coords.length = g.natoms)

/-- Column read with the `SelectionError` raised by `Select._getData` when
the attribute is not present. -/
def strColE (g : AtomGroup) (k : String) : Except PyErr (List String) :=
  match lookupCol g.strData k with
  | some d => .ok d
  | none => .error .selErr

/-- Integer column read (see `strColE`). -/
def intColE (g : AtomGroup) (k : String) : Except PyErr (List Int) :=
  match lookupCol g.intData k with
  | some d => .ok d
  | none => .error .selErr

/-- Numeric column read used by `Select._evalFloat` / `Select._evalNumeric`:
`x`/`y`/`z` come from the active coordinate set, other keywords from the
float or integer columns (integer data compares numerically). -/
def numericColE (g : AtomGroup) (k : String) : Except PyErr (List ℚ) :=
  if k = "x" then .ok (g.coords.map (fun p => p.1))
  else if k = "y" then .ok (g.coords.map (fun p => p.2.1))
  else if k = "z" then .ok (g.coords.map (fun p => p.2.2))
  else
    match lookupCol g.numData k with
    | some d => .ok d
    | none =>
      match lookupCol g.intData k with
      | some d => .ok (d.map (fun (z : Int) => (z : ℚ)))
      | none => .error .selErr

/-! ## Keyword catalog

The module-level tables of src/prody/atomic/select.py.  `KEYWORD_RESNAMES`
and `KEYWORD_MAP` are mutable module state (`setKeywordResnames` rewrites
the former), so they are carried in the `KeywordState` structure;
everything else is immutable and stays a plain definition. -/

/-- String-valued literal tokens: a plain word or grave-quoted literal, or
a double-quoted regular expression (compiled at tokenization time; the
compiled pattern is modelled as its match predicate, anchored at the start
of the string as Python `re.match` is). -/
inductive SVal where
  | str (s : String)
  | regex (p : String → Bool)

/-- `KEYWORDS_STRING`. -/
def KEYWORDS_STRING : List String :=
  ["name", "type", "resname", "chain", "element", "segment", "altloc",
   "secondary", "icode", "chid", "secstr", "segname"]

/-- `KEYWORDS_INTEGER`. -/
def KEYWORDS_INTEGER : List String :=
  ["serial", "index", "resnum", "resid", "segindex", "chindex", "resindex"]

/-- `KEYWORDS_FLOAT`. -/
def KEYWORDS_FLOAT : List String :=
  ["x", "y", "z", "beta", "mass", "occupancy", "radius", "charge"]

/-- `KEYWORDS_SYNONYMS`.  Modelled from the spec: the table is built from
the field registry in atomic/fields.py, which is not under src/; spec
section 4.1 names these synonym resolutions. -/
def KEYWORDS_SYNONYMS : List (String × String) :=
  [("chid", "chain"), ("resid", "resnum"), ("secstr", "secondary"),
   ("segname", "segment")]

/-- `KEYWORD_RESNAMES` as written at module level (before
`_setReadonlyResidueNames` adds the six derived entries). -/
def KEYWORD_RESNAMES_base : List (String × List String) :=
  [("protein",
    ["ALA", "ARG", "ASN", "ASP", "CYS", "GLN", "GLU", "GLY", "HIS", "ILE",
     "LEU", "LYS", "MET", "PHE", "PRO", "SER", "THR", "TRP", "TYR", "VAL",
     "HSD", "HSE", "HSP", "GLX", "ASX", "SEC", "PYL", "XLE", "CSO"]),
   ("nucleic",
    ["GUA", "ADE", "CYT", "THY", "URA", "DA", "DC", "DG", "DT", "A", "C",
     "G", "T", "U"]),
   ("acidic", ["ASP", "GLU"]),
   ("aliphatic", ["ALA", "GLY", "ILE", "LEU", "VAL", "XLE"]),
   ("aromatic", ["HIS", "PHE", "TRP", "TYR", "HSD", "HSE", "HSP"]),
   ("basic", ["LYS", "ARG", "HIS", "HSP", "HSD"]),
   ("buried", ["ALA", "LEU", "VAL", "ILE", "XLE", "PHE", "CYS", "MET",
               "TRP"]),
   ("cyclic", ["HIS", "PHE", "PRO", "TRP", "TYR", "HSD", "HSE", "HSP"]),
   ("hydrophobic", ["ALA", "ILE", "LEU", "MET", "PHE", "PRO", "TRP", "VAL",
                    "XLE"]),
   ("small", ["ALA", "GLY", "SER"]),
   ("medium", ["VAL", "THR", "ASP", "ASN", "ASX", "PRO", "CYS", "SEC"]),
   ("water", ["HOH", "WAT", "TIP3", "H2O", "HH0", "OHH", "OH2", "SOL",
              "TIP", "TIP2", "TIP4"]),
   ("lipid", ["DLPE", "DMPC", "DPPC", "GPC", "LPPC", "PALM", "PC", "PGCL",
              "POPC", "POPE"]),
   ("heme", ["HEM", "HEME"]),
   ("ion", ["AL", "BA", "CA", "CAL", "CD", "CES", "CLA", "CL", "CO", "CS",
            "CU", "CU1", "CUA", "HG", "IN", "IOD", "K", "MG", "MN3", "MO3",
            "MO4", "MO5", "MO6", "NA", "NAW", "OC7", "PB", "POT", "PT",
            "RB", "SOD", "TB", "TL", "WO4", "YB", "ZN", "ZN1", "ZN2"]),
   ("sugar", ["AGLC"]),
   ("at", ["ADE", "A", "THY", "T"]),
   ("cg", ["CYT", "C", "GUA", "G"]),
   ("purine", ["ADE", "A", "GUA", "G"]),
   ("pyrimidine", ["CYT", "C", "THY", "T", "URA", "U"])]

/-- Keys of `KEYWORD_RESNAMES_READONLY` (the derived keywords). -/
def readonlyKeys : List String :=
  ["acyclic", "charged", "large", "neutral", "polar", "surface"]

/-- Python `set(a) - set(b)` rendered as a list.  `_setReadonlyResidueNames`
stores `list(set ...)` whose iteration order is unspecified; only
membership in these lists is ever consumed (by `_evalAlnum`), so the
filter order here is as good as any. -/
def listDiff (a b : List String) : List String :=
  (a.filter (fun x => !b.contains x)).dedup

/-- Python `list(set(a + b))` (see `listDiff` about order). -/
def listUnion (a b : List String) : List String := (a ++ b).dedup

/-- `_setReadonlyResidueNames` (src/prody/atomic/select.py lines 270-283):
recompute the six derived residue-name sets from the current mutable
sets, sequentially (`neutral` reads the `charged` just written). -/
def setReadonlyResidueNames (t : List (String × List String)) :
    List (String × List String) :=
  let protein := (lookupCol t "protein").getD []
  let t := updateTable t "acyclic"
    (listDiff protein ((lookupCol t "cyclic").getD []))
  let t := updateTable t "charged"
    (listUnion ((lookupCol t "acidic").getD []) ((lookupCol t "basic").getD []))
  let t := updateTable t "large"
    (listDiff protein
      (((lookupCol t "small").getD []) ++ ((lookupCol t "medium").getD [])))
  let t := updateTable t "neutral"
    (listDiff protein ((lookupCol t "charged").getD []))
  let t := updateTable t "polar"
    (listDiff protein ((lookupCol t "hydrophobic").getD []))
  let t := updateTable t "surface"
    (listDiff protein ((lookupCol t "buried").getD []))
  t

/-- One entry of `KEYWORD_MAP`:
`(residue_names, invert, atom_names, atom_names_not)`. -/
structure KMapEntry where
  resNames : Option (List String)
  rnInvert : Bool
  atomNames : Option (List SVal)
  anInvert : Bool

/-- Match predicate of the compiled pattern `RE.compile('C.*')` under
`re.match` (anchored at the start). -/
def reCarbon (s : String) : Bool := s.startsWith "C"

/-- Match predicate of `RE.compile('[0-9]?H.*')` under `re.match`. -/
def reHydrogen (s : String) : Bool :=
  s.startsWith "H" ||
  (match s.toList with
   | c :: d :: _ => c.isDigit && d = 'H'
   | _ => false)

/-- Match predicate of `RE.compile('N.*')` under `re.match`. -/
def reNitrogen (s : String) : Bool := s.startsWith "N"

/-- Match predicate of `RE.compile('O.*')` under `re.match`. -/
def reOxygen (s : String) : Bool := s.startsWith "O"

/-- Match predicate of `RE.compile('S.*')` under `re.match`. -/
def reSulfur (s : String) : Bool := s.startsWith "S"

/-- `BACKBONE_ATOM_NAMES`. -/
def BACKBONE_ATOM_NAMES : List String := ["CA", "N", "C", "O"]

/-- `BACKBONE_FULL_ATOM_NAMES`. -/
def BACKBONE_FULL_ATOM_NAMES : List String :=
  ["CA", "N", "C", "O", "H", "H1", "H2", "H3", "OXT"]

/-- `_buildKeywordMap` (src/prody/atomic/select.py lines 409-438): the
final contents of `KEYWORD_MAP` for a given `KEYWORD_RESNAMES` table
(the `carbon` entry written in the regex loop is immediately overwritten
by the ion-excluding entry, so only the final one is listed). -/
def buildKeywordMap (t : List (String × List String)) :
    List (String × KMapEntry) :=
  let protein := (lookupCol t "protein").getD []
  let nucleic := (lookupCol t "nucleic").getD []
  let ion := (lookupCol t "ion").getD []
  let strs := fun (l : List String) => l.map SVal.str
  t.map (fun p => (p.1, (⟨some p.2, false, none, false⟩ : KMapEntry))) ++
  [("alpha", ⟨some protein, false, some (strs ["CA"]), false⟩),
   ("calpha", ⟨some protein, false, some (strs ["CA"]), false⟩),
   ("ca", ⟨some protein, false, some (strs ["CA"]), false⟩),
   ("backbone", ⟨some protein, false, some (strs BACKBONE_ATOM_NAMES),
                 false⟩),
   ("bb", ⟨some protein, false, some (strs BACKBONE_ATOM_NAMES), false⟩),
   ("backbonefull", ⟨some protein, false,
                     some (strs BACKBONE_FULL_ATOM_NAMES), false⟩),
   ("bbfull", ⟨some protein, false, some (strs BACKBONE_FULL_ATOM_NAMES),
               false⟩),
   ("sidechain", ⟨some protein, false, some (strs BACKBONE_FULL_ATOM_NAMES),
                  true⟩),
   ("sc", ⟨some protein, false, some (strs BACKBONE_FULL_ATOM_NAMES),
           true⟩),
   ("hetero", ⟨some (protein ++ nucleic), true, none, false⟩),
   ("hydrogen", ⟨none, false, some [SVal.regex reHydrogen], false⟩),
   ("nitrogen", ⟨none, false, some [SVal.regex reNitrogen], false⟩),
   ("oxygen", ⟨none, false, some [SVal.regex reOxygen], false⟩),
   ("sulfur", ⟨none, false, some [SVal.regex reSulfur], false⟩),
   ("carbon", ⟨some ion, true, some [SVal.regex reCarbon], false⟩),
   ("noh", ⟨none, false, some [SVal.regex reHydrogen], true⟩)]

/-- `SECSTR_MAP`. -/
def SECSTR_MAP : List (String × String) :=
  [("extended", "E"), ("helix", "H"), ("helix_pi", "G"),
   ("helix_3_10", "I"), ("turn", "T"), ("bridge", "B"), ("bend", "S"),
   ("coil", "C")]

/-- The mutable module state consumed by boolean-keyword evaluation:
`KEYWORD_RESNAMES` (rewritten by `setKeywordResnames`) and `KEYWORD_MAP`
(rebuilt only by `setBackboneAtomNames`, not by `setKeywordResnames`). -/
structure KeywordState where
  resnamesT : List (String × List String)
  kmap : List (String × KMapEntry)

/-- The import-time keyword state: `_setReadonlyResidueNames()` then
`_buildKeywordMap()`. -/
def initState : KeywordState :=
  let t := setReadonlyResidueNames KEYWORD_RESNAMES_base
  ⟨t, buildKeywordMap t⟩

/-- `setKeywordResnames(keyword, resnames)` (lines 690-718): a derived
keyword is reported with `LOGGER.warning` and nothing changes (the
returned flag records that a warning was issued); a mutable keyword is
overwritten with `list(set(resnames))` and `_setReadonlyResidueNames()` is
re-run — but `KEYWORD_MAP` is not rebuilt; an unknown keyword raises
`ValueError`.  The `TypeError` branches for non-string arguments are
discharged by the Lean types. -/
def setKeywordResnames (ks : KeywordState) (kw : String)
    (resnames : List String) : Except PyErr (KeywordState × Bool) :=
  if readonlyKeys.contains kw then .ok (ks, true)
  else if ks.resnamesT.any (fun p => p.1 = kw) then
    .ok (⟨setReadonlyResidueNames (updateTable ks.resnamesT kw resnames.dedup),
          ks.kmap⟩, false)
  else .error .valueErr

/-! ## Numeric range literals (`Select._getNumRange`) -/

/-- The heterogeneous items produced by `Select._getNumRange`:
Python `int` (`intg`), `float` (`flt`), a `[lo, hi]` float list from the
`a to b` form (`rng`), an `(a, b)` / `(a, b, c)` integer tuple from the
slice forms (`slc` / `slc3`), and a kept string when `intfloat` is false
(`strv`). -/
inductive NumItem where
  | intg (z : Int)
  | flt (q : ℚ)
  | rng (a b : ℚ)
  | slc (a b : Int)
  | slc3 (a b c : Int)
  | strv (s : String)
  deriving DecidableEq, Repr

/-- Python `range(a, b, c)` as a list (`c = 0`, which Python rejects with
`ValueError`, yields the empty list here; no claim reaches it). -/
def rangeList (a b c : Int) : List Int :=
  if 0 < c then
    (List.range (((b - a + c - 1) / c).toNat)).map (fun k => a + c * k)
  else if c < 0 then
    (List.range (((a - b + (-c) - 1) / (-c)).toNat)).map (fun k => a + c * k)
  else []

/-- One item of the `tknstr.split()` loop in `Select._getNumRange`
(lines 1846-1886).  `none` models the `return None` taken when `intfloat`
holds and the item is not numeric (the caller then fails with
`SelectionError`); malformed `to`/`:` forms raise `SelectionError`
directly. -/
def parseNumItem (intfloat : Bool) (item : String) :
    Except PyErr (Option NumItem) :=
  if strContains item "to" then
    match pySplit item "to" with
    | [a, b] =>
      match pyFloat? a, pyFloat? b with
      | some qa, some qb => .ok (some (.rng qa qb))
      | _, _ => .error .selErr
    | _ => .error .selErr
  else if strContains item ":" then
    match pySplit item ":" with
    | [a, b] =>
      match pyInt? a, pyInt? b with
      | some za, some zb => .ok (some (.slc za zb))
      | _, _ => .error .selErr
    | [a, b, c] =>
      match pyInt? a, pyInt? b, pyInt? c with
      | some za, some zb, some zc => .ok (some (.slc3 za zb zc))
      | _, _, _ => .error .selErr
    | _ => .error .selErr
  else
    match pyInt? item with
    | some z => .ok (some (.intg z))
    | none =>
      match pyFloat? item with
      | some q => .ok (some (.flt q))
      | none => if intfloat then .ok none else .ok (some (.strv item))

/-- List pass of `parseNumItem`; a `none` from any item aborts the whole
range (the source function returns `None`). -/
def parseNumItems (intfloat : Bool) : List String →
    Except PyErr (Option (List NumItem))
  | [] => .ok (some [])
  | item :: rest => do
    match ← parseNumItem intfloat item with
    | none => .ok none
    | some it =>
      match ← parseNumItems intfloat rest with
      | none => .ok none
      | some its => .ok (some (it :: its))

/-- `Select._getNumRange(token, intfloat)` (lines 1831-1888): join the
literal tokens with blanks, squeeze repeated blanks, glue the `to` and `:`
range forms together, then parse each resulting word.  The `None` result
of the source is folded into `.error .selErr`, which is what every caller
turns it into. -/
def getNumRange (token : List String) (intfloat : Bool) :
    Except PyErr (List NumItem) := do
  let tknstr := pyJoin " " token
  let tknstr := squeezeSpaces tknstr.length tknstr
  let tknstr := pyReplace (pyReplace (pyReplace tknstr " to " "to")
                  "to " "to") " to" "to"
  let tknstr := pyReplace (pyReplace (pyReplace tknstr " : " ":")
                  ": " ":") " :" ":"
  match ← parseNumItems intfloat (pySplitWhite tknstr) with
  | some items => .ok items
  | none => .error .selErr

/-! ## Leaf evaluators -/

/-- The value-paired leaf token lists of the grammar, i.e. the
non-boolean forms that `Select._evaluate` dispatches on a keyword head. -/
inductive BasicLeaf where
  /-- A string keyword with its literal values (`Select._evalAlnum`). -/
  | alnum (kw : String) (vals : List SVal)
  /-- `resnum` / `resid` with values (`Select._resnum`). -/
  | resnumL (vals : List String)
  /-- `serial` with values (`Select._serial`). -/
  | serialL (vals : List String)
  /-- `index` with values (`Select._index`). -/
  | indexL (vals : List String)
  /-- A float or integer keyword with values (`Select._evalFloat`). -/
  | floatKw (kw : String) (vals : List String)

/-- A leaf of the boolean expression grammar: a boolean keyword, a user
boolean data column, or a value-paired keyword. -/
inductive Leaf where
  | boolkw (kw : String)
  | udata (kw : String)
  | basic (b : BasicLeaf)

/-- `_specialKeywords` (line 844). -/
def specialKeywords : List String :=
  ["secondary", "chain", "altloc", "segment", "icode"]

/-- The underscore preprocessing of `Select._evalAlnum` (lines 1640-1645):
the first literal `'_'` is replaced by `' '` and an empty string is
appended (the loop breaks after the first hit). -/
def underscoreSub : List SVal → List SVal
  | [] => []
  | .str "_" :: rest => .str " " :: (rest ++ [.str ""])
  | v :: rest => v :: underscoreSub rest

/-- The mask computation at the heart of `Select._evalAlnum`
(lines 1651-1675).  The three string branches (single value, more than
four values via a set, two-to-four values via concatenate/sum) each set
`torf[i]` to the membership of `data[i]` in the string values.  The regex
loop then assigns `torf[i] = value.match(data[i]) is not None` for every
pattern in turn, each pass overwriting all entries, so only the last
pattern survives. -/
def alnumMask (data : List String) (strings : List String)
    (regexps : List (String → Bool)) : Mask :=
  let torf :=
    if strings.length = 1 then data.map (fun d => decide (d = strings.head!))
    else if 4 < strings.length then data.map (fun d => strings.contains d)
    else if strings ≠ [] then
      data.map (fun d => strings.any (fun s => decide (d = s)))
    else zerosMask data.length
  match regexps.getLast? with
  | some p => data.map p
  | none => torf

/-- `Select._evalAlnum(keyword, values, evalonly)` (lines 1633-1675). -/
def Select_evalAlnum (g : AtomGroup) (kw : String) (vals : List SVal)
    (ev : Option (List Nat)) : Except PyErr Mask := do
  let kw := (lookupCol KEYWORDS_SYNONYMS kw).getD kw
  let data0 ← strColE g kw
  let vals := if specialKeywords.contains kw then underscoreSub vals else vals
  let data := match ev with
    | none => data0
    | some idx => restrictD idx data0 ""
  let strings := vals.filterMap (fun v =>
    match v with | .str s => some s | .regex _ => none)
  let regexps := vals.filterMap (fun v =>
    match v with | .str _ => none | .regex p => some p)
  .ok (alnumMask data strings regexps)

/-- Shared application of one `NumItem` to an integer data column
(`Select._resnum` / `Select._serial`, lines 1736-1760 and 1780-1790):
`torf[data == item] = True` for single numbers, the inclusive/exclusive
range assignments for `rng`/`slc`, and the stride loop for `slc3`. -/
def intItemStep (data : List Int) (torf : Mask) : NumItem → Mask
  | .intg z => orWhere torf (data.map (fun r => decide (r = z)))
  | .flt q => orWhere torf (data.map (fun (r : Int) => decide ((r : ℚ) = q)))
  | .rng a b =>
    orWhere torf (data.map (fun (r : Int) => decide (a ≤ (r : ℚ)) &&
      decide ((r : ℚ) ≤ b)))
  | .slc a b =>
    orWhere torf (data.map (fun r => decide (a ≤ r) && decide (r < b)))
  | .slc3 a b c =>
    (rangeList a b c).foldl
      (fun t i => orWhere t (data.map (fun r => decide (r = i)))) torf
  | .strv _ => torf

/-- One item application in `Select._resnum` (lines 1736-1760): a string
item carries an insertion-code suffix and matches number and insertion
code together; the remaining items behave as in `intItemStep`.  A string
item whose numeric part does not parse, or encountered with no icode
column loaded, makes the evaluation fail (`return None`). -/
def resnumItemStep (resids : List Int) (icodes : Option (List String))
    (torf : Mask) (it : NumItem) : Except PyErr Mask :=
  match it with
  | .strv s =>
    let icode := match s.toList.getLast? with
      | some c => if c = '_' then "" else String.mk [c]
      | none => ""
    match pyInt? (String.mk s.toList.dropLast), icodes with
    | some num, some ics =>
      .ok (orWhere torf (List.zipWith
        (fun r ic => decide (r = num) && decide (ic = icode)) resids ics))
    | _, _ => .error .selErr
  | _ => .ok (intItemStep resids torf it)

/-- `Select._resnum(token, numRange=True, evalonly)` (lines 1716-1761);
the `icode` column is loaded when some item carries an insertion-code
suffix (the source loads it lazily at the first string item). -/
def Select_resnum (g : AtomGroup) (token : List String)
    (ev : Option (List Nat)) : Except PyErr Mask := do
  let resids0 ← intColE g "resnum"
  let resids := match ev with
    | none => resids0
    | some idx => restrictD idx resids0 0
  let items ← getNumRange token false
  let icodes ←
    if items.any (fun it => match it with | .strv _ => true | _ => false) then
      do
        let ic ← strColE g "icode"
        pure (some (match ev with
          | none => ic
          | some idx => restrictD idx ic ""))
    else pure (none : Option (List String))
  items.foldlM (resnumItemStep resids icodes) (zerosMask resids.length)

/-- `Select._serial(token, evalonly)` (lines 1763-1792): like `_resnum`
without insertion codes, with `intfloat` left `True` in `_getNumRange`. -/
def Select_serial (g : AtomGroup) (token : List String)
    (ev : Option (List Nat)) : Except PyErr Mask := do
  let serials0 ← intColE g "serial"
  let serials := match ev with
    | none => serials0
    | some idx => restrictD idx serials0 0
  let items ← getNumRange token true
  .ok (items.foldl (intItemStep serials) (zerosMask serials.length))

/-- Python slice normalization for the assignments `torf[a:b] = True` and
`torf[a:b:c] = True` in `Select._index` (negative indices wrap once,
bounds clamp). -/
def pySliceIdxs (n : Nat) (a b c : Int) : List Int :=
  if c = 0 then []
  else if 0 < c then
    let start := if a < 0 then max (a + n) 0 else min a n
    let stop := if b < 0 then max (b + n) 0 else min b n
    rangeList start stop c
  else
    let start := if a < 0 then max (a + n) (-1) else min a ((n : Int) - 1)
    let stop := if b < 0 then max (b + n) (-1) else min b ((n : Int) - 1)
    rangeList start stop c

/-- Single-index assignment `torf[z] = True` with Python index semantics;
an out-of-range index raises `IndexError`, which `Select._index` catches
and ignores. -/
def pyIndexSet (torf : Mask) (z : Int) : Mask :=
  let i := if z < 0 then z + torf.length else z
  if 0 ≤ i ∧ i < torf.length then torf.set i.toNat true else torf

/-- One `NumItem` application in `Select._index` (lines 1805-1818):
tuples become slice assignments, a float list becomes
`torf[ceil(lo):floor(hi)+1] = True`, single numbers become one-element
assignments (a float single index is truncated, as the numpy of the
source's era did). -/
def indexItemStep (torf : Mask) : NumItem → Mask
  | .slc a b => (pySliceIdxs torf.length a b 1).foldl
      (fun t i => pyIndexSet t i) torf
  | .slc3 a b c => (pySliceIdxs torf.length a b c).foldl
      (fun t i => pyIndexSet t i) torf
  | .rng a b => (pySliceIdxs torf.length ⌈a⌉ (⌊b⌋ + 1) 1).foldl
      (fun t i => pyIndexSet t i) torf
  | .intg z => pyIndexSet torf z
  | .flt q => pyIndexSet torf ⌊q⌋
  | .strv _ => torf

/-- `Select._index(token, evalonly)` (lines 1794-1829), for evaluation over
a whole atom group (`self._indices is None`): the mask is built over the
atom-group length and then restricted by `evalonly`. -/
def Select_index (g : AtomGroup) (token : List String)
    (ev : Option (List Nat)) : Except PyErr Mask := do
  let items ← getNumRange token true
  let torf := items.foldl indexItemStep (zerosMask g.natoms)
  .ok (match ev with
    | none => torf
    | some idx => restrict idx torf)

/-- One `NumItem` application to a float data column
(`Select._evalFloat`, lines 1702-1713): strings are skipped, a
three-element tuple makes the whole evaluation fail (`return None`), the
rest mirror `intItemStep` with numeric comparison. -/
def floatItemStep (data : List ℚ) (torf : Mask) :
    NumItem → Except PyErr Mask
  | .strv _ => .ok torf
  | .rng a b =>
    .ok (orWhere torf (data.map (fun x => decide (a ≤ x) && decide (x ≤ b))))
  | .slc a b =>
    .ok (orWhere torf (data.map (fun x => decide ((a : ℚ) ≤ x) &&
      decide (x < (b : ℚ)))))
  | .slc3 _ _ _ => .error .selErr
  | .intg z => .ok (orWhere torf (data.map (fun x => decide (x = (z : ℚ)))))
  | .flt q => .ok (orWhere torf (data.map (fun x => decide (x = q))))

/-- `Select._evalFloat(keyword, values, evalonly)` (lines 1677-1714) for a
value-paired float or integer keyword. -/
def Select_evalFloat (g : AtomGroup) (kw : String) (vals : List String)
    (ev : Option (List Nat)) : Except PyErr Mask := do
  let data0 ← numericColE g kw
  let data := match ev with
    | none => data0
    | some idx => restrictD idx data0 0
  let items ← getNumRange vals true
  items.foldlM (floatItemStep data) (zerosMask data.length)

/-- Dispatch of `Select._evaluate` on a value-paired token list
(lines 1197-1206). -/
def evalBasicOn (g : AtomGroup) (b : BasicLeaf) (ev : Option (List Nat)) :
    Except PyErr Mask :=
  match b with
  | .alnum kw vals => Select_evalAlnum g kw vals ev
  | .resnumL vals => Select_resnum g vals ev
  | .serialL vals => Select_serial g vals ev
  | .indexL vals => Select_index g vals ev
  | .floatKw kw vals => Select_evalFloat g kw vals ev

/-! ## The short-circuit chain combinators (`Select._and`, `Select._or`)

The parse actions receive a flat operand list (pyparsing flattens
left-associative chains of the same operator).  Operands from deeper
precedence levels arrive already evaluated as numpy boolean arrays; single
keywords and value-paired token lists arrive unevaluated and are run
through `Select._evaluate` restricted to the current `evalonly` index set.
The two combinators below are parametric in the operand evaluator so they
serve both the top-level chains and the internal chain that
`Select._evalBoolean` builds from `expandBoolean` output. -/

/-- Middle-and-tail loop of `Select._and` (lines 1267-1313), carrying
`selection` and `evalonly`: each middle operand scatters its restricted
mask into `selection` and narrows `evalonly` to the operand's hits; the
final operand only scatters. -/
def Select_andGo (evalOp : α → Option (List Nat) → Except PyErr Mask)
    (sel : Mask) (ev : List Nat) : List α → Except PyErr Mask
  | [] => .ok sel
  | [last] => do
    let torf ← evalOp last (some ev)
    .ok (scatter sel ev torf)
  | op :: rest => do
    let torf ← evalOp op (some ev)
    Select_andGo evalOp (scatter sel ev torf) (filterIdx ev torf) rest

/-- `Select._and(selstr, location, tokens)` (lines 1261-1313).  A single
operand is evaluated unrestricted and returned; otherwise the first
operand's full mask becomes `selection` and its hit indices become
`evalonly` for the rest of the chain. -/
def Select_and (evalOp : α → Option (List Nat) → Except PyErr Mask) :
    List α → Except PyErr Mask
  | [] => .error .selErr
  | [only] => evalOp only none
  | first :: rest => do
    let sel ← evalOp first none
    Select_andGo evalOp sel (nonzero sel) rest

/-- Middle-and-tail loop of `Select._or` (lines 1218-1259).  Each middle
operand sets `selection` at its hits; line 1239 then narrows `evalonly`
with `evalonly[torf.nonzero()[0]]`, i.e. to the atoms the operand just
selected — not to the still-unselected ones.  This definition mirrors the
source, including that narrowing. -/
def Select_orGo (evalOp : α → Option (List Nat) → Except PyErr Mask)
    (sel : Mask) (ev : List Nat) : List α → Except PyErr Mask
  | [] => .ok sel
  | [last] => do
    let torf ← evalOp last (some ev)
    .ok (setIdxs sel (filterIdx ev torf) true)
  | op :: rest => do
    let torf ← evalOp op (some ev)
    Select_orGo evalOp (setIdxs sel (filterIdx ev torf) true)
      (filterIdx ev torf) rest

/-- `Select._or(selstr, location, tokens)` (lines 1213-1259).  A chain
with fewer than two operands is never produced by the parser (the source
would dereference an unset `selection`); the first operand's full mask
becomes `selection`, the indices of its `False` entries become
`evalonly`. -/
def Select_or (evalOp : α → Option (List Nat) → Except PyErr Mask) :
    List α → Except PyErr Mask
  | [] => .error .selErr
  | [_] => .error .selErr
  | first :: rest => do
    let sel ← evalOp first none
    Select_orGo evalOp sel (nonzero (negMask sel)) rest

/-! ## Boolean keywords (`expandBoolean`, `Select._evalBoolean`) -/

/-- An operand of the internal `_and` chain built by `expandBoolean`:
a value-paired token list, optionally preceded by the `NOT` token. -/
inductive BOp where
  | pos (b : BasicLeaf)
  | negd (b : BasicLeaf)

/-- Operand evaluation for `expandBoolean` chains: the `NOT`-prefixed
token lists go through `Select._not`, which evaluates the rest restricted
to `evalonly` and inverts in place. -/
def evalBOp (g : AtomGroup) (op : BOp) (ev : Option (List Nat)) :
    Except PyErr Mask :=
  match op with
  | .pos b => evalBasicOn g b ev
  | .negd b => do
    let m ← evalBasicOn g b ev
    .ok (negMask m)

/-- `expandBoolean(keyword)` (lines 854-877) as the operand list of the
`_and` chain that `Select._evalBoolean` runs: the optional (possibly
inverted) atom-name membership test followed by the optional (possibly
inverted) residue-name membership test; secondary-structure keywords
expand to a `secondary` value pair.  A keyword in neither table cannot
reach here from `KEYWORDS_BOOLEAN` and fails. -/
def expandBooleanOps (ks : KeywordState) (kw : String) :
    Except PyErr (List BOp) :=
  match lookupCol ks.kmap kw with
  | some entry =>
    let nameOps : List BOp :=
      match entry.atomNames with
      | none => []
      | some pats =>
        [if entry.anInvert then .negd (.alnum "name" pats)
         else .pos (.alnum "name" pats)]
    let rnOps : List BOp :=
      match entry.resNames with
      | none => []
      | some rns =>
        [if entry.rnInvert then .negd (.alnum "resname" (rns.map SVal.str))
         else .pos (.alnum "resname" (rns.map SVal.str))]
    .ok (nameOps ++ rnOps)
  | none =>
    match lookupCol SECSTR_MAP kw with
    | some code => .ok [.pos (.alnum "secondary" [SVal.str code])]
    | none => .error .selErr

/-- `Select._evalBoolean(keyword, evalonly)` (lines 1613-1631): `all` and
`none` are constant masks over the current atom count; every other
boolean keyword runs its expansion through `Select._and` on the full
store and is then restricted by `evalonly`. -/
def Select_evalBoolean (g : AtomGroup) (ks : KeywordState) (kw : String)
    (ev : Option (List Nat)) : Except PyErr Mask :=
  let n := match ev with
    | none => g.natoms
    | some idx => idx.length
  if kw = "all" then .ok (onesMask n)
  else if kw = "none" then .ok (zerosMask n)
  else do
    let ops ← expandBooleanOps ks kw
    let torf ← Select_and (evalBOp g) ops
    .ok (match ev with
      | none => torf
      | some idx => restrict idx torf)

/-- `Select._evalUserdata(keyword, values=None, evalonly)`
(lines 1594-1604): a bare user data keyword is valid only for a boolean
column, whose (copied, see `AtomSubset.getData`) array is returned,
restricted by `evalonly`. -/
def Select_evalUserdata (g : AtomGroup) (kw : String)
    (ev : Option (List Nat)) : Except PyErr Mask :=
  match lookupCol g.boolData kw with
  | some data => .ok (match ev with
    | none => data
    | some idx => restrict idx data)
  | none => .error .selErr

/-- Leaf dispatch of `Select._evaluate` (lines 1169-1211) restricted to an
optional `evalonly` index set. -/
def evalLeafOn (g : AtomGroup) (ks : KeywordState) (l : Leaf)
    (ev : Option (List Nat)) : Except PyErr Mask :=
  match l with
  | .boolkw kw => Select_evalBoolean g ks kw ev
  | .udata kw => Select_evalUserdata g kw ev
  | .basic b => evalBasicOn g b ev

/-! ## Numeric expressions (`Select._evalNumeric` and arithmetic callbacks) -/

/-- A numeric intermediate value: a Python float scalar or a full numpy
numeric array. -/
inductive NumVal where
  | scalar (q : ℚ)
  | arr (xs : List ℚ)
  deriving DecidableEq, Repr

/-- A comparison intermediate value: a scalar bool or a boolean array. -/
inductive CVal where
  | scalar (b : Bool)
  | arr (xs : List Bool)
  deriving DecidableEq, Repr

/-- Numpy broadcasting of a binary arithmetic operation; arrays of unequal
length raise (`ValueError`).  (Numpy would also broadcast a length-one
array; the evaluator only produces full-length columns, so that case is
not modelled.) -/
def liftBin (f : ℚ → ℚ → ℚ) : NumVal → NumVal → Except PyErr NumVal
  | .scalar a, .scalar b => .ok (.scalar (f a b))
  | .scalar a, .arr b => .ok (.arr (b.map (fun x => f a x)))
  | .arr a, .scalar b => .ok (.arr (a.map (fun x => f x b)))
  | .arr a, .arr b =>
    if a.length = b.length then .ok (.arr (List.zipWith f a b))
    else .error .valueErr

/-- Numpy broadcasting of a comparison. -/
def liftCmp (f : ℚ → ℚ → Bool) : NumVal → NumVal → Except PyErr CVal
  | .scalar a, .scalar b => .ok (.scalar (f a b))
  | .scalar a, .arr b => .ok (.arr (b.map (fun x => f a x)))
  | .arr a, .scalar b => .ok (.arr (a.map (fun x => f x b)))
  | .arr a, .arr b =>
    if a.length = b.length then .ok (.arr (List.zipWith f a b))
    else .error .valueErr

/-- The chained-comparison accumulator `result *= BINOP_MAP[comp](...)` of
`Select._comp`: elementwise conjunction with broadcasting. -/
def cvalMul : CVal → CVal → Except PyErr CVal
  | .scalar a, .scalar b => .ok (.scalar (a && b))
  | .scalar a, .arr b => .ok (.arr (b.map (fun x => a && x)))
  | .arr a, .scalar b => .ok (.arr (a.map (fun x => x && b)))
  | .arr a, .arr b =>
    if a.length = b.length then
      .ok (.arr (List.zipWith (fun x y => x && y) a b))
    else .error .valueErr

/-- Python float modulo `a - b * floor(a / b)`; a zero divisor is handled
at `mulStep` (scalars raise), array entries with zero divisor are junk
(numpy produces `nan` there; no claim touches them). -/
def pymod (a b : ℚ) : ℚ := if b = 0 then 0 else a - b * ((a / b).floor : ℚ)

/-- Power with the integral exponents the claims can reach; non-integral
or negative exponents are junk zero (numpy float `**` is outside the
rational model). -/
def qpow (a b : ℚ) : ℚ :=
  if 0 ≤ b.num ∧ b.den = 1 then a ^ b.num.toNat else 0

/-- Python truthiness of `right == 0.0`, as evaluated by the guard in
`Select._mul`: a scalar compares directly; a one-element array compares
its element; a longer array raises numpy's ambiguous-truth `ValueError`. -/
def truthyEqZero : NumVal → Except PyErr Bool
  | .scalar q => .ok (decide (q = 0))
  | .arr [x] => .ok (decide (x = 0))
  | .arr [] => .ok false
  | .arr _ => .error .valueErr

/-- Arithmetic operator of a `_mul` chain. -/
inductive MulOp where
  | mul | div | mod
  deriving DecidableEq, Repr

/-- Operator of an `_add` chain. -/
inductive AddOp where
  | add | sub
  deriving DecidableEq, Repr

/-- Comparison operators of `BINOP_MAP`. -/
inductive CmpOp where
  | lt | gt | le | ge | eq | ne
  deriving DecidableEq, Repr

/-- One step of the `Select._mul` loop (src/prody/atomic/select.py lines
1524-1535): `if op == '/' and right == 0.0: raise SelectionError(selstr,
'This leads to zero division error.')`, otherwise apply `BINOP_MAP[op]`.
A scalar float modulo zero raises Python's `ZeroDivisionError` inside
`BINOP_MAP` (uncaught). -/
def mulStep (acc : NumVal) (op : MulOp) (r : NumVal) :
    Except PyErr NumVal :=
  match op with
  | .div => do
    let z ← truthyEqZero r
    if z then .error .selErr else liftBin (fun a b => a / b) acc r
  | .mul => liftBin (fun a b => a * b) acc r
  | .mod =>
    match acc, r with
    | .scalar _, .scalar b =>
      if b = 0 then .error .zeroDiv else liftBin pymod acc r
    | _, _ => liftBin pymod acc r

/-- `BINOP_MAP` comparison semantics. -/
def cmpStep (op : CmpOp) (l r : NumVal) : Except PyErr CVal :=
  match op with
  | .lt => liftCmp (fun a b => decide (a < b)) l r
  | .gt => liftCmp (fun a b => decide (b < a)) l r
  | .le => liftCmp (fun a b => decide (a ≤ b)) l r
  | .ge => liftCmp (fun a b => decide (b ≤ a)) l r
  | .eq => liftCmp (fun a b => decide (a = b)) l r
  | .ne => liftCmp (fun a b => decide (a ≠ b)) l r

/-- Numeric expression tree, mirroring the arithmetic precedence levels of
the tokenizer (function application, unary sign, `**`, `* / %`, `+ -`).
The flat operand lists mirror pyparsing's flattened left-associative
chains.  `FUNCTION_MAP` entries are carried as their real-function
semantics. -/
inductive NExpr where
  /-- A bare numeric literal token (resolved by `float(token)`). -/
  | lit (q : ℚ)
  /-- A numeric keyword or numeric user data column
  (`Select._evalNumeric`). -/
  | kw (k : String)
  /-- `Select._sign`. -/
  | signE (neg : Bool) (e : NExpr)
  /-- `Select._func` with the mathematical function applied elementwise. -/
  | funcE (f : ℚ → ℚ) (e : NExpr)
  /-- `Select._pow`: base and the exponent chain. -/
  | powE (base : NExpr) (rest : List NExpr)
  /-- `Select._mul`: first operand and the `(op, operand)` chain. -/
  | mulE (first : NExpr) (rest : List (MulOp × NExpr))
  /-- `Select._add`. -/
  | addE (first : NExpr) (rest : List (AddOp × NExpr))

/-- `Select._evalNumeric(token)` (lines 1538-1566) on a keyword token:
float keywords read their column (coordinates for `x`/`y`/`z`), `resnum` /
`index` / `serial` read theirs, other numeric keywords and numeric user
data go through `_getData`. -/
def evalNumKw (g : AtomGroup) (k : String) : Except PyErr NumVal :=
  if KEYWORDS_FLOAT.contains k then do
    let d ← numericColE g k
    .ok (.arr d)
  else if k = "resnum" ∨ k = "resid" then do
    let d ← intColE g "resnum"
    .ok (.arr (d.map (fun (z : Int) => (z : ℚ))))
  else if k = "index" then
    .ok (.arr ((List.range g.natoms).map (fun (i : Nat) => ((i : Int) : ℚ))))
  else if k = "serial" then do
    let d ← intColE g "serial"
    .ok (.arr (d.map (fun (z : Int) => (z : ℚ))))
  else if KEYWORDS_INTEGER.contains k then do
    let d ← intColE g k
    .ok (.arr (d.map (fun (z : Int) => (z : ℚ))))
  else
    match lookupCol g.numData k with
    | some d => .ok (.arr d)
    | none =>
      match lookupCol g.intData k with
      | some d => .ok (.arr (d.map (fun (z : Int) => (z : ℚ))))
      | none => .error .selErr

/-- Loop of `Select._mul`, parametric in the operand evaluator (the
recursion into sub-expressions is tied at `evalNum`). -/
def evalMulList (ev : NExpr → Except PyErr NumVal) (acc : NumVal) :
    List (MulOp × NExpr) → Except PyErr NumVal
  | [] => .ok acc
  | (op, e) :: rest => do
    let r ← ev e
    let acc' ← mulStep acc op r
    evalMulList ev acc' rest

/-- `BINOP_MAP` semantics of `+` and `-`. -/
def addOpFn : AddOp → ℚ → ℚ → ℚ
  | .add => fun a b => a + b
  | .sub => fun a b => a - b

/-- Loop of `Select._add`. -/
def evalAddList (ev : NExpr → Except PyErr NumVal) (acc : NumVal) :
    List (AddOp × NExpr) → Except PyErr NumVal
  | [] => .ok acc
  | (op, e) :: rest => do
    let r ← ev e
    let acc' ← liftBin (addOpFn op) acc r
    evalAddList ev acc' rest

/-- Exponent chain of `Select._pow` (lines 1480-1495): the last operand is
evaluated first, then the remaining ones, moving left, are multiplied
onto it (`power = number * power`), matching `(a**b)**c = a**(b*c)`. -/
def evalPowList (ev : NExpr → Except PyErr NumVal) :
    List NExpr → Except PyErr NumVal
  | [] => .error .selErr
  | [e] => ev e
  | e :: rest => do
    let p ← evalPowList ev rest
    let n ← ev e
    liftBin (fun a b => a * b) n p

/-- Fuel-indexed evaluation of a numeric expression. -/
def evalNum (g : AtomGroup) : Nat → NExpr → Except PyErr NumVal
  | 0, _ => .error .fuel
  | fuel + 1, e =>
    match e with
    | .lit q => .ok (.scalar q)
    | .kw k => evalNumKw g k
    | .signE neg e' => do
      let v ← evalNum g fuel e'
      .ok (if neg then
        (match v with
         | .scalar q => .scalar (-q)
         | .arr xs => .arr (xs.map (fun x => -x)))
        else v)
    | .funcE f e' => do
      let v ← evalNum g fuel e'
      .ok (match v with
        | .scalar q => .scalar (f q)
        | .arr xs => .arr (xs.map f))
    | .powE base rest => do
      let b ← evalNum g fuel base
      let p ← evalPowList (evalNum g fuel) rest
      liftBin qpow b p
    | .mulE first rest => do
      let l ← evalNum g fuel first
      evalMulList (evalNum g fuel) l rest
    | .addE first rest => do
      let l ← evalNum g fuel first
      evalAddList (evalNum g fuel) l rest

/-- Loop of `Select._comp` (lines 1456-1474): evaluate the right operand
of each comparison, combine with the accumulated result by elementwise
multiplication, and carry the right operand as the next left operand. -/
def evalCmpList (ev : NExpr → Except PyErr NumVal) (left : NumVal)
    (acc : Option CVal) : List (CmpOp × NExpr) → Except PyErr CVal
  | [] =>
    match acc with
    | some r => .ok r
    | none => .error .selErr
  | (op, e) :: rest => do
    let right ← ev e
    let pair ← cmpStep op left right
    let acc' ← match acc with
      | none => pure pair
      | some r => cvalMul r pair
    evalCmpList ev right (some acc') rest

/-! ## Spatial queries (`Select._within`) -/

/-- Squared Euclidean distance between two coordinate triples. -/
def dist2 (p q : ℚ × ℚ × ℚ) : ℚ :=
  (p.1 - q.1) * (p.1 - q.1) + (p.2.1 - q.2.1) * (p.2.1 - q.2.1) +
  (p.2.2 - q.2.2) * (p.2.2 - q.2.2)

/-- Modelled from the spec: the radius query of the spatial index
(`kdtree.search(point, radius)` followed by `kdtree.get_indices()`).  The
KD-tree comes from Bio.KDTree via `prody.measure.getKDTree`, which is not
under src/; per spec sections 4.3 and 6 it returns the indices of the
coordinates within the radius, inclusively (`<=`).  Distances are
compared squared, which agrees with `dist <= r` for the non-negative
radii the grammar can produce. -/
def kdtreeQuery (coords : List (ℚ × ℚ × ℚ)) (p : ℚ × ℚ × ℚ) (r : ℚ) :
    List Nat :=
  (List.range coords.length).filter
    (fun i => decide (dist2 (coords.getD i (0, 0, 0)) p ≤ r * r))

/-- Sparse branch of `Select._within` (lines 1387-1398), for evaluation
over a whole atom group: query the index built over all atoms once per
reference atom and union the hits; `exwithin` then clears the reference
atoms. -/
def withinSparse (g : AtomGroup) (r : ℚ) (excl : Bool)
    (which : List Nat) : Mask :=
  let torf := which.foldl
    (fun t i => setIdxs t (kdtreeQuery g.coords (g.coords.getD i (0, 0, 0)) r)
      true)
    (zerosMask g.natoms)
  if excl then setIdxs torf which false else torf

/-- Dense branch of `Select._within` (lines 1399-1418): build the index
over the reference atoms' coordinates, query every non-reference
candidate against it, and for `within` add the reference atoms back. -/
def withinDense (g : AtomGroup) (r : ℚ) (excl : Bool)
    (which : List Nat) : Mask :=
  let check := nonzero (setIdxs (onesMask g.natoms) which false)
  let refcoords := which.map (fun i => g.coords.getD i (0, 0, 0))
  let sel := (List.range check.length).filter
    (fun k => kdtreeQuery refcoords
      (g.coords.getD (check.getD k 0) (0, 0, 0)) r ≠ [])
  let torf := setIdxs (zerosMask g.natoms)
    (sel.map (fun k => check.getD k 0)) true
  if excl then torf else setIdxs torf which true

/-- `Select._within(tokens, exclude)` (lines 1343-1419) applied to the
boolean mask of the nested sub-expression: the sparse strategy is taken
for fewer than 20 reference atoms, the dense one otherwise. -/
def SelectWithin (g : AtomGroup) (r : ℚ) (excl : Bool) (m : Mask) : Mask :=
  let which := nonzero m
  if which.length < 20 then withinSparse g r excl which
  else withinDense g r excl which

/-- The context-operand branch of `Select._within` (lines 1358-1379): the
operand names a coordinate array passed through `kwargs`; `exclude` is
forced off and the sparse loop runs over the given points against the
index built over the atoms. -/
def withinPoints (g : AtomGroup) (r : ℚ) (pts : List (ℚ × ℚ × ℚ)) : Mask :=
  pts.foldl (fun t p => setIdxs t (kdtreeQuery g.coords p r) true)
    (zerosMask g.natoms)

/-- `Select._sameas(token)` (lines 1421-1446): map the matched atoms to
their `resindex` / `chindex` / `segindex` group identities and select
every atom whose identity is touched (`_evalFloat` called with the array
of `np.unique` values reduces to exactly this membership loop). -/
def SelectSame (g : AtomGroup) (what : String) (m : Mask) :
    Except PyErr Mask := do
  let which := nonzero m
  let col ←
    if what = "residue" then intColE g "resindex"
    else if what = "chain" then intColE g "chindex"
    else if what = "segment" then intColE g "segindex"
    else .error .selErr
  let vals := which.map (fun i => col.getD i 0)
  .ok (vals.foldl
    (fun t v => orWhere t (col.map (fun x => decide (x = v))))
    (zerosMask col.length))

/-! ## The expression tree and the top-level evaluator -/

mutual

/-- A parsed boolean sub-expression, mirroring the token trees that the
precedence levels of the tokenizer hand to the callbacks. -/
inductive SExpr where
  /-- A leaf token (list). -/
  | leaf (l : Leaf)
  /-- `NOT` at the unary precedence level (`Select._unary` →
  `Select._not`). -/
  | notE (e : SExpr)
  /-- A flattened `and` chain. -/
  | andE (ops : List Operand)
  /-- A flattened `or` chain. -/
  | orE (ops : List Operand)
  /-- `within r of ...` / `exwithin r of ...` over a nested
  sub-expression. -/
  | withinE (r : ℚ) (excl : Bool) (e : SExpr)
  /-- `within r of ...` over a context coordinate operand. -/
  | withinCtx (r : ℚ) (pts : List (ℚ × ℚ × ℚ))
  /-- `same residue|chain|segment as ...`. -/
  | sameE (what : String) (e : SExpr)
  /-- A comparison chain (`Select._comp`). -/
  | compE (first : NExpr) (rest : List (CmpOp × NExpr))

/-- An operand of an `and` / `or` chain: a nested sub-expression (already
evaluated to an array when the chain callback runs), a leaf token (list),
or a leaf preceded by the `NOT` token (produced by `expandBoolean`;
at the top level `not` is consumed by the unary level first). -/
inductive Operand where
  | sub (e : SExpr)
  | leafOp (l : Leaf)
  | notOp (l : Leaf)

end

/-- A chain operand after the nested sub-expressions have been evaluated
(the state in which `Select._and` / `Select._or` receive their tokens). -/
inductive GOp where
  | arr (m : Mask)
  | leafOp (l : Leaf)
  | notOp (l : Leaf)

/-- Operand evaluation inside a chain (`Select._and` / `Select._or`
bodies): an array operand is restricted by plain indexing
(`previous[evalonly]`); a leaf goes through `Select._evaluate` with
`evalonly`; a `NOT`-prefixed leaf goes through `Select._not`, which
evaluates the rest restricted and inverts. -/
def evalGOp (g : AtomGroup) (ks : KeywordState) (op : GOp)
    (ev : Option (List Nat)) : Except PyErr Mask :=
  match op with
  | .arr a => .ok (match ev with
    | none => a
    | some idx => restrict idx a)
  | .leafOp l => evalLeafOn g ks l ev
  | .notOp l => do
    let m ← evalLeafOn g ks l ev
    .ok (negMask m)

/-- Resolution of the raw chain operands: nested sub-expressions are
evaluated (this happens during parsing, before the chain callback runs),
leaves stay symbolic for the `evalonly` narrowing. -/
def resolveOps (ev : SExpr → Except PyErr Mask) :
    List Operand → Except PyErr (List GOp)
  | [] => .ok []
  | op :: rest => do
    let gop ← match op with
      | .sub e => do
        let m ← ev e
        pure (GOp.arr m)
      | .leafOp l => pure (GOp.leafOp l)
      | .notOp l => pure (GOp.notOp l)
    let gops ← resolveOps ev rest
    .ok (gop :: gops)

/-- Fuel-indexed evaluation of a boolean expression, mirroring
`Select._evalSelstr` / `Select._evaluate` and the parse-action callbacks.
Exhausted fuel gives the artificial `PyErr.fuel`; any fuel at least the
nesting depth of the expression evaluates it fully. -/
def evalExpr (g : AtomGroup) (ks : KeywordState) :
    Nat → SExpr → Except PyErr Mask
  | 0, _ => .error .fuel
  | fuel + 1, e =>
    match e with
    | .leaf l => evalLeafOn g ks l none
    | .notE e' => do
      let m ← evalExpr g ks fuel e'
      .ok (negMask m)
    | .andE ops => do
      let gops ← resolveOps (evalExpr g ks fuel) ops
      Select_and (evalGOp g ks) gops
    | .orE ops => do
      let gops ← resolveOps (evalExpr g ks fuel) ops
      Select_or (evalGOp g ks) gops
    | .withinE r excl e' => do
      let m ← evalExpr g ks fuel e'
      .ok (SelectWithin g r excl m)
    | .withinCtx r pts => .ok (withinPoints g r pts)
    | .sameE what e' => do
      let m ← evalExpr g ks fuel e'
      SelectSame g what m
    | .compE first rest => do
      let l ← evalNum g fuel first
      let c ← evalCmpList (evalNum g fuel) l none rest
      match c with
      | .arr xs => .ok xs
      | .scalar _ => .error .selErr

/-- `Select.getBoolArray(atoms, selstr)` (lines 958-1002) for a whole
atom group: evaluate the parsed expression; the trailing
ndarray/bool-dtype checks are enforced by the `Mask` result type (a
scalar comparison result is rejected inside `compE` evaluation). -/
def getBoolArray (g : AtomGroup) (ks : KeywordState) (fuel : Nat)
    (e : SExpr) : Except PyErr Mask :=
  evalExpr g ks fuel e

/-- `Select.getIndices(atoms, selstr)` (lines 1004-1008):
`torf.nonzero()[0]` on the boolean mask. -/
def getIndices (g : AtomGroup) (ks : KeywordState) (fuel : Nat)
    (e : SExpr) : Except PyErr (List Nat) := do
  let torf ← getBoolArray g ks fuel e
  .ok (nonzero torf)

/-! ## Selection macro management

`defSelectionMacro` / `delSelectionMacro` (src/prody/atomic/select.py
lines 614-655).  The `MACROS` table is an association list; the reference
compile check `ATOMGROUP.select(selstr)` runs against a reference atom
group built outside src/, so it is abstracted as a predicate `compiles`
(true when `select` does not raise `SelectionError`).  The boolean in
the result records whether a `LOGGER.warn`/`LOGGER.warning` was issued. -/

/-- `KEYWORDS_BOOLEAN` (line 439): `all`, `none`, the `KEYWORD_MAP` keys
and the `SECSTR_MAP` keys, fixed at import time. -/
def KEYWORDS_BOOLEAN : List String :=
  ["all", "none"] ++ initState.kmap.map (fun p => p.1) ++
  SECSTR_MAP.map (fun p => p.1)

/-- `isKeyword(keyword)` (line 813): boolean or value-paired. -/
def isKeywordW (w : String) : Bool :=
  KEYWORDS_BOOLEAN.contains w || KEYWORDS_STRING.contains w ||
  KEYWORDS_INTEGER.contains w || KEYWORDS_FLOAT.contains w

/-- `FUNCTION_MAP` keys (including the source's `tahn` typo). -/
def functionNames : List String :=
  ["sqrt", "sq", "abs", "floor", "ceil", "sin", "cos", "tan", "asin",
   "acos", "atan", "sinh", "cosh", "tahn", "exp", "log", "log10"]

/-- The literal part of `RESERVED` (lines 822-826).  The
`ATOMIC_DATA_FIELDS` / `ATOMIC_ATTRIBUTES` keys merged into the set come
from atomic/fields.py, which is not under src/ and is omitted; those keys
largely coincide with the keyword lists, and the claims below only use
words of this literal list. -/
def RESERVED_core : List String :=
  ["and", "or", "not", "within", "of", "exwithin", "same", "as",
   "n_atoms", "n_csets", "cslabels", "title", "coordinates", "bonds",
   "bmap", "numbonds"] ++ KEYWORDS_SYNONYMS.map (fun p => p.1)

/-- `isReserved(word)` (lines 828-829). -/
def isReservedW (w : String) : Bool :=
  RESERVED_core.contains w || isKeywordW w || functionNames.contains w

/-- Python `str.isalpha()` (ASCII letters suffice for the words below). -/
def pyIsAlpha (s : String) : Bool :=
  s ≠ "" && s.toList.all Char.isAlpha

/-- Python `str.islower()`: at least one cased character and no uppercase
one. -/
def pyIsLower (s : String) : Bool :=
  (s.toList.any (fun c => c.isLower || c.isUpper)) &&
  s.toList.all (fun c => !c.isUpper)

/-- `defSelectionMacro(name, selstr)` (lines 614-641): a keyword name
raises `ValueError`, as does a name that is not all lowercase letters;
a body that fails to compile is reported with `LOGGER.warn` and the table
is left untouched; otherwise the macro is stored.  The `TypeError` branch
for non-string arguments is discharged by the Lean types. -/
def defSelectionMacroFn (table : List (String × String))
    (name selstr : String) (compiles : String → Bool) :
    Except PyErr (List (String × String) × Bool) :=
  if isKeywordW name then .error .valueErr
  else if !(pyIsAlpha name && pyIsLower name) then .error .valueErr
  else if compiles selstr then .ok (updateTable table name selstr, false)
  else .ok (table, true)

/-- `delSelectionMacro(name)` (lines 643-655): a missing name is reported
with `LOGGER.warning` and the table is unchanged; a present name is
removed. -/
def delSelectionMacroFn (table : List (String × String)) (name : String) :
    List (String × String) × Bool :=
  if table.any (fun p => p.1 = name) then
    (table.filter (fun p => p.1 ≠ name), false)
  else (table, true)

/-! ## Heap-level model of the mask data flow (for the purity claim)

The evaluator mutates numpy arrays in place in exactly two styles:
`np.invert(torf, torf)` in `Select._not` and the scatter assignments into
`selection` in `Select._and` / `Select._or`.  Whether those writes can
reach a stored attribute array is a question about array object identity,
so here masks become references into a heap of buffers.  User boolean
columns live in the heap; `AtomSubset.getData` (src/prody/atomic/subset.py
line 236) returns `data[self._indices]`, a fresh array, so the read
allocates a copy.  (`AtomGroup.getData`, not under src/, is modelled from
the spec with the same copying read, matching its sibling in subset.py
and the spec's purity contract.)  All other leaf evaluations build their
masks in fresh arrays (`np.zeros` / comparison results), so they allocate
their pure value. -/

/-- The buffer heap; a numpy bool array is an index into it. -/
abbrev Heap := List (List Bool)

/-- The store's user boolean columns as references into the heap. -/
structure AgHeap where
  cols : List (String × Nat)

/-- The value snapshot of the heap-resident columns, used to tie the
heap evaluator to the pure one. -/
def snapshotCols (h : Heap) (ag : AgHeap) : List (String × List Bool) :=
  ag.cols.map (fun p => (p.1, h.getD p.2 []))

/-- Heap-threading variant of `Select_andGo`: the scatters write the
`selection` buffer in place; the `torf` masks of the later operands are
fresh temporaries and stay values. -/
def heapAndGo (evalOp : GOp → Option (List Nat) → Except PyErr Mask)
    (h : Heap) (selRef : Nat) (evIdx : List Nat) :
    List GOp → Except PyErr (Heap × Nat)
  | [] => .ok (h, selRef)
  | [last] => do
    let torf ← evalOp last (some evIdx)
    .ok (h.set selRef (scatter (h.getD selRef []) evIdx torf), selRef)
  | op :: rest => do
    let torf ← evalOp op (some evIdx)
    heapAndGo evalOp (h.set selRef (scatter (h.getD selRef []) evIdx torf))
      selRef (filterIdx evIdx torf) rest

/-- Heap-threading variant of `Select_orGo` (with the source's
line-1239 narrowing). -/
def heapOrGo (evalOp : GOp → Option (List Nat) → Except PyErr Mask)
    (h : Heap) (selRef : Nat) (evIdx : List Nat) :
    List GOp → Except PyErr (Heap × Nat)
  | [] => .ok (h, selRef)
  | [last] => do
    let torf ← evalOp last (some evIdx)
    .ok (h.set selRef (setIdxs (h.getD selRef []) (filterIdx evIdx torf)
      true), selRef)
  | op :: rest => do
    let torf ← evalOp op (some evIdx)
    heapOrGo evalOp (h.set selRef (setIdxs (h.getD selRef [])
      (filterIdx evIdx torf) true)) selRef (filterIdx evIdx torf) rest

/-- Heap-level operand list for the chains: `.sub` operands are already
heap references. -/
inductive HOp where
  | ref (r : Nat)
  | leafOp (l : Leaf)
  | notOp (l : Leaf)

/-- Reading of a chain operand at chain entry.  The chain loops write only
the selection buffer, which is distinct from every other operand's buffer
(each nested result gets its own allocation), so capturing the operand
values at entry matches what the in-place loops read. -/
def hopToGOp (h : Heap) : HOp → GOp
  | .ref r => .arr (h.getD r [])
  | .leafOp l => .leafOp l
  | .notOp l => .notOp l

/-- First-operand handling shared by the heap chains: an array operand's
buffer itself becomes `selection` (`selection = torf` aliases), a leaf
operand's full mask is allocated fresh. -/
def heapChainFirstH (g : AtomGroup) (ks : KeywordState) (h : Heap) :
    HOp → Except PyErr (Heap × Nat)
  | .ref r => .ok (h, r)
  | .leafOp l => do
    let m ← evalLeafOn g ks l none
    .ok (h ++ [m], h.length)
  | .notOp l => do
    let m ← evalLeafOn g ks l none
    .ok (h ++ [negMask m], h.length)

/-- Heap-threading chain dispatch (`Select._and` for `and?`, `Select._or`
otherwise). -/
def heapChain (and? : Bool) (g : AtomGroup) (ks : KeywordState) (h : Heap) :
    List HOp → Except PyErr (Heap × Nat)
  | [] => .error .selErr
  | [only] =>
    if and? then heapChainFirstH g ks h only
    else .error .selErr
  | first :: rest => do
    let (h1, selRef) ← heapChainFirstH g ks h first
    let gops := rest.map (hopToGOp h1)
    let sel := h1.getD selRef []
    if and? then
      heapAndGo (evalGOp g ks) h1 selRef (nonzero sel) gops
    else
      heapOrGo (evalGOp g ks) h1 selRef (nonzero (negMask sel)) gops

/-- Resolution of chain operands in the heap evaluator: nested
sub-expressions are evaluated (allocating their result buffers), leaves
stay symbolic. -/
def heapResolve (ev : Heap → SExpr → Except PyErr (Heap × Nat)) :
    Heap → List Operand → Except PyErr (Heap × List HOp)
  | h, [] => .ok (h, [])
  | h, op :: rest =>
    match op with
    | .sub e => do
      let (h1, r) ← ev h e
      let (h2, hops) ← heapResolve ev h1 rest
      .ok (h2, .ref r :: hops)
    | .leafOp l => do
      let (h1, hops) ← heapResolve ev h rest
      .ok (h1, .leafOp l :: hops)
    | .notOp l => do
      let (h1, hops) ← heapResolve ev h rest
      .ok (h1, .notOp l :: hops)

/-- Heap-threading variant of `evalExpr`: every mask is a buffer
reference; `Select._evalUserdata` reads a column through the copying
`getData`, `Select._not` inverts its operand buffer in place, the chains
scatter into the selection buffer in place, and every other evaluation
allocates a fresh buffer for its (purely computed) mask. -/
def heapEval (g : AtomGroup) (ag : AgHeap) (ks : KeywordState) :
    Nat → Heap → SExpr → Except PyErr (Heap × Nat)
  | 0, _, _ => .error .fuel
  | fuel + 1, h, e =>
    match e with
    | .leaf (.udata kw) =>
      match lookupCol ag.cols kw with
      | some r => .ok (h ++ [h.getD r []], h.length)
      | none => .error .selErr
    | .leaf l => do
      let m ← evalLeafOn g ks l none
      .ok (h ++ [m], h.length)
    | .notE e' => do
      let (h1, r) ← heapEval g ag ks fuel h e'
      .ok (h1.set r (negMask (h1.getD r [])), r)
    | .andE ops => do
      let (h1, hops) ← heapResolve (heapEval g ag ks fuel) h ops
      heapChain true g ks h1 hops
    | .orE ops => do
      let (h1, hops) ← heapResolve (heapEval g ag ks fuel) h ops
      heapChain false g ks h1 hops
    | .withinE r excl e' => do
      let (h1, rf) ← heapEval g ag ks fuel h e'
      .ok (h1 ++ [SelectWithin g r excl (h1.getD rf [])], h1.length)
    | .withinCtx r pts => .ok (h ++ [withinPoints g r pts], h.length)
    | .sameE what e' => do
      let (h1, rf) ← heapEval g ag ks fuel h e'
      let m ← SelectSame g what (h1.getD rf [])
      .ok (h1 ++ [m], h1.length)
    | .compE first rest => do
      let l ← evalNum g fuel first
      let c ← evalCmpList (evalNum g fuel) l none rest
      match c with
      | .arr xs => .ok (h ++ [xs], h.length)
      | .scalar _ => .error .selErr

/-! ## Remaining definitions used by the claim statements -/

/-- The binary `Select._mul` of the legacy module (src/prody/select.py
lines 1005-1018): a zero right operand of `/` raises
`ZeroDivisionError` there (not `SelectionError`). -/
def Select_mul_legacy (left : NumVal) (op : MulOp) (right : NumVal) :
    Except PyErr NumVal :=
  match op with
  | .mul => liftBin (fun a b => a * b) left right
  | .div => do
    let z ← truthyEqZero right
    if z then .error .zeroDiv else liftBin (fun a b => a / b) left right
  | .mod => liftBin pymod left right

/-- Occurrence of a division whose right operand evaluates (at the fuel
it is actually evaluated with) to the scalar zero, somewhere inside a
numeric expression.  The fuel index decreases along the derivation
exactly as `evalNum` decreases it. -/
inductive HasDivZero (g : AtomGroup) : Nat → NExpr → Prop where
  | here (fuel : Nat) (first : NExpr) (rest : List (MulOp × NExpr))
      (e : NExpr) (hmem : (MulOp.div, e) ∈ rest)
      (hz : evalNum g fuel e = .ok (.scalar 0)) :
      HasDivZero g (fuel + 1) (.mulE first rest)
  | inSign (fuel : Nat) (neg : Bool) (e : NExpr)
      (h : HasDivZero g fuel e) : HasDivZero g (fuel + 1) (.signE neg e)
  | inFunc (fuel : Nat) (f : ℚ → ℚ) (e : NExpr)
      (h : HasDivZero g fuel e) : HasDivZero g (fuel + 1) (.funcE f e)
  | inPowBase (fuel : Nat) (base : NExpr) (rest : List NExpr)
      (h : HasDivZero g fuel base) :
      HasDivZero g (fuel + 1) (.powE base rest)
  | inPowRest (fuel : Nat) (base : NExpr) (rest : List NExpr) (e : NExpr)
      (hmem : e ∈ rest) (h : HasDivZero g fuel e) :
      HasDivZero g (fuel + 1) (.powE base rest)
  | inMulFirst (fuel : Nat) (first : NExpr) (rest : List (MulOp × NExpr))
      (h : HasDivZero g fuel first) :
      HasDivZero g (fuel + 1) (.mulE first rest)
  | inMulRest (fuel : Nat) (first : NExpr) (rest : List (MulOp × NExpr))
      (op : MulOp) (e : NExpr) (hmem : (op, e) ∈ rest)
      (h : HasDivZero g fuel e) :
      HasDivZero g (fuel + 1) (.mulE first rest)
  | inAddFirst (fuel : Nat) (first : NExpr) (rest : List (AddOp × NExpr))
      (h : HasDivZero g fuel first) :
      HasDivZero g (fuel + 1) (.addE first rest)
  | inAddRest (fuel : Nat) (first : NExpr) (rest : List (AddOp × NExpr))
      (op : AddOp) (e : NExpr) (hmem : (op, e) ∈ rest)
      (h : HasDivZero g fuel e) :
      HasDivZero g (fuel + 1) (.addE first rest)

/-- Well-formedness of the heap-resident column table: every column
reference points into the heap. -/
def hwfb (h : Heap) (ag : AgHeap) : Bool :=
  ag.cols.all (fun c => c.2 < h.length)

/-- Heap extension: the first `n` buffers are unchanged. -/
def heapExtends (h h' : Heap) (n : Nat) : Prop :=
  n ≤ h'.length ∧ ∀ i < n, h'.getD i [] = h.getD i []

/-- Bound on the buffer references appearing in a heap operand list. -/
def HOpsBound (hops : List HOp) (lo hi : Nat) : Prop :=
  ∀ r, HOp.ref r ∈ hops → lo ≤ r ∧ r < hi

/-! ## Concrete stores used by the witnesses and counterexamples -/

/-- A six-atom demonstration store (two ALA/GLY residues of a protein
chain and a LYS/HOH tail), used by the witnesses. -/
def demoG : AtomGroup :=
  { natoms := 6
    strData := [("name", ["CA", "CB", "CA", "OW", "CA", "N"]),
                ("resname", ["ALA", "ALA", "GLY", "HOH", "LYS", "LYS"]),
                ("chain", ["A", "A", "A", "B", "B", "B"]),
                ("icode", ["", "", "", "", "", ""]),
                ("segment", ["S1", "S1", "S1", "S2", "S2", "S2"]),
                ("secondary", ["H", "H", "C", "C", "E", "E"])]
    intData := [("resnum", [1, 1, 2, 3, 4, 4]),
                ("serial", [1, 2, 3, 4, 5, 6]),
                ("resindex", [0, 0, 1, 2, 3, 3]),
                ("chindex", [0, 0, 0, 1, 1, 1]),
                ("segindex", [0, 0, 0, 1, 1, 1])]
    numData := [("beta", [0, 0, 1, 1, 2, 2]),
                ("occupancy", [1, 1, 1, 1, 1, 1])]
    boolData := [("flag", [true, false, true, false, true, false])]
    coords := [(0, 0, 0), (1, 0, 0), (2, 0, 0), (3, 0, 0), (4, 0, 0),
               (5, 0, 0)] }

/-- A three-atom store with three user boolean columns, each selecting a
different single atom; the failing input of the `or`-chain claim. -/
def demoG3 : AtomGroup :=
  { natoms := 3
    strData := [("resname", ["ALA", "ALA", "ALA"])]
    intData := [("resnum", [1, 2, 3])]
    numData := []
    boolData := [("q1", [true, false, false]), ("q2", [false, true, false]),
                 ("q3", [false, false, true])]
    coords := [(0, 0, 0), (1, 0, 0), (2, 0, 0)] }

/-- A one-atom store holding a single GLU residue; the failing input of
the derived-keyword claim (GLU is in the import-time `charged` set but
not in `{ASP} ∪ basic`). -/
def demoGLU : AtomGroup :=
  { natoms := 1
    strData := [("resname", ["GLU"])]
    intData := []
    numData := []
    boolData := []
    coords := [(0, 0, 0)] }

/-- A sixteen-atom store whose `resnum` column holds 0..7 and 9..16, used
by the range-literal witness. -/
def demoGR : AtomGroup :=
  { natoms := 16
    strData := []
    intData := [("resnum", [0, 1, 2, 3, 4, 5, 6, 7, 9, 10, 11, 12, 13, 14,
                            15, 16])]
    numData := []
    boolData := []
    coords := List.replicate 16 (0, 0, 0) }

/-- The keyword state after `setKeywordResnames('acidic', ['ASP'])`:
`KEYWORD_RESNAMES` is rewritten and the readonly sets recomputed, but
`KEYWORD_MAP` stays the import-time one. -/
def staleAfterAcidic : KeywordState :=
  ⟨setReadonlyResidueNames
    (updateTable initState.resnamesT "acidic" (["ASP"].dedup)),
   initState.kmap⟩

/-! # Theorems

Supporting lemmas first (lengths and pointwise characterizations of the
mask primitives), then the claim theorems. -/

theorem length_scatter (sel : Mask) (idx : List Nat) (vals : Mask) :
    (scatter sel idx vals).length = sel.length := by
  unfold scatter
  generalize idx.zip vals = l
  induction l generalizing sel with
  | nil => rfl
  | cons p t ih => simpa using ih (sel.set p.1 p.2)

theorem length_setIdxs (m : Mask) (idx : List Nat) (b : Bool) :
    (setIdxs m idx b).length = m.length := by
  unfold setIdxs
  induction idx generalizing m with
  | nil => rfl
  | cons i t ih => simpa using ih (m.set i b)

theorem length_negMask (m : Mask) : (negMask m).length = m.length := by
  simp [negMask]

theorem length_zerosMask (n : Nat) : (zerosMask n).length = n := by
  simp [zerosMask]

theorem length_onesMask (n : Nat) : (onesMask n).length = n := by
  simp [onesMask]

theorem length_restrict (idx : List Nat) (m : Mask) :
    (restrict idx m).length = idx.length := by
  simp [restrict]

theorem length_orWhere (t c : Mask) (h : c.length = t.length) :
    (orWhere t c).length = t.length := by
  simp [orWhere, h]

theorem mem_nonzero {m : Mask} {i : Nat} :
    i ∈ nonzero m ↔ i < m.length ∧ m.getD i false = true := by
  simp [nonzero, List.mem_filter, List.mem_range]

theorem getD_zerosMask (n i : Nat) : (zerosMask n).getD i false = false := by
  unfold zerosMask
  induction n generalizing i with
  | zero => simp
  | succ k ih =>
    cases i with
    | zero => simp [List.replicate]
    | succ j => simp [List.replicate]

theorem getD_onesMask (n i : Nat) :
    (onesMask n).getD i false = decide (i < n) := by
  unfold onesMask
  induction n generalizing i with
  | zero => simp
  | succ k ih =>
    cases i with
    | zero => simp [List.replicate]
    | succ j => simpa [List.replicate] using ih j

theorem getD_oob (m : Mask) (i : Nat) (h : m.length ≤ i) :
    m.getD i false = false := by
  simp [List.getD_eq_getElem?_getD, List.getElem?_eq_none h]

theorem getD_set_self (l : List α) (i : Nat) (a d : α) (h : i < l.length) :
    (l.set i a).getD i d = a := by
  induction l generalizing i with
  | nil => simp at h
  | cons x t ih =>
    cases i with
    | zero => simp
    | succ j => simpa using ih j (by simpa using h)

theorem getD_set_ne (l : List α) {i j : Nat} (a d : α) (h : i ≠ j) :
    (l.set i a).getD j d = l.getD j d := by
  induction l generalizing i j with
  | nil => simp
  | cons x t ih =>
    cases i with
    | zero =>
      cases j with
      | zero => exact absurd rfl h
      | succ j' => simp
    | succ i' =>
      cases j with
      | zero => simp
      | succ j' => simpa using ih (fun hc => h (by simp [hc]))

theorem setIdxs_cons (m : Mask) (j : Nat) (t : List Nat) (b : Bool) :
    setIdxs m (j :: t) b = setIdxs (m.set j b) t b := rfl

theorem getD_setIdxs_true (m : Mask) (idx : List Nat) (i : Nat) :
    (setIdxs m idx true).getD i false = true ↔
    (m.getD i false = true ∨ (i ∈ idx ∧ i < m.length)) := by
  induction idx generalizing m with
  | nil => simp [setIdxs]
  | cons j t ih =>
    rw [setIdxs_cons, ih]
    by_cases hij : i = j
    · subst hij
      by_cases hlt : i < m.length
      · rw [getD_set_self m i true false hlt]
        simp [hlt]
      · rw [List.set_eq_of_length_le (by omega)]
        simp [hlt]
    · rw [getD_set_ne m (j := i) true false (fun hc => hij hc.symm)]
      simp only [List.length_set, List.mem_cons]
      constructor
      · rintro (h | ⟨hm, hl⟩)
        · exact Or.inl h
        · exact Or.inr ⟨Or.inr hm, hl⟩
      · rintro (h | ⟨hm | hm, hl⟩)
        · exact Or.inl h
        · exact absurd hm hij
        · exact Or.inr ⟨hm, hl⟩

theorem getD_setIdxs_false (m : Mask) (idx : List Nat) (i : Nat) :
    (setIdxs m idx false).getD i false = true ↔
    (m.getD i false = true ∧ i ∉ idx) := by
  induction idx generalizing m with
  | nil => simp [setIdxs]
  | cons j t ih =>
    rw [setIdxs_cons, ih]
    by_cases hij : i = j
    · subst hij
      by_cases hlt : i < m.length
      · rw [getD_set_self m i false false hlt]
        simp
      · rw [List.set_eq_of_length_le (by omega)]
        rw [getD_oob m i (by omega)]
        simp
    · rw [getD_set_ne m (j := i) false false (fun hc => hij hc.symm)]
      simp only [List.mem_cons]
      constructor
      · rintro ⟨hm, hni⟩
        exact ⟨hm, fun hc => hni (hc.resolve_left hij)⟩
      · rintro ⟨hm, hni⟩
        exact ⟨hm, fun hc => hni (Or.inr hc)⟩

theorem length_foldl_setIdxs {α : Type} (which : List α)
    (f : α → List Nat) (init : Mask) :
    (which.foldl (fun t j => setIdxs t (f j) true) init).length =
    init.length := by
  induction which generalizing init with
  | nil => rfl
  | cons j t ih =>
    simp only [List.foldl_cons]
    rw [ih, length_setIdxs]

theorem getD_foldl_setIdxs_true {α : Type} (which : List α)
    (f : α → List Nat)
    (init : Mask) (i : Nat) :
    ((which.foldl (fun t j => setIdxs t (f j) true) init).getD i false =
      true) ↔
    (init.getD i false = true ∨ ∃ j ∈ which, i ∈ f j ∧ i < init.length) := by
  induction which generalizing init with
  | nil => simp
  | cons j t ih =>
    simp only [List.foldl_cons]
    rw [ih]
    rw [getD_setIdxs_true]
    simp only [length_setIdxs, List.mem_cons]
    constructor
    · rintro ((h | ⟨hm, hl⟩) | ⟨k, hk, hm, hl⟩)
      · exact Or.inl h
      · exact Or.inr ⟨j, Or.inl rfl, hm, hl⟩
      · exact Or.inr ⟨k, Or.inr hk, hm, hl⟩
    · rintro (h | ⟨k, (hk | hk), hm, hl⟩)
      · exact Or.inl (Or.inl h)
      · subst hk
        exact Or.inl (Or.inr ⟨hm, hl⟩)
      · exact Or.inr ⟨k, hk, hm, hl⟩

theorem getD_map_lt (l : List α) (f : α → β) (i : Nat) (d : β) (dα : α)
    (h : i < l.length) : (l.map f).getD i d = f (l.getD i dα) := by
  induction l generalizing i with
  | nil => simp at h
  | cons x t ih =>
    cases i with
    | zero => simp
    | succ j => simpa using ih j (by simpa using h)

theorem map_getD_filter_range (l : List α) (d : α) (p : α → Bool) :
    (((List.range l.length).filter (fun k => p (l.getD k d))).map
      (fun k => l.getD k d)) = l.filter p := by
  induction l with
  | nil => simp
  | cons x t ih =>
    have hr : List.range (x :: t).length =
        0 :: (List.range t.length).map Nat.succ := by
      simpa using List.range_succ_eq_map t.length
    have hcomp1 : ((fun k => p ((x :: t).getD k d)) ∘ Nat.succ) =
        (fun k => p (t.getD k d)) := by
      funext k
      simp
    have hcomp2 : ((fun k => (x :: t).getD k d) ∘ Nat.succ) =
        (fun k => t.getD k d) := by
      funext k
      simp
    rw [hr, List.filter_cons, List.filter_map, hcomp1]
    by_cases hp : p x
    · simp only [List.getD_cons_zero, hp, if_pos, List.map_cons,
        List.map_map, List.filter_cons]
      rw [hcomp2, ih]
    · simp only [List.getD_cons_zero, hp, Bool.false_eq_true, if_false,
        List.map_map, List.filter_cons]
      rw [hcomp2, ih]

theorem mask_ext {m₁ m₂ : Mask} (hlen : m₁.length = m₂.length)
    (h : ∀ i, m₁.getD i false = m₂.getD i false) : m₁ = m₂ := by
  induction m₁ generalizing m₂ with
  | nil =>
    cases m₂ with
    | nil => rfl
    | cons y t => simp at hlen
  | cons x t ih =>
    cases m₂ with
    | nil => simp at hlen
    | cons y t' =>
      have hx := h 0
      simp only [List.getD_cons_zero] at hx
      subst hx
      have : t = t' := by
        refine ih (by simpa using hlen) (fun i => ?_)
        simpa using h (i + 1)
      rw [this]

theorem mem_kdtreeQuery {coords : List (ℚ × ℚ × ℚ)} {p : ℚ × ℚ × ℚ}
    {r : ℚ} {i : Nat} :
    i ∈ kdtreeQuery coords p r ↔
    i < coords.length ∧ dist2 (coords.getD i (0, 0, 0)) p ≤ r * r := by
  simp [kdtreeQuery, List.mem_filter, List.mem_range]

theorem dist2_self (p : ℚ × ℚ × ℚ) : dist2 p p = 0 := by
  simp [dist2]

theorem dist2_comm (p q : ℚ × ℚ × ℚ) : dist2 p q = dist2 q p := by
  unfold dist2
  ring

theorem length_withinSparse (g : AtomGroup) (r : ℚ) (excl : Bool)
    (which : List Nat) : (withinSparse g r excl which).length = g.natoms := by
  unfold withinSparse
  cases excl <;>
    simp [length_setIdxs, length_foldl_setIdxs, length_zerosMask]

theorem length_withinDense (g : AtomGroup) (r : ℚ) (excl : Bool)
    (which : List Nat) : (withinDense g r excl which).length = g.natoms := by
  unfold withinDense
  cases excl <;> simp [length_setIdxs, length_zerosMask]

theorem length_SelectWithin (g : AtomGroup) (r : ℚ) (excl : Bool)
    (m : Mask) : (SelectWithin g r excl m).length = g.natoms := by
  unfold SelectWithin
  by_cases h : (nonzero m).length < 20 <;>
    simp [h, length_withinSparse, length_withinDense]

theorem length_withinPoints (g : AtomGroup) (r : ℚ)
    (pts : List (ℚ × ℚ × ℚ)) : (withinPoints g r pts).length = g.natoms := by
  unfold withinPoints
  rw [length_foldl_setIdxs, length_zerosMask]

theorem getD_withinSparse (g : AtomGroup) (r : ℚ) (excl : Bool)
    (which : List Nat) (i : Nat) :
    (withinSparse g r excl which).getD i false = true ↔
    ((∃ j ∈ which, i < g.coords.length ∧
        dist2 (g.coords.getD i (0, 0, 0)) (g.coords.getD j (0, 0, 0)) ≤
          r * r) ∧
      i < g.natoms ∧ ¬(excl = true ∧ i ∈ which)) := by
  unfold withinSparse
  have hcore := getD_foldl_setIdxs_true which
    (fun j => kdtreeQuery g.coords (g.coords.getD j (0, 0, 0)) r)
    (zerosMask g.natoms) i
  rw [getD_zerosMask, length_zerosMask] at hcore
  simp only [Bool.false_eq_true, false_or, mem_kdtreeQuery] at hcore
  cases excl with
  | false =>
    simp only [Bool.false_eq_true, false_and, not_false_eq_true, and_true,
      if_false]
    rw [hcore]
    constructor
    · rintro ⟨j, hj, ⟨hil, hd⟩, hin⟩
      exact ⟨⟨j, hj, hil, hd⟩, hin⟩
    · rintro ⟨⟨j, hj, hil, hd⟩, hin⟩
      exact ⟨j, hj, ⟨hil, hd⟩, hin⟩
  | true =>
    rw [if_pos rfl]
    rw [getD_setIdxs_false, hcore]
    constructor
    · rintro ⟨⟨j, hj, ⟨hil, hd⟩, hin⟩, hni⟩
      exact ⟨⟨j, hj, hil, hd⟩, hin, fun hc => hni hc.2⟩
    · rintro ⟨⟨j, hj, hil, hd⟩, hin, hni⟩
      exact ⟨⟨j, hj, ⟨hil, hd⟩, hin⟩, fun hc => hni ⟨rfl, hc⟩⟩

theorem lookupCol_length {α : Type} {t : List (String × List α)} {n : Nat}
    (hall : t.all (fun c => c.2.length = n) = true) {k : String}
    {d : List α} (hl : lookupCol t k = some d) : d.length = n := by
  unfold lookupCol at hl
  cases hf : t.find? (fun p => p.1 = k) with
  | none => rw [hf] at hl; exact absurd hl (by simp)
  | some p =>
    rw [hf] at hl
    have hmem : p ∈ t := List.mem_of_find?_eq_some hf
    have := List.all_eq_true.mp hall p hmem
    simp only [Option.some.injEq] at hl
    subst hl
    simpa using this

theorem wfb_coords {g : AtomGroup} (h : wfb g = true) :
    g.coords.length = g.natoms := by
  unfold wfb at h
  simp only [Bool.and_eq_true, decide_eq_true_eq] at h
  exact h.2

theorem wfb_str {g : AtomGroup} (h : wfb g = true) {k : String}
    {d : List String} (hl : lookupCol g.strData k = some d) :
    d.length = g.natoms := by
  unfold wfb at h
  simp only [Bool.and_eq_true] at h
  exact lookupCol_length (by simpa using h.1.1.1.1) hl

theorem wfb_int {g : AtomGroup} (h : wfb g = true) {k : String}
    {d : List Int} (hl : lookupCol g.intData k = some d) :
    d.length = g.natoms := by
  unfold wfb at h
  simp only [Bool.and_eq_true] at h
  exact lookupCol_length (by simpa using h.1.1.1.2) hl

theorem wfb_num {g : AtomGroup} (h : wfb g = true) {k : String}
    {d : List ℚ} (hl : lookupCol g.numData k = some d) :
    d.length = g.natoms := by
  unfold wfb at h
  simp only [Bool.and_eq_true] at h
  exact lookupCol_length (by simpa using h.1.1.2) hl

theorem wfb_bool {g : AtomGroup} (h : wfb g = true) {k : String}
    {d : List Bool} (hl : lookupCol g.boolData k = some d) :
    d.length = g.natoms := by
  unfold wfb at h
  simp only [Bool.and_eq_true] at h
  exact lookupCol_length (by simpa using h.1.2) hl

theorem mem_denseCheck {n : Nat} {which : List Nat} {i : Nat} :
    i ∈ nonzero (setIdxs (onesMask n) which false) ↔
    i < n ∧ i ∉ which := by
  rw [mem_nonzero, length_setIdxs, length_onesMask, getD_setIdxs_false,
    getD_onesMask]
  simp

theorem exists_getD_iff_mem {l : List Nat} {P : Nat → Prop} :
    (∃ k, k < l.length ∧ P (l.getD k 0)) ↔ ∃ j ∈ l, P j := by
  constructor
  · rintro ⟨k, hk, hP⟩
    refine ⟨l.getD k 0, ?_, hP⟩
    have : l.getD k 0 = l.get ⟨k, hk⟩ := by
      simp [List.getD_eq_getElem?_getD, List.getElem?_eq_getElem hk]
    rw [this]
    exact l.get_mem k hk
  · rintro ⟨j, hj, hP⟩
    obtain ⟨k, hk, rfl⟩ := List.mem_iff_getElem.mp hj
    refine ⟨k, hk, ?_⟩
    have : l.getD k 0 = l[k] := by
      simp [List.getD_eq_getElem?_getD, List.getElem?_eq_getElem hk]
    rw [this]
    exact hP

theorem kdtreeQuery_refcoords_ne_nil {g : AtomGroup} {which : List Nat}
    {pt : ℚ × ℚ × ℚ} {r : ℚ} :
    (kdtreeQuery (which.map (fun j => g.coords.getD j (0, 0, 0))) pt r ≠ [])
    ↔ ∃ j ∈ which, dist2 (g.coords.getD j (0, 0, 0)) pt ≤ r * r := by
  unfold kdtreeQuery
  rw [Ne, List.filter_eq_nil_iff]
  push_neg
  constructor
  · rintro ⟨k, hk, hP⟩
    rw [List.mem_range, List.length_map] at hk
    rw [getD_map_lt which _ k (0, 0, 0) 0 hk] at hP
    simp only [decide_eq_true_eq] at hP
    exact exists_getD_iff_mem.mp ⟨k, hk, hP⟩
  · intro hex
    obtain ⟨k, hk, hP⟩ := exists_getD_iff_mem.mpr hex
    refine ⟨k, ?_, ?_⟩
    · rw [List.mem_range, List.length_map]
      exact hk
    · rw [getD_map_lt which _ k (0, 0, 0) 0 hk]
      simpa using hP

theorem getD_withinDense (g : AtomGroup) (r : ℚ) (excl : Bool)
    (which : List Nat) (i : Nat) :
    (withinDense g r excl which).getD i false = true ↔
    ((i < g.natoms ∧ i ∉ which ∧
        ∃ j ∈ which, dist2 (g.coords.getD j (0, 0, 0))
          (g.coords.getD i (0, 0, 0)) ≤ r * r) ∨
      (excl = false ∧ i ∈ which ∧ i < g.natoms)) := by
  have hmap := map_getD_filter_range
    (nonzero (setIdxs (onesMask g.natoms) which false)) 0
    (fun j => decide (kdtreeQuery
      (which.map (fun x => g.coords.getD x (0, 0, 0)))
      (g.coords.getD j (0, 0, 0)) r ≠ []))
  simp only [withinDense]
  rw [hmap]
  cases excl with
  | true =>
    rw [if_pos rfl, getD_setIdxs_true, getD_zerosMask, length_zerosMask]
    simp only [Bool.false_eq_true, false_or, List.mem_filter,
      mem_denseCheck, decide_eq_true_eq, kdtreeQuery_refcoords_ne_nil]
    constructor
    · rintro ⟨⟨⟨hin, hni⟩, hex⟩, _⟩
      exact Or.inl ⟨hin, hni, hex⟩
    · rintro (⟨hin, hni, hex⟩ | ⟨hfalse, _⟩)
      · exact ⟨⟨⟨hin, hni⟩, hex⟩, hin⟩
      · exact absurd hfalse (by simp)
  | false =>
    rw [if_neg (by simp)]
    rw [getD_setIdxs_true, getD_setIdxs_true, getD_zerosMask,
      length_setIdxs, length_zerosMask]
    simp only [Bool.false_eq_true, false_or, List.mem_filter,
      mem_denseCheck, decide_eq_true_eq, kdtreeQuery_refcoords_ne_nil]
    constructor
    · rintro (⟨⟨⟨hin, hni⟩, hex⟩, _⟩ | ⟨hm, hin⟩)
      · exact Or.inl ⟨hin, hni, hex⟩
      · exact Or.inr ⟨trivial, hm, hin⟩
    · rintro (⟨hin, hni, hex⟩ | ⟨_, hm, hin⟩)
      · exact Or.inl ⟨⟨⟨hin, hni⟩, hex⟩, hin⟩
      · exact Or.inr ⟨hm, hin⟩

theorem within_branches_eq (g : AtomGroup) (r : ℚ) (excl : Bool)
    (which : List Nat) (hcl : g.coords.length = g.natoms) :
    withinSparse g r excl which = withinDense g r excl which := by
  apply mask_ext
  · rw [length_withinSparse, length_withinDense]
  · intro i
    by_cases hi : i < g.natoms
    · rw [Bool.eq_iff_iff, getD_withinSparse, getD_withinDense]
      constructor
      · rintro ⟨⟨j, hj, _, hd⟩, hin, hnx⟩
        by_cases him : i ∈ which
        · refine Or.inr ⟨?_, him, hin⟩
          cases excl with
          | false => rfl
          | true => exact absurd ⟨rfl, him⟩ hnx
        · exact Or.inl ⟨hin, him, j, hj, by rwa [dist2_comm]⟩
      · rintro (⟨hin, hni, j, hj, hd⟩ | ⟨hex, him, hin⟩)
        · refine ⟨⟨j, hj, by omega, by rwa [dist2_comm]⟩, hin, ?_⟩
          rintro ⟨_, hc⟩
          exact hni hc
        · refine ⟨⟨i, him, by omega, ?_⟩, hin, ?_⟩
          · rw [dist2_self]
            exact mul_self_nonneg r
          · rintro ⟨hexc, _⟩
            rw [hex] at hexc
            exact absurd hexc (by simp)
    · rw [getD_oob _ i (by rw [length_withinSparse]; omega),
        getD_oob _ i (by rw [length_withinDense]; omega)]

theorem SelectWithin_eq_sparse (g : AtomGroup) (r : ℚ) (excl : Bool)
    (m : Mask) (hcl : g.coords.length = g.natoms) :
    SelectWithin g r excl m = withinSparse g r excl (nonzero m) := by
  unfold SelectWithin
  by_cases h : (nonzero m).length < 20
  · simp [h]
  · simp only [h, if_false]
    exact (within_branches_eq g r excl (nonzero m) hcl).symm

theorem getD_SelectWithin (g : AtomGroup) (r : ℚ) (excl : Bool) (m : Mask)
    (i : Nat) (hcl : g.coords.length = g.natoms) :
    (SelectWithin g r excl m).getD i false = true ↔
    ((∃ j ∈ nonzero m, dist2 (g.coords.getD i (0, 0, 0))
        (g.coords.getD j (0, 0, 0)) ≤ r * r) ∧
      i < g.natoms ∧ ¬(excl = true ∧ i ∈ nonzero m)) := by
  rw [SelectWithin_eq_sparse g r excl m hcl, getD_withinSparse]
  constructor
  · rintro ⟨⟨j, hj, _, hd⟩, hin, hnx⟩
    exact ⟨⟨j, hj, hd⟩, hin, hnx⟩
  · rintro ⟨⟨j, hj, hd⟩, hin, hnx⟩
    exact ⟨⟨j, hj, by omega, hd⟩, hin, hnx⟩

@[simp]
theorem exc_bind_ok {ε α β : Type} (a : α) (f : α → Except ε β) :
    (Except.ok a >>= f) = f a := rfl

@[simp]
theorem exc_bind_err {ε α β : Type} (e : ε) (f : α → Except ε β) :
    ((Except.error e : Except ε α) >>= f) = .error e := rfl

@[simp]
theorem exc_pure_eq_ok {ε α : Type} (a : α) :
    (pure a : Except ε α) = .ok a := rfl

theorem foldlM_inv {ε α β : Type} {P : β → Prop}
    (step : β → α → Except ε β) (l : List α) (init res : β)
    (hstep : ∀ b a b', P b → step b a = .ok b' → P b')
    (hinit : P init) (h : l.foldlM step init = .ok res) : P res := by
  induction l generalizing init with
  | nil =>
    simp only [List.foldlM_nil] at h
    cases h
    exact hinit
  | cons a t ih =>
    simp only [List.foldlM_cons] at h
    cases hs : step init a with
    | error e => rw [hs] at h; simp at h
    | ok b =>
      rw [hs] at h
      simp only [exc_bind_ok] at h
      exact ih b (hstep init a b hinit hs) h

theorem foldl_length_inv {α : Type} (step : Mask → α → Mask) (l : List α)
    (init : Mask) (n : Nat)
    (hstep : ∀ b a, b.length = n → (step b a).length = n)
    (hinit : init.length = n) : (l.foldl step init).length = n := by
  induction l generalizing init with
  | nil => exact hinit
  | cons a t ih => exact ih (step init a) (hstep init a hinit)

theorem length_alnumMask (data : List String) (strings : List String)
    (regexps : List (String → Bool)) :
    (alnumMask data strings regexps).length = data.length := by
  unfold alnumMask
  cases regexps.getLast? with
  | some p => simp
  | none =>
    by_cases h1 : strings.length = 1
    · simp [h1]
    · by_cases h2 : 4 < strings.length
      · simp [h1, h2]
      · by_cases h3 : strings = []
        · simp [h1, h2, h3, length_zerosMask]
        · simp [h1, h2, h3]

theorem length_orWhere_map {α : Type} (torf : Mask) (data : List α)
    (p : α → Bool) (h : torf.length = data.length) :
    (orWhere torf (data.map p)).length = data.length := by
  simp [orWhere, h]

theorem length_intItemStep (data : List Int) (torf : Mask) (it : NumItem)
    (h : torf.length = data.length) :
    (intItemStep data torf it).length = data.length := by
  cases it with
  | intg z =>
    simp only [intItemStep]
    exact length_orWhere_map torf data _ h
  | flt q =>
    simp only [intItemStep]
    exact length_orWhere_map torf data _ h
  | rng a b =>
    simp only [intItemStep]
    exact length_orWhere_map torf data _ h
  | slc a b =>
    simp only [intItemStep]
    exact length_orWhere_map torf data _ h
  | slc3 a b c =>
    simp only [intItemStep]
    exact foldl_length_inv _ (rangeList a b c) torf data.length
      (fun b' a' hb => length_orWhere_map b' data _ hb) h
  | strv s =>
    simp only [intItemStep]
    exact h

theorem length_pyIndexSet (torf : Mask) (z : Int) :
    (pyIndexSet torf z).length = torf.length := by
  unfold pyIndexSet
  by_cases h1 : z < 0
  · simp only [h1, if_true]
    split <;> simp
  · simp only [h1, if_false]
    split <;> simp

theorem length_indexItemStep (torf : Mask) (it : NumItem) :
    (indexItemStep torf it).length = torf.length := by
  cases it with
  | slc a b =>
    exact foldl_length_inv _ _ torf torf.length
      (fun b' a' hb => by rw [length_pyIndexSet, hb]) rfl
  | slc3 a b c =>
    exact foldl_length_inv _ _ torf torf.length
      (fun b' a' hb => by rw [length_pyIndexSet, hb]) rfl
  | rng a b =>
    exact foldl_length_inv _ _ torf torf.length
      (fun b' a' hb => by rw [length_pyIndexSet, hb]) rfl
  | intg z => exact length_pyIndexSet torf z
  | flt q => exact length_pyIndexSet torf _
  | strv s => rfl

theorem length_floatItemStep (data : List ℚ) (torf : Mask) (it : NumItem)
    (m : Mask) (h : torf.length = data.length)
    (hs : floatItemStep data torf it = .ok m) : m.length = data.length := by
  cases it with
  | strv s => cases hs; exact h
  | rng a b => cases hs; exact length_orWhere_map torf data _ h
  | slc a b => cases hs; exact length_orWhere_map torf data _ h
  | slc3 a b c => exact absurd hs (by simp [floatItemStep])
  | intg z => cases hs; exact length_orWhere_map torf data _ h
  | flt q => cases hs; exact length_orWhere_map torf data _ h

theorem length_Select_evalAlnum {g : AtomGroup} {kw : String}
    {vals : List SVal} {m : Mask} (hwf : wfb g = true)
    (h : Select_evalAlnum g kw vals none = .ok m) : m.length = g.natoms := by
  simp only [Select_evalAlnum, strColE] at h
  cases hl : lookupCol g.strData ((lookupCol KEYWORDS_SYNONYMS kw).getD kw)
    with
  | none => rw [hl] at h; simp at h
  | some data0 =>
    rw [hl] at h
    simp only [exc_bind_ok, Except.ok.injEq] at h
    rw [← h, length_alnumMask]
    exact wfb_str hwf hl


theorem length_resnumItemStep {resids : List Int}
    {icodes : Option (List String)} {torf m : Mask} {it : NumItem} {n : Nat}
    (hrl : resids.length = n)
    (hic : ∀ l, icodes = some l → l.length = n) (hb : torf.length = n)
    (hs : resnumItemStep resids icodes torf it = .ok m) : m.length = n := by
  cases it with
  | strv s =>
    simp only [resnumItemStep] at hs
    cases hp : pyInt? (String.mk s.toList.dropLast) with
    | none => rw [hp] at hs; simp at hs
    | some num =>
      rw [hp] at hs
      cases hi : icodes with
      | none => rw [hi] at hs; simp at hs
      | some ics =>
        rw [hi] at hs
        simp only [Except.ok.injEq] at hs
        rw [← hs, length_orWhere]
        · exact hb
        · rw [List.length_zipWith, hrl, hic ics hi, hb]
          simp
  | intg z =>
    simp only [resnumItemStep, Except.ok.injEq] at hs
    rw [← hs, length_intItemStep resids torf _ (by omega)]
    exact hrl
  | flt q =>
    simp only [resnumItemStep, Except.ok.injEq] at hs
    rw [← hs, length_intItemStep resids torf _ (by omega)]
    exact hrl
  | rng a b =>
    simp only [resnumItemStep, Except.ok.injEq] at hs
    rw [← hs, length_intItemStep resids torf _ (by omega)]
    exact hrl
  | slc a b =>
    simp only [resnumItemStep, Except.ok.injEq] at hs
    rw [← hs, length_intItemStep resids torf _ (by omega)]
    exact hrl
  | slc3 a b c =>
    simp only [resnumItemStep, Except.ok.injEq] at hs
    rw [← hs, length_intItemStep resids torf _ (by omega)]
    exact hrl

theorem length_Select_resnum {g : AtomGroup} {token : List String}
    {m : Mask} (hwf : wfb g = true)
    (h : Select_resnum g token none = .ok m) : m.length = g.natoms := by
  simp only [Select_resnum, intColE, strColE] at h
  cases hl : lookupCol g.intData "resnum" with
  | none => rw [hl] at h; simp at h
  | some resids =>
    rw [hl] at h
    simp only [exc_bind_ok] at h
    have hrl : resids.length = g.natoms := wfb_int hwf hl
    cases hr : getNumRange token false with
    | error e => rw [hr] at h; simp at h
    | ok items =>
      rw [hr] at h
      simp only [exc_bind_ok] at h
      by_cases hstr : items.any (fun it =>
          match it with | .strv _ => true | _ => false)
      · rw [if_pos hstr] at h
        cases hic : lookupCol g.strData "icode" with
        | none => rw [hic] at h; simp at h
        | some ics =>
          rw [hic] at h
          simp only [exc_bind_ok, exc_pure_eq_ok] at h
          refine foldlM_inv _ items _ m
            (fun b it b' hb hs => length_resnumItemStep hrl ?_ hb hs)
            (by simp [length_zerosMask, hrl]) h
          intro l hl'
          simp only [Option.some.injEq] at hl'
          rw [← hl']
          exact wfb_str hwf hic
      · rw [if_neg hstr] at h
        simp only [exc_pure_eq_ok, exc_bind_ok] at h
        refine foldlM_inv _ items _ m
          (fun b it b' hb hs => length_resnumItemStep hrl ?_ hb hs)
          (by simp [length_zerosMask, hrl]) h
        intro l hl'
        exact absurd hl' (by simp)

theorem length_Select_serial {g : AtomGroup} {token : List String}
    {m : Mask} (hwf : wfb g = true)
    (h : Select_serial g token none = .ok m) : m.length = g.natoms := by
  simp only [Select_serial, intColE] at h
  cases hl : lookupCol g.intData "serial" with
  | none => rw [hl] at h; simp at h
  | some serials =>
    rw [hl] at h
    simp only [exc_bind_ok] at h
    have hrl : serials.length = g.natoms := wfb_int hwf hl
    cases hr : getNumRange token true with
    | error e => rw [hr] at h; simp at h
    | ok items =>
      rw [hr] at h
      simp only [exc_bind_ok, Except.ok.injEq] at h
      rw [← h]
      rw [foldl_length_inv (intItemStep serials) items _ serials.length
        (fun b a hb => length_intItemStep serials b a hb)
        (by simp [length_zerosMask])]
      exact hrl

theorem length_Select_index {g : AtomGroup} {token : List String}
    {m : Mask} (h : Select_index g token none = .ok m) :
    m.length = g.natoms := by
  simp only [Select_index] at h
  cases hr : getNumRange token true with
  | error e => rw [hr] at h; simp at h
  | ok items =>
    rw [hr] at h
    simp only [exc_bind_ok, Except.ok.injEq] at h
    rw [← h]
    exact foldl_length_inv indexItemStep items _ g.natoms
      (fun b a hb => by rw [length_indexItemStep, hb])
      (by simp [length_zerosMask])

theorem length_Select_evalFloat {g : AtomGroup} {kw : String}
    {vals : List String} {m : Mask} (hwf : wfb g = true)
    (h : Select_evalFloat g kw vals none = .ok m) : m.length = g.natoms := by
  have hnum : ∀ d, numericColE g kw = .ok d → d.length = g.natoms := by
    intro d hd
    simp only [numericColE] at hd
    by_cases hx : kw = "x"
    · simp only [hx, if_pos, Except.ok.injEq] at hd
      rw [← hd]
      simp [wfb_coords hwf]
    · rw [if_neg hx] at hd
      by_cases hy : kw = "y"
      · simp only [hy, if_pos, Except.ok.injEq] at hd
        rw [← hd]
        simp [wfb_coords hwf]
      · rw [if_neg hy] at hd
        by_cases hz : kw = "z"
        · simp only [hz, if_pos, Except.ok.injEq] at hd
          rw [← hd]
          simp [wfb_coords hwf]
        · rw [if_neg hz] at hd
          cases hn : lookupCol g.numData kw with
          | some dn =>
            rw [hn] at hd
            simp only [Except.ok.injEq] at hd
            rw [← hd]
            exact wfb_num hwf hn
          | none =>
            rw [hn] at hd
            cases hi : lookupCol g.intData kw with
            | some di =>
              rw [hi] at hd
              simp only [Except.ok.injEq] at hd
              rw [← hd]
              simp [wfb_int hwf hi]
            | none => rw [hi] at hd; simp at hd
  simp only [Select_evalFloat] at h
  cases hd : numericColE g kw with
  | error e => rw [hd] at h; simp at h
  | ok data =>
    rw [hd] at h
    simp only [exc_bind_ok] at h
    cases hr : getNumRange vals true with
    | error e => rw [hr] at h; simp at h
    | ok items =>
      rw [hr] at h
      simp only [exc_bind_ok] at h
      rw [← hnum data hd]
      exact foldlM_inv _ items _ m
        (fun b a b' hb hs => length_floatItemStep data b a b' hb hs)
        (by simp [length_zerosMask]) h

theorem length_Select_evalUserdata {g : AtomGroup} {kw : String} {m : Mask}
    (hwf : wfb g = true) (h : Select_evalUserdata g kw none = .ok m) :
    m.length = g.natoms := by
  simp only [Select_evalUserdata] at h
  cases hl : lookupCol g.boolData kw with
  | none => rw [hl] at h; simp at h
  | some data =>
    rw [hl] at h
    simp only [Except.ok.injEq] at h
    rw [← h]
    exact wfb_bool hwf hl

theorem length_Select_andGo {α : Type}
    {evalOp : α → Option (List Nat) → Except PyErr Mask} {sel : Mask}
    {ev : List Nat} {ops : List α} {m : Mask}
    (h : Select_andGo evalOp sel ev ops = .ok m) : m.length = sel.length := by
  induction ops generalizing sel ev with
  | nil =>
    simp only [Select_andGo, Except.ok.injEq] at h
    rw [← h]
  | cons op rest ih =>
    cases rest with
    | nil =>
      simp only [Select_andGo] at h
      cases ht : evalOp op (some ev) with
      | error e => rw [ht] at h; simp at h
      | ok torf =>
        rw [ht] at h
        simp only [exc_bind_ok, Except.ok.injEq] at h
        rw [← h, length_scatter]
    | cons op2 t =>
      simp only [Select_andGo] at h
      cases ht : evalOp op (some ev) with
      | error e => rw [ht] at h; simp at h
      | ok torf =>
        rw [ht] at h
        simp only [exc_bind_ok] at h
        rw [ih h, length_scatter]

theorem length_Select_orGo {α : Type}
    {evalOp : α → Option (List Nat) → Except PyErr Mask} {sel : Mask}
    {ev : List Nat} {ops : List α} {m : Mask}
    (h : Select_orGo evalOp sel ev ops = .ok m) : m.length = sel.length := by
  induction ops generalizing sel ev with
  | nil =>
    simp only [Select_orGo, Except.ok.injEq] at h
    rw [← h]
  | cons op rest ih =>
    cases rest with
    | nil =>
      simp only [Select_orGo] at h
      cases ht : evalOp op (some ev) with
      | error e => rw [ht] at h; simp at h
      | ok torf =>
        rw [ht] at h
        simp only [exc_bind_ok, Except.ok.injEq] at h
        rw [← h, length_setIdxs]
    | cons op2 t =>
      simp only [Select_orGo] at h
      cases ht : evalOp op (some ev) with
      | error e => rw [ht] at h; simp at h
      | ok torf =>
        rw [ht] at h
        simp only [exc_bind_ok] at h
        rw [ih h, length_setIdxs]

theorem length_Select_and {α : Type}
    {evalOp : α → Option (List Nat) → Except PyErr Mask} {ops : List α}
    {m : Mask} {n : Nat}
    (hops : ∀ op ∈ ops, ∀ m', evalOp op none = .ok m' → m'.length = n)
    (h : Select_and evalOp ops = .ok m) : m.length = n := by
  cases ops with
  | nil => simp [Select_and] at h
  | cons first rest =>
    cases rest with
    | nil =>
      simp only [Select_and] at h
      exact hops first (by simp) m h
    | cons op2 t =>
      simp only [Select_and] at h
      cases hs : evalOp first none with
      | error e => rw [hs] at h; simp at h
      | ok sel =>
        rw [hs] at h
        simp only [exc_bind_ok] at h
        rw [length_Select_andGo h]
        exact hops first (by simp) sel hs

theorem length_Select_or {α : Type}
    {evalOp : α → Option (List Nat) → Except PyErr Mask} {ops : List α}
    {m : Mask} {n : Nat}
    (hops : ∀ op ∈ ops, ∀ m', evalOp op none = .ok m' → m'.length = n)
    (h : Select_or evalOp ops = .ok m) : m.length = n := by
  cases ops with
  | nil => simp [Select_or] at h
  | cons first rest =>
    cases rest with
    | nil => simp [Select_or] at h
    | cons op2 t =>
      simp only [Select_or] at h
      cases hs : evalOp first none with
      | error e => rw [hs] at h; simp at h
      | ok sel =>
        rw [hs] at h
        simp only [exc_bind_ok] at h
        rw [length_Select_orGo h]
        exact hops first (by simp) sel hs

theorem length_evalBasicOn {g : AtomGroup} {b : BasicLeaf} {m : Mask}
    (hwf : wfb g = true) (h : evalBasicOn g b none = .ok m) :
    m.length = g.natoms := by
  cases b with
  | alnum kw vals => exact length_Select_evalAlnum hwf h
  | resnumL vals => exact length_Select_resnum hwf h
  | serialL vals => exact length_Select_serial hwf h
  | indexL vals => exact length_Select_index h
  | floatKw kw vals => exact length_Select_evalFloat hwf h

theorem length_evalBOp {g : AtomGroup} {op : BOp} {m : Mask}
    (hwf : wfb g = true) (h : evalBOp g op none = .ok m) :
    m.length = g.natoms := by
  cases op with
  | pos b => exact length_evalBasicOn hwf h
  | negd b =>
    simp only [evalBOp] at h
    cases hs : evalBasicOn g b none with
    | error e => rw [hs] at h; simp at h
    | ok m' =>
      rw [hs] at h
      simp only [exc_bind_ok, Except.ok.injEq] at h
      rw [← h, length_negMask]
      exact length_evalBasicOn hwf hs

theorem length_Select_evalBoolean {g : AtomGroup} {ks : KeywordState}
    {kw : String} {m : Mask} (hwf : wfb g = true)
    (h : Select_evalBoolean g ks kw none = .ok m) : m.length = g.natoms := by
  simp only [Select_evalBoolean] at h
  by_cases hall : kw = "all"
  · rw [if_pos hall] at h
    simp only [Except.ok.injEq] at h
    rw [← h, length_onesMask]
  · rw [if_neg hall] at h
    by_cases hnone : kw = "none"
    · rw [if_pos hnone] at h
      simp only [Except.ok.injEq] at h
      rw [← h, length_zerosMask]
    · rw [if_neg hnone] at h
      cases he : expandBooleanOps ks kw with
      | error e => rw [he] at h; simp at h
      | ok ops =>
        rw [he] at h
        simp only [exc_bind_ok] at h
        cases ha : Select_and (evalBOp g) ops with
        | error e => rw [ha] at h; simp at h
        | ok torf =>
          rw [ha] at h
          simp only [exc_bind_ok, Except.ok.injEq] at h
          rw [← h]
          exact length_Select_and
            (fun op _ m' hm' => length_evalBOp hwf hm') ha

theorem length_evalLeafOn {g : AtomGroup} {ks : KeywordState} {l : Leaf}
    {m : Mask} (hwf : wfb g = true) (h : evalLeafOn g ks l none = .ok m) :
    m.length = g.natoms := by
  cases l with
  | boolkw kw => exact length_Select_evalBoolean hwf h
  | udata kw => exact length_Select_evalUserdata hwf h
  | basic b => exact length_evalBasicOn hwf h

theorem liftBin_arr_len {f : ℚ → ℚ → ℚ} {a b v : NumVal} {n : Nat}
    (ha : ∀ xs, a = NumVal.arr xs → xs.length = n)
    (hb : ∀ xs, b = NumVal.arr xs → xs.length = n)
    (h : liftBin f a b = .ok v) :
    ∀ xs, v = NumVal.arr xs → xs.length = n := by
  cases a with
  | scalar qa =>
    cases b with
    | scalar qb =>
      simp only [liftBin, Except.ok.injEq] at h
      intro xs hxs
      rw [← h] at hxs
      simp at hxs
    | arr xb =>
      simp only [liftBin, Except.ok.injEq] at h
      intro xs hxs
      rw [← h] at hxs
      simp only [NumVal.arr.injEq] at hxs
      rw [← hxs, List.length_map]
      exact hb xb rfl
  | arr xa =>
    cases b with
    | scalar qb =>
      simp only [liftBin, Except.ok.injEq] at h
      intro xs hxs
      rw [← h] at hxs
      simp only [NumVal.arr.injEq] at hxs
      rw [← hxs, List.length_map]
      exact ha xa rfl
    | arr xb =>
      simp only [liftBin] at h
      split at h
      · simp only [Except.ok.injEq] at h
        intro xs hxs
        rw [← h] at hxs
        simp only [NumVal.arr.injEq] at hxs
        rw [← hxs, List.length_zipWith]
        rw [ha xa rfl, hb xb rfl]
        simp
      · simp at h

theorem liftCmp_arr_len {f : ℚ → ℚ → Bool} {a b : NumVal} {v : CVal}
    {n : Nat} (ha : ∀ xs, a = NumVal.arr xs → xs.length = n)
    (hb : ∀ xs, b = NumVal.arr xs → xs.length = n)
    (h : liftCmp f a b = .ok v) :
    ∀ xs, v = CVal.arr xs → xs.length = n := by
  cases a with
  | scalar qa =>
    cases b with
    | scalar qb =>
      simp only [liftCmp, Except.ok.injEq] at h
      intro xs hxs
      rw [← h] at hxs
      simp at hxs
    | arr xb =>
      simp only [liftCmp, Except.ok.injEq] at h
      intro xs hxs
      rw [← h] at hxs
      simp only [CVal.arr.injEq] at hxs
      rw [← hxs, List.length_map]
      exact hb xb rfl
  | arr xa =>
    cases b with
    | scalar qb =>
      simp only [liftCmp, Except.ok.injEq] at h
      intro xs hxs
      rw [← h] at hxs
      simp only [CVal.arr.injEq] at hxs
      rw [← hxs, List.length_map]
      exact ha xa rfl
    | arr xb =>
      simp only [liftCmp] at h
      split at h
      · simp only [Except.ok.injEq] at h
        intro xs hxs
        rw [← h] at hxs
        simp only [CVal.arr.injEq] at hxs
        rw [← hxs, List.length_zipWith]
        rw [ha xa rfl, hb xb rfl]
        simp
      · simp at h

theorem cvalMul_arr_len {a b v : CVal} {n : Nat}
    (ha : ∀ xs, a = CVal.arr xs → xs.length = n)
    (hb : ∀ xs, b = CVal.arr xs → xs.length = n)
    (h : cvalMul a b = .ok v) :
    ∀ xs, v = CVal.arr xs → xs.length = n := by
  cases a with
  | scalar qa =>
    cases b with
    | scalar qb =>
      simp only [cvalMul, Except.ok.injEq] at h
      intro xs hxs
      rw [← h] at hxs
      simp at hxs
    | arr xb =>
      simp only [cvalMul, Except.ok.injEq] at h
      intro xs hxs
      rw [← h] at hxs
      simp only [CVal.arr.injEq] at hxs
      rw [← hxs, List.length_map]
      exact hb xb rfl
  | arr xa =>
    cases b with
    | scalar qb =>
      simp only [cvalMul, Except.ok.injEq] at h
      intro xs hxs
      rw [← h] at hxs
      simp only [CVal.arr.injEq] at hxs
      rw [← hxs, List.length_map]
      exact ha xa rfl
    | arr xb =>
      simp only [cvalMul] at h
      split at h
      · simp only [Except.ok.injEq] at h
        intro xs hxs
        rw [← h] at hxs
        simp only [CVal.arr.injEq] at hxs
        rw [← hxs, List.length_zipWith]
        rw [ha xa rfl, hb xb rfl]
        simp
      · simp at h

theorem mulStep_arr_len {acc r v : NumVal} {op : MulOp} {n : Nat}
    (ha : ∀ xs, acc = NumVal.arr xs → xs.length = n)
    (hr : ∀ xs, r = NumVal.arr xs → xs.length = n)
    (h : mulStep acc op r = .ok v) :
    ∀ xs, v = NumVal.arr xs → xs.length = n := by
  cases op with
  | div =>
    simp only [mulStep] at h
    cases ht : truthyEqZero r with
    | error e => rw [ht] at h; simp at h
    | ok z =>
      rw [ht] at h
      simp only [exc_bind_ok] at h
      cases z with
      | true => simp at h
      | false =>
        rw [if_neg (by simp)] at h
        exact liftBin_arr_len ha hr h
  | mul =>
    simp only [mulStep] at h
    exact liftBin_arr_len ha hr h
  | mod =>
    simp only [mulStep] at h
    split at h
    · split at h
      · exact absurd h (by simp)
      · exact liftBin_arr_len ha hr h
    · exact liftBin_arr_len ha hr h

theorem cmpStep_arr_len {l r : NumVal} {v : CVal} {op : CmpOp} {n : Nat}
    (hl : ∀ xs, l = NumVal.arr xs → xs.length = n)
    (hr : ∀ xs, r = NumVal.arr xs → xs.length = n)
    (h : cmpStep op l r = .ok v) :
    ∀ xs, v = CVal.arr xs → xs.length = n := by
  cases op <;> exact liftCmp_arr_len hl hr h

theorem evalMulList_arr_len {ev : NExpr → Except PyErr NumVal}
    {acc v : NumVal} {rest : List (MulOp × NExpr)} {n : Nat}
    (hev : ∀ e w, ev e = .ok w → ∀ xs, w = NumVal.arr xs → xs.length = n)
    (ha : ∀ xs, acc = NumVal.arr xs → xs.length = n)
    (h : evalMulList ev acc rest = .ok v) :
    ∀ xs, v = NumVal.arr xs → xs.length = n := by
  induction rest generalizing acc with
  | nil =>
    simp only [evalMulList, Except.ok.injEq] at h
    exact h ▸ ha
  | cons p t ih =>
    obtain ⟨op, e⟩ := p
    simp only [evalMulList] at h
    cases hr : ev e with
    | error er => rw [hr] at h; simp at h
    | ok r =>
      rw [hr] at h
      simp only [exc_bind_ok] at h
      cases hs : mulStep acc op r with
      | error er => rw [hs] at h; simp at h
      | ok acc' =>
        rw [hs] at h
        simp only [exc_bind_ok] at h
        exact ih (mulStep_arr_len ha (hev e r hr) hs) h

theorem evalAddList_arr_len {ev : NExpr → Except PyErr NumVal}
    {acc v : NumVal} {rest : List (AddOp × NExpr)} {n : Nat}
    (hev : ∀ e w, ev e = .ok w → ∀ xs, w = NumVal.arr xs → xs.length = n)
    (ha : ∀ xs, acc = NumVal.arr xs → xs.length = n)
    (h : evalAddList ev acc rest = .ok v) :
    ∀ xs, v = NumVal.arr xs → xs.length = n := by
  induction rest generalizing acc with
  | nil =>
    simp only [evalAddList, Except.ok.injEq] at h
    exact h ▸ ha
  | cons p t ih =>
    obtain ⟨op, e⟩ := p
    simp only [evalAddList] at h
    cases hr : ev e with
    | error er => rw [hr] at h; simp at h
    | ok r =>
      rw [hr] at h
      simp only [exc_bind_ok] at h
      cases hs : liftBin (addOpFn op) acc r with
      | error er => rw [hs] at h; simp at h
      | ok acc' =>
        rw [hs] at h
        simp only [exc_bind_ok] at h
        exact ih (liftBin_arr_len ha (hev e r hr) hs) h

theorem evalPowList_arr_len {ev : NExpr → Except PyErr NumVal}
    {rest : List NExpr} {n : Nat}
    (hev : ∀ e w, ev e = .ok w → ∀ xs, w = NumVal.arr xs → xs.length = n) :
    ∀ v, evalPowList ev rest = .ok v →
    ∀ xs, v = NumVal.arr xs → xs.length = n := by
  induction rest with
  | nil => intro v h; simp [evalPowList] at h
  | cons e t ih =>
    intro v h
    cases t with
    | nil =>
      simp only [evalPowList] at h
      exact hev e v h
    | cons e2 t2 =>
      simp only [evalPowList] at h
      cases hp : evalPowList ev (e2 :: t2) with
      | error er => rw [hp] at h; simp at h
      | ok p =>
        rw [hp] at h
        simp only [exc_bind_ok] at h
        cases hnum : ev e with
        | error er => rw [hnum] at h; simp at h
        | ok nv =>
          rw [hnum] at h
          simp only [exc_bind_ok] at h
          exact liftBin_arr_len (hev e nv hnum) (ih p hp) h

theorem evalCmpList_arr_len {ev : NExpr → Except PyErr NumVal}
    {left : NumVal} {acc : Option CVal} {v : CVal}
    {rest : List (CmpOp × NExpr)} {n : Nat}
    (hev : ∀ e w, ev e = .ok w → ∀ xs, w = NumVal.arr xs → xs.length = n)
    (hl : ∀ xs, left = NumVal.arr xs → xs.length = n)
    (ha : ∀ c, acc = some c → ∀ xs, c = CVal.arr xs → xs.length = n)
    (h : evalCmpList ev left acc rest = .ok v) :
    ∀ xs, v = CVal.arr xs → xs.length = n := by
  induction rest generalizing left acc with
  | nil =>
    cases acc with
    | none => simp [evalCmpList] at h
    | some c =>
      simp only [evalCmpList, Except.ok.injEq] at h
      rw [← h]
      exact ha c rfl
  | cons p t ih =>
    obtain ⟨op, e⟩ := p
    simp only [evalCmpList] at h
    cases hr : ev e with
    | error er => rw [hr] at h; simp at h
    | ok right =>
      rw [hr] at h
      simp only [exc_bind_ok] at h
      cases hp : cmpStep op left right with
      | error er => rw [hp] at h; simp at h
      | ok pair =>
        rw [hp] at h
        simp only [exc_bind_ok] at h
        have hpair := cmpStep_arr_len hl (hev e right hr) hp
        cases acc with
        | none =>
          simp only [exc_pure_eq_ok, exc_bind_ok] at h
          refine ih (hev e right hr) ?_ h
          intro c hc
          cases hc
          exact hpair
        | some cacc =>
          simp only at h
          cases hm : cvalMul cacc pair with
          | error er => rw [hm] at h; simp at h
          | ok acc' =>
            rw [hm] at h
            simp only [exc_bind_ok] at h
            refine ih (hev e right hr) ?_ h
            intro c hc
            cases hc
            exact cvalMul_arr_len (ha cacc rfl) hpair hm

theorem evalNumKw_arr_len {g : AtomGroup} {k : String} {v : NumVal}
    (hwf : wfb g = true) (h : evalNumKw g k = .ok v) :
    ∀ xs, v = NumVal.arr xs → xs.length = g.natoms := by
  have hnum : ∀ d, numericColE g k = .ok d → d.length = g.natoms := by
    intro d hd
    simp only [numericColE] at hd
    by_cases hx : k = "x"
    · simp only [hx, if_pos, Except.ok.injEq] at hd
      rw [← hd]
      simp [wfb_coords hwf]
    · rw [if_neg hx] at hd
      by_cases hy : k = "y"
      · simp only [hy, if_pos, Except.ok.injEq] at hd
        rw [← hd]
        simp [wfb_coords hwf]
      · rw [if_neg hy] at hd
        by_cases hz : k = "z"
        · simp only [hz, if_pos, Except.ok.injEq] at hd
          rw [← hd]
          simp [wfb_coords hwf]
        · rw [if_neg hz] at hd
          cases hn : lookupCol g.numData k with
          | some dn =>
            rw [hn] at hd
            simp only [Except.ok.injEq] at hd
            rw [← hd]
            exact wfb_num hwf hn
          | none =>
            rw [hn] at hd
            cases hi : lookupCol g.intData k with
            | some di =>
              rw [hi] at hd
              simp only [Except.ok.injEq] at hd
              rw [← hd]
              simp [wfb_int hwf hi]
            | none => rw [hi] at hd; simp at hd
  simp only [evalNumKw] at h
  by_cases h1 : KEYWORDS_FLOAT.contains k
  · rw [if_pos h1] at h
    cases hd : numericColE g k with
    | error e => rw [hd] at h; simp at h
    | ok d =>
      rw [hd] at h
      simp only [exc_bind_ok, Except.ok.injEq] at h
      intro xs hxs
      rw [← h] at hxs
      simp only [NumVal.arr.injEq] at hxs
      rw [← hxs]
      exact hnum d hd
  · rw [if_neg h1] at h
    by_cases h2 : k = "resnum" ∨ k = "resid"
    · rw [if_pos h2] at h
      cases hd : lookupCol g.intData "resnum" with
      | none => simp only [intColE, hd] at h; simp at h
      | some d =>
        simp only [intColE, hd, exc_bind_ok, Except.ok.injEq] at h
        intro xs hxs
        rw [← h] at hxs
        simp only [NumVal.arr.injEq] at hxs
        rw [← hxs]
        simp [wfb_int hwf hd]
    · rw [if_neg h2] at h
      by_cases h3 : k = "index"
      · rw [if_pos h3] at h
        simp only [Except.ok.injEq] at h
        intro xs hxs
        rw [← h] at hxs
        simp only [NumVal.arr.injEq] at hxs
        rw [← hxs]
        simp
      · rw [if_neg h3] at h
        by_cases h4 : k = "serial"
        · rw [if_pos h4] at h
          cases hd : lookupCol g.intData "serial" with
          | none => simp only [intColE, hd] at h; simp at h
          | some d =>
            simp only [intColE, hd, exc_bind_ok, Except.ok.injEq] at h
            intro xs hxs
            rw [← h] at hxs
            simp only [NumVal.arr.injEq] at hxs
            rw [← hxs]
            simp [wfb_int hwf hd]
        · rw [if_neg h4] at h
          by_cases h5 : KEYWORDS_INTEGER.contains k
          · rw [if_pos h5] at h
            cases hd : lookupCol g.intData k with
            | none => simp only [intColE, hd] at h; simp at h
            | some d =>
              simp only [intColE, hd, exc_bind_ok, Except.ok.injEq] at h
              intro xs hxs
              rw [← h] at hxs
              simp only [NumVal.arr.injEq] at hxs
              rw [← hxs]
              simp [wfb_int hwf hd]
          · rw [if_neg h5] at h
            cases hn : lookupCol g.numData k with
            | some dn =>
              rw [hn] at h
              simp only [Except.ok.injEq] at h
              intro xs hxs
              rw [← h] at hxs
              simp only [NumVal.arr.injEq] at hxs
              rw [← hxs]
              exact wfb_num hwf hn
            | none =>
              rw [hn] at h
              cases hi : lookupCol g.intData k with
              | some di =>
                rw [hi] at h
                simp only [Except.ok.injEq] at h
                intro xs hxs
                rw [← h] at hxs
                simp only [NumVal.arr.injEq] at hxs
                rw [← hxs]
                simp [wfb_int hwf hi]
              | none => rw [hi] at h; simp at h

theorem evalNum_arr_len {g : AtomGroup} (hwf : wfb g = true) :
    ∀ (fuel : Nat) (e : NExpr) (v : NumVal),
    evalNum g fuel e = .ok v →
    ∀ xs, v = NumVal.arr xs → xs.length = g.natoms := by
  intro fuel
  induction fuel with
  | zero => intro e v h; simp [evalNum] at h
  | succ f ih =>
    intro e v h
    cases e with
    | lit q =>
      simp only [evalNum, Except.ok.injEq] at h
      intro xs hxs
      rw [← h] at hxs
      simp at hxs
    | kw k =>
      simp only [evalNum] at h
      exact evalNumKw_arr_len hwf h
    | signE neg e' =>
      simp only [evalNum] at h
      cases hs : evalNum g f e' with
      | error er => rw [hs] at h; simp at h
      | ok w =>
        rw [hs] at h
        simp only [exc_bind_ok, Except.ok.injEq] at h
        intro xs hxs
        rw [← h] at hxs
        cases neg with
        | false =>
          simp only [if_neg (by simp : ¬(false = true))] at hxs
          exact ih e' w hs xs hxs
        | true =>
          cases w with
          | scalar q => simp at hxs
          | arr ys =>
            have hlen : ys.length = g.natoms := ih e' (.arr ys) hs ys rfl
            simp at hxs
            subst hxs
            simpa using hlen
    | funcE fn e' =>
      simp only [evalNum] at h
      cases hs : evalNum g f e' with
      | error er => rw [hs] at h; simp at h
      | ok w =>
        rw [hs] at h
        simp only [exc_bind_ok, Except.ok.injEq] at h
        intro xs hxs
        rw [← h] at hxs
        cases w with
        | scalar q => simp at hxs
        | arr ys =>
          simp only [NumVal.arr.injEq] at hxs
          rw [← hxs, List.length_map]
          exact ih e' (.arr ys) hs ys rfl
    | powE base rest =>
      simp only [evalNum] at h
      cases hb : evalNum g f base with
      | error er => rw [hb] at h; simp at h
      | ok b =>
        rw [hb] at h
        simp only [exc_bind_ok] at h
        cases hp : evalPowList (evalNum g f) rest with
        | error er => rw [hp] at h; simp at h
        | ok p =>
          rw [hp] at h
          simp only [exc_bind_ok] at h
          exact liftBin_arr_len (ih base b hb)
            (evalPowList_arr_len (fun e w hw => ih e w hw) p hp) h
    | mulE first rest =>
      simp only [evalNum] at h
      cases hf : evalNum g f first with
      | error er => rw [hf] at h; simp at h
      | ok l =>
        rw [hf] at h
        simp only [exc_bind_ok] at h
        exact evalMulList_arr_len (fun e w hw => ih e w hw)
          (ih first l hf) h
    | addE first rest =>
      simp only [evalNum] at h
      cases hf : evalNum g f first with
      | error er => rw [hf] at h; simp at h
      | ok l =>
        rw [hf] at h
        simp only [exc_bind_ok] at h
        exact evalAddList_arr_len (fun e w hw => ih e w hw)
          (ih first l hf) h

theorem length_SelectSame {g : AtomGroup} {what : String} {m res : Mask}
    (hwf : wfb g = true) (h : SelectSame g what m = .ok res) :
    res.length = g.natoms := by
  simp only [SelectSame] at h
  have hcol : ∀ k (col : List Int), lookupCol g.intData k = some col →
      (res.length = g.natoms ∨ True) := fun _ _ _ => Or.inr trivial
  by_cases h1 : what = "residue"
  · rw [if_pos h1] at h
    cases hl : lookupCol g.intData "resindex" with
    | none => simp only [intColE, hl] at h; simp at h
    | some col =>
      simp only [intColE, hl, exc_bind_ok, Except.ok.injEq] at h
      rw [← h]
      rw [foldl_length_inv _ _ _ col.length
        (fun b a hb => length_orWhere_map b col _ hb)
        (by simp [length_zerosMask])]
      exact wfb_int hwf hl
  · rw [if_neg h1] at h
    by_cases h2 : what = "chain"
    · rw [if_pos h2] at h
      cases hl : lookupCol g.intData "chindex" with
      | none => simp only [intColE, hl] at h; simp at h
      | some col =>
        simp only [intColE, hl, exc_bind_ok, Except.ok.injEq] at h
        rw [← h]
        rw [foldl_length_inv _ _ _ col.length
          (fun b a hb => length_orWhere_map b col _ hb)
          (by simp [length_zerosMask])]
        exact wfb_int hwf hl
    · rw [if_neg h2] at h
      by_cases h3 : what = "segment"
      · rw [if_pos h3] at h
        cases hl : lookupCol g.intData "segindex" with
        | none => simp only [intColE, hl] at h; simp at h
        | some col =>
          simp only [intColE, hl, exc_bind_ok, Except.ok.injEq] at h
          rw [← h]
          rw [foldl_length_inv _ _ _ col.length
            (fun b a hb => length_orWhere_map b col _ hb)
            (by simp [length_zerosMask])]
          exact wfb_int hwf hl
      · rw [if_neg h3] at h
        simp at h

theorem resolveOps_arr {ev : SExpr → Except PyErr Mask}
    {ops : List Operand} {gops : List GOp}
    (h : resolveOps ev ops = .ok gops) :
    ∀ gop ∈ gops, ∀ a, gop = GOp.arr a → ∃ e, ev e = .ok a := by
  induction ops generalizing gops with
  | nil =>
    simp only [resolveOps, Except.ok.injEq] at h
    rw [← h]
    simp
  | cons op rest ih =>
    cases op with
    | sub e =>
      simp only [resolveOps] at h
      cases hs : ev e with
      | error er => rw [hs] at h; simp at h
      | ok m =>
        rw [hs] at h
        simp only [exc_bind_ok] at h
        cases hr : resolveOps ev rest with
        | error er => rw [hr] at h; simp at h
        | ok grest =>
          rw [hr] at h
          simp only [exc_pure_eq_ok, exc_bind_ok, Except.ok.injEq] at h
          rw [← h]
          intro gop hg a hga
          rcases List.mem_cons.mp hg with hfirst | hrest
          · subst hfirst
            cases hga
            exact ⟨e, hs⟩
          · exact ih hr gop hrest a hga
    | leafOp l =>
      simp only [resolveOps] at h
      cases hr : resolveOps ev rest with
      | error er => rw [hr] at h; simp at h
      | ok grest =>
        rw [hr] at h
        simp only [exc_pure_eq_ok, exc_bind_ok, Except.ok.injEq] at h
        rw [← h]
        intro gop hg a hga
        rcases List.mem_cons.mp hg with hfirst | hrest
        · subst hfirst; cases hga
        · exact ih hr gop hrest a hga
    | notOp l =>
      simp only [resolveOps] at h
      cases hr : resolveOps ev rest with
      | error er => rw [hr] at h; simp at h
      | ok grest =>
        rw [hr] at h
        simp only [exc_pure_eq_ok, exc_bind_ok, Except.ok.injEq] at h
        rw [← h]
        intro gop hg a hga
        rcases List.mem_cons.mp hg with hfirst | hrest
        · subst hfirst; cases hga
        · exact ih hr gop hrest a hga

theorem length_evalGOp_none {g : AtomGroup} {ks : KeywordState} {gop : GOp}
    {m : Mask} (hwf : wfb g = true)
    (harr : ∀ a, gop = GOp.arr a → a.length = g.natoms)
    (h : evalGOp g ks gop none = .ok m) : m.length = g.natoms := by
  cases gop with
  | arr a =>
    simp only [evalGOp, Except.ok.injEq] at h
    rw [← h]
    exact harr a rfl
  | leafOp l => exact length_evalLeafOn hwf h
  | notOp l =>
    simp only [evalGOp] at h
    cases hs : evalLeafOn g ks l none with
    | error e => rw [hs] at h; simp at h
    | ok m' =>
      rw [hs] at h
      simp only [exc_bind_ok, Except.ok.injEq] at h
      rw [← h, length_negMask]
      exact length_evalLeafOn hwf hs

/-- Full-length invariant of the evaluator: any successful evaluation over
a well-formed store produces a mask of the store's atom count. -/
theorem evalExpr_length {g : AtomGroup} {ks : KeywordState}
    (hwf : wfb g = true) :
    ∀ (fuel : Nat) (e : SExpr) (m : Mask),
    evalExpr g ks fuel e = .ok m → m.length = g.natoms := by
  intro fuel
  induction fuel with
  | zero => intro e m h; simp [evalExpr] at h
  | succ f ih =>
    intro e m h
    cases e with
    | leaf l =>
      simp only [evalExpr] at h
      exact length_evalLeafOn hwf h
    | notE e' =>
      simp only [evalExpr] at h
      cases hs : evalExpr g ks f e' with
      | error er => rw [hs] at h; simp at h
      | ok m' =>
        rw [hs] at h
        simp only [exc_bind_ok, Except.ok.injEq] at h
        rw [← h, length_negMask]
        exact ih e' m' hs
    | andE ops =>
      simp only [evalExpr] at h
      cases hr : resolveOps (evalExpr g ks f) ops with
      | error er => rw [hr] at h; simp at h
      | ok gops =>
        rw [hr] at h
        simp only [exc_bind_ok] at h
        refine length_Select_and (fun gop hg m' hm' => ?_) h
        refine length_evalGOp_none hwf (fun a hga => ?_) hm'
        obtain ⟨e', he'⟩ := resolveOps_arr hr gop hg a hga
        exact ih e' a he'
    | orE ops =>
      simp only [evalExpr] at h
      cases hr : resolveOps (evalExpr g ks f) ops with
      | error er => rw [hr] at h; simp at h
      | ok gops =>
        rw [hr] at h
        simp only [exc_bind_ok] at h
        refine length_Select_or (fun gop hg m' hm' => ?_) h
        refine length_evalGOp_none hwf (fun a hga => ?_) hm'
        obtain ⟨e', he'⟩ := resolveOps_arr hr gop hg a hga
        exact ih e' a he'
    | withinE r excl e' =>
      simp only [evalExpr] at h
      cases hs : evalExpr g ks f e' with
      | error er => rw [hs] at h; simp at h
      | ok m' =>
        rw [hs] at h
        simp only [exc_bind_ok, Except.ok.injEq] at h
        rw [← h, length_SelectWithin]
    | withinCtx r pts =>
      simp only [evalExpr, Except.ok.injEq] at h
      rw [← h, length_withinPoints]
    | sameE what e' =>
      simp only [evalExpr] at h
      cases hs : evalExpr g ks f e' with
      | error er => rw [hs] at h; simp at h
      | ok m' =>
        rw [hs] at h
        simp only [exc_bind_ok] at h
        exact length_SelectSame hwf h
    | compE first rest =>
      simp only [evalExpr] at h
      cases hf : evalNum g f first with
      | error er => rw [hf] at h; simp at h
      | ok l =>
        rw [hf] at h
        simp only [exc_bind_ok] at h
        cases hc : evalCmpList (evalNum g f) l none rest with
        | error er => rw [hc] at h; simp at h
        | ok c =>
          rw [hc] at h
          cases c with
          | scalar b => simp at h
          | arr xs =>
            have hxm : xs = m := by simpa using h
            rw [← hxm]
            refine evalCmpList_arr_len
              (fun e w hw => evalNum_arr_len hwf f e w hw)
              (evalNum_arr_len hwf f first l hf) ?_ hc xs rfl
            intro c hc'
            exact absurd hc' (by simp)

/-- C1: For every atom collection `A` (a well-formed store) and every query
expression `Q` for which evaluation succeeds, `getBoolArray(A, Q)` returns a
boolean mask whose length equals the number of atoms in `A`; this holds for
every query form (boolean keywords, value-paired keywords, arithmetic
comparisons, within/exwithin, same-as, and and/or/not combinations), since
the statement quantifies over all `SExpr` constructors. -/
theorem C1_getBoolArray_length {g : AtomGroup} {ks : KeywordState}
    {fuel : Nat} {e : SExpr} {m : Mask}
    (hwf : wfb g = true) (h : getBoolArray g ks fuel e = .ok m) :
    m.length = g.natoms :=
  evalExpr_length hwf fuel e m h

theorem C1_witness :
    wfb demoG3 = true ∧
    getBoolArray demoG3 initState 2
      (.notE (.leaf (.udata "q1"))) = .ok [false, true, true] ∧
    ([false, true, true] : Mask).length = demoG3.natoms := by
  have hwf : wfb demoG3 = true := by decide
  have h : getBoolArray demoG3 initState 2
      (.notE (.leaf (.udata "q1"))) = .ok [false, true, true] := by rfl
  exact ⟨hwf, h, C1_getBoolArray_length hwf h⟩

/-- C2: the short-circuit index-narrowing boolean combinators are NOT
semantically transparent. Binary `and`/`or` do match the element-wise
operations, but an `or`-chain of three operands diverges: on the store
whose columns q1, q2, q3 select atoms 0, 1, 2 respectively, the evaluator
for `q1 or q2 or q3` (mirroring `Select._or`, lines 1213-1259, whose line
1239 re-narrows `evalonly` to the indices the previous operand just
selected instead of the still-unselected ones) returns the mask
[true, true, false], while the element-wise OR of the three operand masks
is [true, true, true]: atom 2, selected only by the third operand, is
dropped. This refutes the chain clause of the claim. -/
theorem C2_or_chain_not_elementwise :
    evalExpr demoG3 initState 2
      (.orE [.leafOp (.udata "q1"), .leafOp (.udata "q2"),
             .leafOp (.udata "q3")]) = .ok [true, true, false] ∧
    evalExpr demoG3 initState 2 (.leaf (.udata "q1")) = .ok [true, false, false] ∧
    evalExpr demoG3 initState 2 (.leaf (.udata "q2")) = .ok [false, true, false] ∧
    evalExpr demoG3 initState 2 (.leaf (.udata "q3")) = .ok [false, false, true] ∧
    List.zipWith or [true, false, false]
      (List.zipWith or [false, true, false] [false, false, true]) =
      [true, true, true] ∧
    ([true, true, false] : Mask) ≠ [true, true, true] ∧
    evalExpr demoG3 initState 2
      (.andE [.notOp (.udata "q1"), .notOp (.udata "q2")]) =
      .ok [false, false, true] := by
  exact ⟨rfl, rfl, rfl, rfl, rfl, by decide, rfl⟩

/-- C3: for every radius R and nested mask G (with at least one reference
atom, over a store whose coordinate table matches its atom count):
`within R of G` is a superset of G's mask — the reference atoms themselves
are included, the distance comparison being the inclusive `<=` of the
radius query — `exwithin R of G` is disjoint from G's mask, and
`exwithin R of G` equals `within R of G` minus G's mask, at every
position. -/
theorem C3_within_superset_exwithin_diff (g : AtomGroup) (r : ℚ) (m : Mask)
    (hcl : g.coords.length = g.natoms) (hm : m.length = g.natoms)
    (_hne : nonzero m ≠ []) (i : Nat) :
    (m.getD i false = true → (SelectWithin g r false m).getD i false = true) ∧
    (¬(m.getD i false = true ∧
        (SelectWithin g r true m).getD i false = true)) ∧
    ((SelectWithin g r true m).getD i false =
      ((SelectWithin g r false m).getD i false && !(m.getD i false))) := by
  have hiff := fun excl => getD_SelectWithin g r excl m i hcl
  have hmem : i ∈ nonzero m ↔ i < m.length ∧ m.getD i false = true :=
    mem_nonzero
  refine ⟨?_, ?_, ?_⟩
  · intro hmi
    have hilt : i < m.length := by
      by_contra hge
      rw [List.getD_eq_default _ _ (by omega)] at hmi
      exact absurd hmi (by simp)
    rw [hiff false]
    refine ⟨⟨i, hmem.mpr ⟨hilt, hmi⟩, ?_⟩, by omega, by simp⟩
    rw [dist2_self]
    exact mul_self_nonneg r
  · rintro ⟨hmi, hex⟩
    have hilt : i < m.length := by
      by_contra hge
      rw [List.getD_eq_default _ _ (by omega)] at hmi
      exact absurd hmi (by simp)
    rw [hiff true] at hex
    exact hex.2.2 ⟨rfl, hmem.mpr ⟨hilt, hmi⟩⟩
  · cases hw : (SelectWithin g r false m).getD i false with
    | false =>
      simp only [Bool.false_and]
      rw [Bool.eq_iff_iff] at hw ⊢
      rw [hiff true]
      rw [hiff false] at hw
      simp only [Bool.false_eq_true, iff_false] at hw ⊢
      intro hc
      exact hw ⟨hc.1, hc.2.1, by simp⟩
    | true =>
      rw [Bool.eq_iff_iff] at hw
      rw [hiff false] at hw
      obtain ⟨hj, hilt, -⟩ := hw.mpr rfl
      simp only [Bool.true_and]
      cases hmi : m.getD i false with
      | false =>
        simp only [Bool.not_false]
        rw [Bool.eq_iff_iff, hiff true]
        refine iff_of_true ⟨hj, hilt, ?_⟩ rfl
        rintro ⟨-, hin⟩
        rw [hmem] at hin
        rw [hin.2] at hmi
        exact absurd hmi (by simp)
      | true =>
        simp only [Bool.not_true]
        rw [Bool.eq_iff_iff, hiff true]
        simp only [Bool.false_eq_true, iff_false]
        rintro ⟨-, -, hno⟩
        exact hno ⟨by trivial, hmem.mpr ⟨by omega, hmi⟩⟩

theorem C3_witness :
    demoG3.coords.length = demoG3.natoms ∧
    ([true, false, false] : Mask).length = demoG3.natoms ∧
    nonzero ([true, false, false] : Mask) ≠ [] ∧
    (([true, false, false] : Mask).getD 0 false = true →
      (SelectWithin demoG3 2 false [true, false, false]).getD 0 false = true) := by
  have hcl : demoG3.coords.length = demoG3.natoms := by decide
  have hm : ([true, false, false] : Mask).length = demoG3.natoms := by decide
  have hne : nonzero ([true, false, false] : Mask) ≠ [] := by decide
  exact ⟨hcl, hm, hne,
    (C3_within_superset_exwithin_diff demoG3 2 [true, false, false]
      hcl hm hne 0).1⟩

/-- C4: the two spatial-query strategies of `Select._within` are
result-equivalent: for every radius, exclusion flag and boolean reference
mask (over a store whose coordinate table matches its atom count), the
mask computed by the sparse branch — one index query per reference atom,
hits unioned — equals the mask computed by the dense branch — index built
over the reference atoms' coordinates, every non-reference candidate
queried against it — and the dispatcher takes the dense branch exactly
when the reference set has 20 or more atoms. -/
theorem C4_within_branches_equivalent (g : AtomGroup) (r : ℚ) (excl : Bool)
    (m : Mask) (hcl : g.coords.length = g.natoms) :
    withinSparse g r excl (nonzero m) = withinDense g r excl (nonzero m) ∧
    (20 ≤ (nonzero m).length →
      SelectWithin g r excl m = withinDense g r excl (nonzero m)) ∧
    ((nonzero m).length < 20 →
      SelectWithin g r excl m = withinSparse g r excl (nonzero m)) := by
  refine ⟨within_branches_eq g r excl (nonzero m) hcl, ?_, ?_⟩
  · intro h20
    unfold SelectWithin
    rw [if_neg (by omega)]
  · intro h20
    unfold SelectWithin
    rw [if_pos h20]

theorem C4_witness :
    demoG3.coords.length = demoG3.natoms ∧
    withinSparse demoG3 1 false (nonzero [true, false, false]) =
      withinDense demoG3 1 false (nonzero [true, false, false]) := by
  have hcl : demoG3.coords.length = demoG3.natoms := by decide
  exact ⟨hcl,
    (C4_within_branches_equivalent demoG3 1 false [true, false, false] hcl).1⟩

theorem getD_orWhere (t c : Mask) (h : c.length = t.length) (i : Nat) :
    (orWhere t c).getD i false = (t.getD i false || c.getD i false) := by
  induction t generalizing c i with
  | nil =>
    cases c with
    | nil => simp [orWhere]
    | cons b cs => simp at h
  | cons a tl ih =>
    cases c with
    | nil => simp at h
    | cons b cs =>
      cases i with
      | zero => simp [orWhere]
      | succ j =>
        simp only [orWhere, List.zipWith_cons_cons, List.getD_cons_succ]
        exact ih cs (by simpa using h) j

theorem getD_foldl_orWhere_eqz (resids : List Int) (zs : List Int)
    (t0 : Mask) (ht : t0.length = resids.length) (i : Nat)
    (hi : i < resids.length) :
    ((zs.foldl (fun t z => orWhere t
        (resids.map (fun (r : Int) => decide (r = z)))) t0).getD i false =
      true) ↔
    (t0.getD i false = true ∨ resids.getD i 0 ∈ zs) := by
  induction zs generalizing t0 with
  | nil => simp
  | cons z zs ih =>
    simp only [List.foldl_cons]
    have hlen : (resids.map (fun (r : Int) => decide (r = z))).length =
        t0.length := by rw [List.length_map, ht]
    rw [ih _ (by rw [length_orWhere _ _ hlen, ht])]
    rw [getD_orWhere _ _ hlen, getD_map_lt _ _ _ _ (0 : Int) hi]
    simp only [Bool.or_eq_true, decide_eq_true_eq, List.mem_cons]
    tauto


/-- C5: slice-like semantics of numeric range literals over any store with
an integer `resnum` column: `resnum 5 10 to 15` parses to the integer 5 and
the float range [10, 15] and selects exactly residue numbers
{5, 10, 11, 12, 13, 14, 15} (the `to` form keeps both endpoints, compared
as floats), `resnum 10:15` parses to the slice (10, 15) and selects exactly
{10, 11, 12, 13, 14} (the `:` form excludes the upper endpoint and rejects
non-integer operands with a `SelectionError`), and `resnum 1:10:2` parses
to the stride slice (1, 10, 2) = {1, 3, 5, 7, 9} and selects exactly those
residue numbers. -/
theorem C5_range_literal_semantics (g : AtomGroup) (resids : List Int)
    (hcol : lookupCol g.intData "resnum" = some resids) :
    getNumRange ["5", "10", "to", "15"] false =
      .ok [.intg 5, .rng 10 15] ∧
    getNumRange ["10:15"] false = .ok [.slc 10 15] ∧
    getNumRange ["1:10:2"] false = .ok [.slc3 1 10 2] ∧
    getNumRange ["10.5:15"] false = .error .selErr ∧
    rangeList 1 10 2 = [1, 3, 5, 7, 9] ∧
    (∃ m, Select_resnum g ["5", "10", "to", "15"] none = .ok m ∧
      ∀ i < resids.length, (m.getD i false = true ↔
        resids.getD i 0 ∈ ([5, 10, 11, 12, 13, 14, 15] : List Int))) ∧
    (∃ m, Select_resnum g ["10:15"] none = .ok m ∧
      ∀ i < resids.length, (m.getD i false = true ↔
        resids.getD i 0 ∈ ([10, 11, 12, 13, 14] : List Int))) ∧
    (∃ m, Select_resnum g ["1:10:2"] none = .ok m ∧
      ∀ i < resids.length, (m.getD i false = true ↔
        resids.getD i 0 ∈ ([1, 3, 5, 7, 9] : List Int))) := by
  refine ⟨rfl, rfl, rfl, rfl, rfl, ?_, ?_, ?_⟩
  · refine ⟨intItemStep resids
      (intItemStep resids (zerosMask resids.length) (.intg 5)) (.rng 10 15),
      ?_, ?_⟩
    · simp only [Select_resnum, intColE, hcol]
      rfl
    · intro i hi
      have hlen1 : (resids.map (fun (r : Int) => decide (r = 5))).length =
          (zerosMask resids.length).length := by
        rw [List.length_map, length_zerosMask]
      have hlen2 : (resids.map (fun (r : Int) =>
          decide ((10 : ℚ) ≤ (r : ℚ)) && decide ((r : ℚ) ≤ 15))).length =
          (orWhere (zerosMask resids.length)
            (resids.map (fun (r : Int) => decide (r = 5)))).length := by
        rw [List.length_map, length_orWhere _ _ hlen1, length_zerosMask]
      simp only [intItemStep]
      rw [getD_orWhere _ _ hlen2, getD_orWhere _ _ hlen1,
        getD_map_lt _ _ _ _ (0 : Int) hi, getD_map_lt _ _ _ _ (0 : Int) hi,
        getD_zerosMask]
      simp only [Bool.false_or, Bool.or_eq_true, Bool.and_eq_true,
        decide_eq_true_eq, List.mem_cons, List.not_mem_nil, or_false]
      constructor
      · rintro (h5 | ⟨hlo, hhi⟩)
        · omega
        · have hlo' : (10 : Int) ≤ resids.getD i 0 := by exact_mod_cast hlo
          have hhi' : resids.getD i 0 ≤ (15 : Int) := by exact_mod_cast hhi
          omega
      · intro h
        have hc : resids.getD i 0 = 5 ∨
            ((10 : Int) ≤ resids.getD i 0 ∧ resids.getD i 0 ≤ 15) := by omega
        rcases hc with h5 | ⟨hlo, hhi⟩
        · exact Or.inl h5
        · exact Or.inr ⟨by exact_mod_cast hlo, by exact_mod_cast hhi⟩
  · refine ⟨intItemStep resids (zerosMask resids.length) (.slc 10 15),
      ?_, ?_⟩
    · simp only [Select_resnum, intColE, hcol]
      rfl
    · intro i hi
      have hlen1 : (resids.map (fun (r : Int) =>
          decide ((10 : Int) ≤ r) && decide (r < 15))).length =
          (zerosMask resids.length).length := by
        rw [List.length_map, length_zerosMask]
      simp only [intItemStep]
      rw [getD_orWhere _ _ hlen1, getD_map_lt _ _ _ _ (0 : Int) hi,
        getD_zerosMask]
      simp only [Bool.false_or, Bool.and_eq_true, decide_eq_true_eq,
        List.mem_cons, List.not_mem_nil, or_false]
      omega
  · refine ⟨intItemStep resids (zerosMask resids.length) (.slc3 1 10 2),
      ?_, ?_⟩
    · simp only [Select_resnum, intColE, hcol]
      rfl
    · intro i hi
      simp only [intItemStep]
      rw [show rangeList 1 10 2 = [1, 3, 5, 7, 9] from rfl]
      rw [getD_foldl_orWhere_eqz resids _ _ (by rw [length_zerosMask]) i hi]
      rw [getD_zerosMask]
      simp

theorem C5_witness :
    lookupCol demoGR.intData "resnum" =
      some [0, 1, 2, 3, 4, 5, 6, 7, 9, 10, 11, 12, 13, 14, 15, 16] ∧
    ∃ m, Select_resnum demoGR ["5", "10", "to", "15"] none = .ok m ∧
      (m.getD 4 false = true ↔
        (([0, 1, 2, 3, 4, 5, 6, 7, 9, 10, 11, 12, 13, 14, 15, 16] :
          List Int).getD 4 0 ∈ ([5, 10, 11, 12, 13, 14, 15] : List Int))) := by
  have hcol : lookupCol demoGR.intData "resnum" =
      some [0, 1, 2, 3, 4, 5, 6, 7, 9, 10, 11, 12, 13, 14, 15, 16] := by rfl
  obtain ⟨m, hm, hp⟩ :=
    (C5_range_literal_semantics demoGR
      [0, 1, 2, 3, 4, 5, 6, 7, 9, 10, 11, 12, 13, 14, 15, 16] hcol).2.2.2.2.2.1
  exact ⟨hcol, m, hm, hp 4 (by decide)⟩

theorem evalMulList_operr {ev : NExpr → Except PyErr NumVal}
    {rest : List (MulOp × NExpr)} {op : MulOp} {e : NExpr}
    (hmem : (op, e) ∈ rest) (hne : ∀ v, ev e ≠ .ok v) :
    ∀ acc v, evalMulList ev acc rest ≠ .ok v := by
  induction rest with
  | nil => simp at hmem
  | cons p rest ih =>
    obtain ⟨op', e'⟩ := p
    intro acc v h
    simp only [evalMulList] at h
    rcases List.mem_cons.mp hmem with heq | hmem'
    · rw [Prod.mk.injEq] at heq
      obtain ⟨hop, he⟩ := heq
      subst he
      cases he' : ev e with
      | error er => rw [he'] at h; simp at h
      | ok r => exact hne r he'
    · cases he' : ev e' with
      | error er => rw [he'] at h; simp at h
      | ok r =>
        rw [he'] at h
        simp only [exc_bind_ok] at h
        cases hm : mulStep acc op' r with
        | error er => rw [hm] at h; simp at h
        | ok acc' =>
          rw [hm] at h
          simp only [exc_bind_ok] at h
          exact ih hmem' acc' v h

theorem evalMulList_divzero {ev : NExpr → Except PyErr NumVal}
    {rest : List (MulOp × NExpr)} {e : NExpr}
    (hmem : (MulOp.div, e) ∈ rest) (hz : ev e = .ok (.scalar 0)) :
    ∀ acc v, evalMulList ev acc rest ≠ .ok v := by
  induction rest with
  | nil => simp at hmem
  | cons p rest ih =>
    obtain ⟨op', e'⟩ := p
    intro acc v h
    simp only [evalMulList] at h
    rcases List.mem_cons.mp hmem with heq | hmem'
    · rw [Prod.mk.injEq] at heq
      obtain ⟨hop, he⟩ := heq
      subst he
      rw [← hop, hz] at h
      simp only [exc_bind_ok] at h
      simp [mulStep, truthyEqZero] at h
    · cases he' : ev e' with
      | error er => rw [he'] at h; simp at h
      | ok r =>
        rw [he'] at h
        simp only [exc_bind_ok] at h
        cases hm : mulStep acc op' r with
        | error er => rw [hm] at h; simp at h
        | ok acc' =>
          rw [hm] at h
          simp only [exc_bind_ok] at h
          exact ih hmem' acc' v h

theorem evalAddList_operr {ev : NExpr → Except PyErr NumVal}
    {rest : List (AddOp × NExpr)} {op : AddOp} {e : NExpr}
    (hmem : (op, e) ∈ rest) (hne : ∀ v, ev e ≠ .ok v) :
    ∀ acc v, evalAddList ev acc rest ≠ .ok v := by
  induction rest with
  | nil => simp at hmem
  | cons p rest ih =>
    obtain ⟨op', e'⟩ := p
    intro acc v h
    simp only [evalAddList] at h
    rcases List.mem_cons.mp hmem with heq | hmem'
    · rw [Prod.mk.injEq] at heq
      obtain ⟨hop, he⟩ := heq
      subst he
      cases he' : ev e with
      | error er => rw [he'] at h; simp at h
      | ok r => exact hne r he'
    · cases he' : ev e' with
      | error er => rw [he'] at h; simp at h
      | ok r =>
        rw [he'] at h
        simp only [exc_bind_ok] at h
        cases hm : liftBin (addOpFn op') acc r with
        | error er => rw [hm] at h; simp at h
        | ok acc' =>
          rw [hm] at h
          simp only [exc_bind_ok] at h
          exact ih hmem' acc' v h

theorem evalPowList_operr {ev : NExpr → Except PyErr NumVal}
    {rest : List NExpr} {e : NExpr}
    (hmem : e ∈ rest) (hne : ∀ v, ev e ≠ .ok v) :
    ∀ v, evalPowList ev rest ≠ .ok v := by
  induction rest with
  | nil => simp at hmem
  | cons e' rest ih =>
    intro v h
    cases rest with
    | nil =>
      simp only [evalPowList] at h
      rcases List.mem_cons.mp hmem with heq | hmem'
      · subst heq
        exact hne v h
      · simp at hmem'
    | cons e2 rest2 =>
      simp only [evalPowList] at h
      cases hp : evalPowList ev (e2 :: rest2) with
      | error er => rw [hp] at h; simp at h
      | ok p =>
        rw [hp] at h
        simp only [exc_bind_ok] at h
        rcases List.mem_cons.mp hmem with heq | hmem'
        · subst heq
          cases hn : ev e with
          | error er => rw [hn] at h; simp at h
          | ok n => exact hne n hn
        · exact ih hmem' p hp

/-- C6 (amended): the current `Select._mul` (select.py lines 1515-1536)
rejects a division whose right operand is the scalar zero with a
`SelectionError` ('This leads to zero division error.'), NOT a
`ZeroDivisionError`; evaluation of any numeric expression containing such
a division still fails — it never returns a value, hence never `inf` or
`nan` — in every numeric context (sign, function application, power
chains, multiplicative and additive chains); the `ZeroDivisionError` kind
is what the legacy module's `Select._mul` (src/prody/select.py lines
1005-1018) raises for the same input. -/
theorem C6_divzero_selectionError {g : AtomGroup} {fuel : Nat}
    {e : NExpr} (h : HasDivZero g fuel e) :
    (∀ v, evalNum g fuel e ≠ .ok v) ∧
    (∀ acc, mulStep acc MulOp.div (.scalar 0) = .error .selErr) ∧
    Select_mul_legacy (.scalar 1) MulOp.div (.scalar 0) =
      .error .zeroDiv := by
  refine ⟨?_, ?_, by simp [Select_mul_legacy, truthyEqZero]⟩
  · induction h with
    | here fuel first rest e hmem hz =>
      intro v h'
      simp only [evalNum] at h'
      cases hf : evalNum g fuel first with
      | error er => rw [hf] at h'; simp at h'
      | ok l =>
        rw [hf] at h'
        simp only [exc_bind_ok] at h'
        exact evalMulList_divzero hmem hz l v h'
    | inSign fuel neg e' hsub ih =>
      intro v h'
      simp only [evalNum] at h'
      cases hs : evalNum g fuel e' with
      | error er => rw [hs] at h'; simp at h'
      | ok w => exact ih w hs
    | inFunc fuel f e' hsub ih =>
      intro v h'
      simp only [evalNum] at h'
      cases hs : evalNum g fuel e' with
      | error er => rw [hs] at h'; simp at h'
      | ok w => exact ih w hs
    | inPowBase fuel base rest hsub ih =>
      intro v h'
      simp only [evalNum] at h'
      cases hb : evalNum g fuel base with
      | error er => rw [hb] at h'; simp at h'
      | ok b => exact ih b hb
    | inPowRest fuel base rest e' hmem hsub ih =>
      intro v h'
      simp only [evalNum] at h'
      cases hb : evalNum g fuel base with
      | error er => rw [hb] at h'; simp at h'
      | ok b =>
        rw [hb] at h'
        simp only [exc_bind_ok] at h'
        cases hp : evalPowList (evalNum g fuel) rest with
        | error er => rw [hp] at h'; simp at h'
        | ok p => exact evalPowList_operr hmem ih p hp
    | inMulFirst fuel first rest hsub ih =>
      intro v h'
      simp only [evalNum] at h'
      cases hf : evalNum g fuel first with
      | error er => rw [hf] at h'; simp at h'
      | ok l => exact ih l hf
    | inMulRest fuel first rest op e' hmem hsub ih =>
      intro v h'
      simp only [evalNum] at h'
      cases hf : evalNum g fuel first with
      | error er => rw [hf] at h'; simp at h'
      | ok l =>
        rw [hf] at h'
        simp only [exc_bind_ok] at h'
        exact evalMulList_operr hmem ih l v h'
    | inAddFirst fuel first rest hsub ih =>
      intro v h'
      simp only [evalNum] at h'
      cases hf : evalNum g fuel first with
      | error er => rw [hf] at h'; simp at h'
      | ok l => exact ih l hf
    | inAddRest fuel first rest op e' hmem hsub ih =>
      intro v h'
      simp only [evalNum] at h'
      cases hf : evalNum g fuel first with
      | error er => rw [hf] at h'; simp at h'
      | ok l =>
        rw [hf] at h'
        simp only [exc_bind_ok] at h'
        exact evalAddList_operr hmem ih l v h'
  · intro acc
    simp [mulStep, truthyEqZero]

/-- C6 counterexample: on the concrete numeric expression `1 / 0` the
current evaluator fails with the `SelectionError` kind, not the
`ZeroDivisionError` kind the claim names, refuting the claim as stated. -/
theorem C6_counterexample_kind :
    evalNum demoG 2 (.mulE (.lit 1) [(MulOp.div, .lit 0)]) =
      .error .selErr ∧
    PyErr.selErr ≠ PyErr.zeroDiv ∧
    evalNum demoG 2 (.mulE (.lit 1) [(MulOp.div, .lit 0)]) ≠
      .error .zeroDiv := by
  refine ⟨rfl, by simp, ?_⟩
  intro hc
  rw [show evalNum demoG 2 (.mulE (.lit 1) [(MulOp.div, .lit 0)]) =
    .error .selErr from rfl] at hc
  exact PyErr.noConfusion (Except.error.inj hc)

theorem C6_witness :
    HasDivZero demoG 2 (.mulE (.lit 1) [(MulOp.div, .lit 0)]) ∧
    ∀ v, evalNum demoG 2 (.mulE (.lit 1) [(MulOp.div, .lit 0)]) ≠ .ok v := by
  have hd : HasDivZero demoG 2 (.mulE (.lit 1) [(MulOp.div, .lit 0)]) :=
    HasDivZero.here 1 (.lit 1) [(MulOp.div, .lit 0)] (.lit 0)
      (List.mem_singleton.mpr rfl) rfl
  exact ⟨hd, (C6_divzero_selectionError hd).1⟩

theorem heapAndGo_frame {evalOp : GOp → Option (List Nat) → Except PyErr Mask} :
    ∀ (gops : List GOp) (h : Heap) (selRef : Nat) (evIdx : List Nat)
      {h' : Heap} {r' : Nat},
    heapAndGo evalOp h selRef evIdx gops = .ok (h', r') →
    r' = selRef ∧ h'.length = h.length ∧
    ∀ i, i ≠ selRef → h'.getD i [] = h.getD i [] := by
  intro gops
  induction gops with
  | nil =>
    intro h selRef evIdx h' r' hok
    simp only [heapAndGo, Except.ok.injEq, Prod.mk.injEq] at hok
    exact ⟨hok.2.symm, by rw [← hok.1], fun i _ => by rw [← hok.1]⟩
  | cons op rest ih =>
    intro h selRef evIdx h' r' hok
    cases rest with
    | nil =>
      simp only [heapAndGo] at hok
      cases ht : evalOp op (some evIdx) with
      | error er => rw [ht] at hok; simp at hok
      | ok torf =>
        rw [ht] at hok
        simp only [exc_bind_ok, Except.ok.injEq, Prod.mk.injEq] at hok
        refine ⟨hok.2.symm, ?_, ?_⟩
        · rw [← hok.1, List.length_set]
        · intro i hi
          rw [← hok.1, getD_set_ne _ _ _ (fun hc => hi hc.symm)]
    | cons op2 rest2 =>
      simp only [heapAndGo] at hok
      cases ht : evalOp op (some evIdx) with
      | error er => rw [ht] at hok; simp at hok
      | ok torf =>
        rw [ht] at hok
        simp only [exc_bind_ok] at hok
        obtain ⟨hr, hlen, hfr⟩ := ih _ _ _ hok
        refine ⟨hr, by rw [hlen, List.length_set], ?_⟩
        intro i hi
        rw [hfr i hi, getD_set_ne _ _ _ (fun hc => hi hc.symm)]

theorem heapOrGo_frame {evalOp : GOp → Option (List Nat) → Except PyErr Mask} :
    ∀ (gops : List GOp) (h : Heap) (selRef : Nat) (evIdx : List Nat)
      {h' : Heap} {r' : Nat},
    heapOrGo evalOp h selRef evIdx gops = .ok (h', r') →
    r' = selRef ∧ h'.length = h.length ∧
    ∀ i, i ≠ selRef → h'.getD i [] = h.getD i [] := by
  intro gops
  induction gops with
  | nil =>
    intro h selRef evIdx h' r' hok
    simp only [heapOrGo, Except.ok.injEq, Prod.mk.injEq] at hok
    exact ⟨hok.2.symm, by rw [← hok.1], fun i _ => by rw [← hok.1]⟩
  | cons op rest ih =>
    intro h selRef evIdx h' r' hok
    cases rest with
    | nil =>
      simp only [heapOrGo] at hok
      cases ht : evalOp op (some evIdx) with
      | error er => rw [ht] at hok; simp at hok
      | ok torf =>
        rw [ht] at hok
        simp only [exc_bind_ok, Except.ok.injEq, Prod.mk.injEq] at hok
        refine ⟨hok.2.symm, ?_, ?_⟩
        · rw [← hok.1, List.length_set]
        · intro i hi
          rw [← hok.1, getD_set_ne _ _ _ (fun hc => hi hc.symm)]
    | cons op2 rest2 =>
      simp only [heapOrGo] at hok
      cases ht : evalOp op (some evIdx) with
      | error er => rw [ht] at hok; simp at hok
      | ok torf =>
        rw [ht] at hok
        simp only [exc_bind_ok] at hok
        obtain ⟨hr, hlen, hfr⟩ := ih _ _ _ hok
        refine ⟨hr, by rw [hlen, List.length_set], ?_⟩
        intro i hi
        rw [hfr i hi, getD_set_ne _ _ _ (fun hc => hi hc.symm)]

theorem heapAndGo_congr {evalOp : GOp → Option (List Nat) → Except PyErr Mask} :
    ∀ (gops : List GOp) (h₁ h₂ : Heap) (selRef₁ selRef₂ : Nat)
      (evIdx : List Nat) {h₁' : Heap} {r₁ : Nat},
    heapAndGo evalOp h₁ selRef₁ evIdx gops = .ok (h₁', r₁) →
    selRef₁ < h₁.length → selRef₂ < h₂.length →
    h₂.getD selRef₂ [] = h₁.getD selRef₁ [] →
    ∃ h₂' r₂, heapAndGo evalOp h₂ selRef₂ evIdx gops = .ok (h₂', r₂) ∧
      h₂'.getD r₂ [] = h₁'.getD r₁ [] := by
  intro gops
  induction gops with
  | nil =>
    intro h₁ h₂ s₁ s₂ evIdx h₁' r₁ hok hb₁ hb₂ hv
    simp only [heapAndGo, Except.ok.injEq, Prod.mk.injEq] at hok
    exact ⟨h₂, s₂, rfl, by rw [← hok.1, ← hok.2]; exact hv⟩
  | cons op rest ih =>
    intro h₁ h₂ s₁ s₂ evIdx h₁' r₁ hok hb₁ hb₂ hv
    cases rest with
    | nil =>
      simp only [heapAndGo] at hok ⊢
      cases ht : evalOp op (some evIdx) with
      | error er => rw [ht] at hok; simp at hok
      | ok torf =>
        rw [ht] at hok
        simp only [exc_bind_ok, Except.ok.injEq, Prod.mk.injEq] at hok
        refine ⟨h₂.set s₂ (scatter (h₂.getD s₂ []) evIdx torf), s₂,
          rfl, ?_⟩
        rw [← hok.1, ← hok.2, getD_set_self _ _ _ _ hb₂,
          getD_set_self _ _ _ _ hb₁, hv]
    | cons op2 rest2 =>
      simp only [heapAndGo] at hok ⊢
      cases ht : evalOp op (some evIdx) with
      | error er => rw [ht] at hok; simp at hok
      | ok torf =>
        rw [ht] at hok
        simp only [exc_bind_ok] at hok ⊢
        refine ih _ _ _ _ _ hok ?_ ?_ ?_
        · rw [List.length_set]; exact hb₁
        · rw [List.length_set]; exact hb₂
        · rw [getD_set_self _ _ _ _ hb₂, getD_set_self _ _ _ _ hb₁, hv]

theorem heapOrGo_congr {evalOp : GOp → Option (List Nat) → Except PyErr Mask} :
    ∀ (gops : List GOp) (h₁ h₂ : Heap) (selRef₁ selRef₂ : Nat)
      (evIdx : List Nat) {h₁' : Heap} {r₁ : Nat},
    heapOrGo evalOp h₁ selRef₁ evIdx gops = .ok (h₁', r₁) →
    selRef₁ < h₁.length → selRef₂ < h₂.length →
    h₂.getD selRef₂ [] = h₁.getD selRef₁ [] →
    ∃ h₂' r₂, heapOrGo evalOp h₂ selRef₂ evIdx gops = .ok (h₂', r₂) ∧
      h₂'.getD r₂ [] = h₁'.getD r₁ [] := by
  intro gops
  induction gops with
  | nil =>
    intro h₁ h₂ s₁ s₂ evIdx h₁' r₁ hok hb₁ hb₂ hv
    simp only [heapOrGo, Except.ok.injEq, Prod.mk.injEq] at hok
    exact ⟨h₂, s₂, rfl, by rw [← hok.1, ← hok.2]; exact hv⟩
  | cons op rest ih =>
    intro h₁ h₂ s₁ s₂ evIdx h₁' r₁ hok hb₁ hb₂ hv
    cases rest with
    | nil =>
      simp only [heapOrGo] at hok ⊢
      cases ht : evalOp op (some evIdx) with
      | error er => rw [ht] at hok; simp at hok
      | ok torf =>
        rw [ht] at hok
        simp only [exc_bind_ok, Except.ok.injEq, Prod.mk.injEq] at hok
        refine ⟨h₂.set s₂ (setIdxs (h₂.getD s₂ []) (filterIdx evIdx torf)
          true), s₂, rfl, ?_⟩
        rw [← hok.1, ← hok.2, getD_set_self _ _ _ _ hb₂,
          getD_set_self _ _ _ _ hb₁, hv]
    | cons op2 rest2 =>
      simp only [heapOrGo] at hok ⊢
      cases ht : evalOp op (some evIdx) with
      | error er => rw [ht] at hok; simp at hok
      | ok torf =>
        rw [ht] at hok
        simp only [exc_bind_ok] at hok ⊢
        refine ih _ _ _ _ _ hok ?_ ?_ ?_
        · rw [List.length_set]; exact hb₁
        · rw [List.length_set]; exact hb₂
        · rw [getD_set_self _ _ _ _ hb₂, getD_set_self _ _ _ _ hb₁, hv]

theorem getD_append_lt (l l' : List α) (i : Nat) (d : α)
    (h : i < l.length) : (l ++ l').getD i d = l.getD i d := by
  rw [List.getD_eq_getElem?_getD, List.getD_eq_getElem?_getD,
    List.getElem?_append, if_pos h]

theorem getD_append_self (l : List α) (a : α) (d : α) :
    (l ++ [a]).getD l.length d = a := by
  rw [List.getD_eq_getElem?_getD]
  rw [List.getElem?_append_right (le_refl _)]
  simp

theorem map_hopToGOp_append {h : Heap} {m : List Bool} {l : List HOp}
    (hb : ∀ r, HOp.ref r ∈ l → r < h.length) :
    l.map (hopToGOp (h ++ [m])) = l.map (hopToGOp h) := by
  apply List.map_congr_left
  intro op hop
  cases op with
  | ref r =>
    simp only [hopToGOp]
    rw [getD_append_lt _ _ _ _ (hb r hop)]
  | leafOp l => rfl
  | notOp l => rfl

theorem heapChainFirstH_spec {g : AtomGroup} {ks : KeywordState} {h : Heap}
    {fo : HOp} {h' : Heap} {r' : Nat}
    (hok : heapChainFirstH g ks h fo = .ok (h', r')) :
    (fo = HOp.ref r' ∧ h' = h) ∨
    (∃ m, h' = h ++ [m] ∧ r' = h.length) := by
  cases fo with
  | ref rr =>
    simp only [heapChainFirstH, Except.ok.injEq, Prod.mk.injEq] at hok
    exact Or.inl ⟨by rw [hok.2], hok.1.symm⟩
  | leafOp l =>
    simp only [heapChainFirstH] at hok
    cases hm : evalLeafOn g ks l none with
    | error er => rw [hm] at hok; simp at hok
    | ok m =>
      rw [hm] at hok
      simp only [exc_bind_ok, Except.ok.injEq, Prod.mk.injEq] at hok
      exact Or.inr ⟨m, hok.1.symm, hok.2.symm⟩
  | notOp l =>
    simp only [heapChainFirstH] at hok
    cases hm : evalLeafOn g ks l none with
    | error er => rw [hm] at hok; simp at hok
    | ok m =>
      rw [hm] at hok
      simp only [exc_bind_ok, Except.ok.injEq, Prod.mk.injEq] at hok
      exact Or.inr ⟨negMask m, hok.1.symm, hok.2.symm⟩

theorem heapChain_frame {and? : Bool} {g : AtomGroup} {ks : KeywordState}
    {h : Heap} {hops : List HOp} {n : Nat} (hn : n ≤ h.length)
    (hb : ∀ r, HOp.ref r ∈ hops → n ≤ r ∧ r < h.length)
    {h' : Heap} {r' : Nat}
    (hok : heapChain and? g ks h hops = .ok (h', r')) :
    h.length ≤ h'.length ∧ (∀ i < n, h'.getD i [] = h.getD i []) ∧
    n ≤ r' ∧ r' < h'.length := by
  cases hops with
  | nil => simp [heapChain] at hok
  | cons first rest =>
    cases rest with
    | nil =>
      cases and? with
      | false => simp [heapChain] at hok
      | true =>
        simp only [heapChain, if_true] at hok
        rcases heapChainFirstH_spec hok with ⟨hfo, hh⟩ | ⟨m, hh, hr⟩
        · subst hh
          have hrr := hb r' (by rw [← hfo]; exact List.mem_singleton_self _)
          exact ⟨le_refl _, fun i _ => rfl, hrr.1, hrr.2⟩
        · subst hh
          subst hr
          refine ⟨by simp, fun i hi => getD_append_lt _ _ _ _ (by omega),
            by omega, by simp⟩
    | cons op2 rest2 =>
      simp only [heapChain] at hok
      cases hf : heapChainFirstH g ks h first with
      | error er => rw [hf] at hok; simp at hok
      | ok pr =>
        obtain ⟨h1, selRef⟩ := pr
        rw [hf] at hok
        simp only [exc_bind_ok] at hok
        have hfst : h.length ≤ h1.length ∧
            (∀ i < h.length, h1.getD i [] = h.getD i []) ∧
            n ≤ selRef ∧ selRef < h1.length := by
          rcases heapChainFirstH_spec hf with ⟨hfo, hh⟩ | ⟨m, hh, hr⟩
          · subst hh
            have hrr := hb selRef (by rw [← hfo]; exact List.mem_cons_self _ _)
            exact ⟨le_refl _, fun i _ => rfl, hrr.1, hrr.2⟩
          · subst hh
            subst hr
            exact ⟨by simp, fun i hi => getD_append_lt _ _ _ _ (by omega),
              by omega, by simp⟩
        obtain ⟨hl1, hfr1, hsn, hsb⟩ := hfst
        have hloop : r' = selRef ∧ h'.length = h1.length ∧
            ∀ i, i ≠ selRef → h'.getD i [] = h1.getD i [] := by
          cases and? with
          | true =>
            simp only [if_true] at hok
            exact heapAndGo_frame _ _ _ _ hok
          | false =>
            simp only [Bool.false_eq_true, if_false] at hok
            exact heapOrGo_frame _ _ _ _ hok
        obtain ⟨hr', hlen', hfr'⟩ := hloop
        refine ⟨by omega, ?_, by omega, by omega⟩
        intro i hi
        rw [hfr' i (by omega), hfr1 i (by omega)]

theorem heapChain_congr {and? : Bool} {g : AtomGroup} {ks : KeywordState}
    {h₁ h₂ : Heap} {hops₁ hops₂ : List HOp}
    (hmap : hops₂.map (hopToGOp h₂) = hops₁.map (hopToGOp h₁))
    (hb₁ : ∀ r, HOp.ref r ∈ hops₁ → r < h₁.length)
    (hb₂ : ∀ r, HOp.ref r ∈ hops₂ → r < h₂.length)
    {h₁' : Heap} {r₁ : Nat}
    (hok : heapChain and? g ks h₁ hops₁ = .ok (h₁', r₁)) :
    ∃ h₂' r₂, heapChain and? g ks h₂ hops₂ = .ok (h₂', r₂) ∧
      h₂'.getD r₂ [] = h₁'.getD r₁ [] := by
  cases hops₁ with
  | nil => simp [heapChain] at hok
  | cons f₁ rest₁ =>
    cases hops₂ with
    | nil => simp at hmap
    | cons f₂ rest₂ =>
      simp only [List.map_cons, List.cons.injEq] at hmap
      obtain ⟨hhead, htail⟩ := hmap
      cases rest₁ with
      | nil =>
        cases rest₂ with
        | cons o2 r2 => simp at htail
        | nil =>
          cases and? with
          | false => simp [heapChain] at hok
          | true =>
            simp only [heapChain, if_true] at hok ⊢
            cases f₁ with
            | ref rr₁ =>
              cases f₂ with
              | ref rr₂ =>
                simp only [heapChainFirstH, Except.ok.injEq,
                  Prod.mk.injEq] at hok
                obtain ⟨hh, hr⟩ := hok
                refine ⟨h₂, rr₂, rfl, ?_⟩
                simp only [hopToGOp, GOp.arr.injEq] at hhead
                rw [← hh, ← hr]
                exact hhead
              | leafOp l => simp [hopToGOp] at hhead
              | notOp l => simp [hopToGOp] at hhead
            | leafOp l₁ =>
              cases f₂ with
              | ref rr₂ => simp [hopToGOp] at hhead
              | leafOp l₂ =>
                simp only [hopToGOp, GOp.leafOp.injEq] at hhead
                subst hhead
                simp only [heapChainFirstH] at hok ⊢
                cases hm : evalLeafOn g ks l₂ none with
                | error er => rw [hm] at hok; simp at hok
                | ok m =>
                  rw [hm] at hok
                  simp only [exc_bind_ok, Except.ok.injEq,
                    Prod.mk.injEq] at hok
                  refine ⟨h₂ ++ [m], h₂.length, rfl, ?_⟩
                  rw [getD_append_self, ← hok.1, ← hok.2, getD_append_self]
              | notOp l₂ => simp [hopToGOp] at hhead
            | notOp l₁ =>
              cases f₂ with
              | ref rr₂ => simp [hopToGOp] at hhead
              | leafOp l₂ => simp [hopToGOp] at hhead
              | notOp l₂ =>
                simp only [hopToGOp, GOp.notOp.injEq] at hhead
                subst hhead
                simp only [heapChainFirstH] at hok ⊢
                cases hm : evalLeafOn g ks l₂ none with
                | error er => rw [hm] at hok; simp at hok
                | ok m =>
                  rw [hm] at hok
                  simp only [exc_bind_ok, Except.ok.injEq,
                    Prod.mk.injEq] at hok
                  refine ⟨h₂ ++ [negMask m], h₂.length, rfl, ?_⟩
                  rw [getD_append_self, ← hok.1, ← hok.2, getD_append_self]
      | cons o₁ rr₁ =>
        cases rest₂ with
        | nil => simp at htail
        | cons o₂ rr₂ =>
          simp only [heapChain] at hok ⊢
          cases hf₁ : heapChainFirstH g ks h₁ f₁ with
          | error er => rw [hf₁] at hok; simp at hok
          | ok pr₁ =>
            obtain ⟨h11, s₁⟩ := pr₁
            rw [hf₁] at hok
            simp only [exc_bind_ok] at hok
            obtain ⟨h12, s₂, hf₂, hsv, hs₁b, hs₂b, hg₁, hg₂⟩ :
                ∃ h12 s₂,
                heapChainFirstH g ks h₂ f₂ = .ok (h12, s₂) ∧
                h12.getD s₂ [] = h11.getD s₁ [] ∧
                s₁ < h11.length ∧ s₂ < h12.length ∧
                (o₁ :: rr₁).map (hopToGOp h11) =
                  (o₁ :: rr₁).map (hopToGOp h₁) ∧
                (o₂ :: rr₂).map (hopToGOp h12) =
                  (o₂ :: rr₂).map (hopToGOp h₂) := by
              cases f₁ with
              | ref rr₁' =>
                cases f₂ with
                | ref rr₂' =>
                  simp only [heapChainFirstH, Except.ok.injEq,
                    Prod.mk.injEq] at hf₁
                  obtain ⟨hh, hr⟩ := hf₁
                  subst hh
                  subst hr
                  simp only [hopToGOp, GOp.arr.injEq] at hhead
                  refine ⟨h₂, rr₂', rfl, hhead, ?_, ?_, rfl, rfl⟩
                  · exact hb₁ rr₁' (List.mem_cons_self _ _)
                  · exact hb₂ rr₂' (List.mem_cons_self _ _)
                | leafOp l => simp [hopToGOp] at hhead
                | notOp l => simp [hopToGOp] at hhead
              | leafOp l₁ =>
                cases f₂ with
                | ref rr₂' => simp [hopToGOp] at hhead
                | leafOp l₂ =>
                  simp only [hopToGOp, GOp.leafOp.injEq] at hhead
                  subst hhead
                  simp only [heapChainFirstH] at hf₁
                  cases hm : evalLeafOn g ks l₂ none with
                  | error er => rw [hm] at hf₁; simp at hf₁
                  | ok m =>
                    rw [hm] at hf₁
                    simp only [exc_bind_ok, Except.ok.injEq,
                      Prod.mk.injEq] at hf₁
                    obtain ⟨hh, hr⟩ := hf₁
                    subst hh
                    subst hr
                    refine ⟨h₂ ++ [m], h₂.length, ?_, ?_, by simp, by simp,
                      ?_, ?_⟩
                    · simp only [heapChainFirstH, hm, exc_bind_ok]
                    · rw [getD_append_self, getD_append_self]
                    · exact map_hopToGOp_append
                        (fun r hr => hb₁ r (List.mem_cons_of_mem _ hr))
                    · exact map_hopToGOp_append
                        (fun r hr => hb₂ r (List.mem_cons_of_mem _ hr))
                | notOp l₂ => simp [hopToGOp] at hhead
              | notOp l₁ =>
                cases f₂ with
                | ref rr₂' => simp [hopToGOp] at hhead
                | leafOp l₂ => simp [hopToGOp] at hhead
                | notOp l₂ =>
                  simp only [hopToGOp, GOp.notOp.injEq] at hhead
                  subst hhead
                  simp only [heapChainFirstH] at hf₁
                  cases hm : evalLeafOn g ks l₂ none with
                  | error er => rw [hm] at hf₁; simp at hf₁
                  | ok m =>
                    rw [hm] at hf₁
                    simp only [exc_bind_ok, Except.ok.injEq,
                      Prod.mk.injEq] at hf₁
                    obtain ⟨hh, hr⟩ := hf₁
                    subst hh
                    subst hr
                    refine ⟨h₂ ++ [negMask m], h₂.length, ?_, ?_, by simp,
                      by simp, ?_, ?_⟩
                    · simp only [heapChainFirstH, hm, exc_bind_ok]
                    · rw [getD_append_self, getD_append_self]
                    · exact map_hopToGOp_append
                        (fun r hr => hb₁ r (List.mem_cons_of_mem _ hr))
                    · exact map_hopToGOp_append
                        (fun r hr => hb₂ r (List.mem_cons_of_mem _ hr))
            rw [hf₂]
            simp only [exc_bind_ok]
            have hgops : (o₂ :: rr₂).map (hopToGOp h12) =
                (o₁ :: rr₁).map (hopToGOp h11) := by
              rw [hg₂, hg₁, htail]
            rw [hgops, hsv]
            cases and? with
            | true =>
              simp only [if_true] at hok ⊢
              exact heapAndGo_congr _ _ _ _ _ _ hok hs₁b hs₂b hsv
            | false =>
              simp only [Bool.false_eq_true, if_false] at hok ⊢
              exact heapOrGo_congr _ _ _ _ _ _ hok hs₁b hs₂b hsv

theorem heapResolve_frame {ev : Heap → SExpr → Except PyErr (Heap × Nat)}
    (hev : ∀ h e h' r, ev h e = .ok (h', r) →
      h.length ≤ h'.length ∧ (∀ i < h.length, h'.getD i [] = h.getD i []) ∧
      h.length ≤ r ∧ r < h'.length) :
    ∀ (ops : List Operand) (h : Heap) {h' : Heap} {hops : List HOp},
    heapResolve ev h ops = .ok (h', hops) →
    h.length ≤ h'.length ∧ (∀ i < h.length, h'.getD i [] = h.getD i []) ∧
    ∀ r, HOp.ref r ∈ hops → h.length ≤ r ∧ r < h'.length := by
  intro ops
  induction ops with
  | nil =>
    intro h h' hops hok
    simp only [heapResolve, Except.ok.injEq, Prod.mk.injEq] at hok
    rw [← hok.1, ← hok.2]
    exact ⟨le_refl _, fun i _ => rfl, fun r hr => by simp at hr⟩
  | cons op rest ih =>
    intro h h' hops hok
    cases op with
    | sub e =>
      simp only [heapResolve] at hok
      cases hs : ev h e with
      | error er => rw [hs] at hok; simp at hok
      | ok pr =>
        obtain ⟨h1, r⟩ := pr
        rw [hs] at hok
        simp only [exc_bind_ok] at hok
        cases hr : heapResolve ev h1 rest with
        | error er => rw [hr] at hok; simp at hok
        | ok pr2 =>
          obtain ⟨h2, hops'⟩ := pr2
          rw [hr] at hok
          simp only [exc_bind_ok, Except.ok.injEq, Prod.mk.injEq] at hok
          obtain ⟨hh, hhops⟩ := hok
          subst hh
          obtain ⟨hl1, hfr1, hrn, hrb⟩ := hev h e h1 r hs
          obtain ⟨hl2, hfr2, hbnd⟩ := ih h1 hr
          refine ⟨by omega, ?_, ?_⟩
          · intro i hi
            rw [hfr2 i (by omega), hfr1 i hi]
          · intro r' hr'
            rw [← hhops] at hr'
            rcases List.mem_cons.mp hr' with heq | hmem
            · cases heq
              exact ⟨hrn, by omega⟩
            · obtain ⟨ha, hb⟩ := hbnd r' hmem
              exact ⟨by omega, hb⟩
    | leafOp l =>
      simp only [heapResolve] at hok
      cases hr : heapResolve ev h rest with
      | error er => rw [hr] at hok; simp at hok
      | ok pr2 =>
        obtain ⟨h2, hops'⟩ := pr2
        rw [hr] at hok
        simp only [exc_bind_ok, Except.ok.injEq, Prod.mk.injEq] at hok
        obtain ⟨hh, hhops⟩ := hok
        subst hh
        obtain ⟨hl2, hfr2, hbnd⟩ := ih h hr
        refine ⟨hl2, hfr2, ?_⟩
        intro r' hr'
        rw [← hhops] at hr'
        rcases List.mem_cons.mp hr' with heq | hmem
        · cases heq
        · exact hbnd r' hmem
    | notOp l =>
      simp only [heapResolve] at hok
      cases hr : heapResolve ev h rest with
      | error er => rw [hr] at hok; simp at hok
      | ok pr2 =>
        obtain ⟨h2, hops'⟩ := pr2
        rw [hr] at hok
        simp only [exc_bind_ok, Except.ok.injEq, Prod.mk.injEq] at hok
        obtain ⟨hh, hhops⟩ := hok
        subst hh
        obtain ⟨hl2, hfr2, hbnd⟩ := ih h hr
        refine ⟨hl2, hfr2, ?_⟩
        intro r' hr'
        rw [← hhops] at hr'
        rcases List.mem_cons.mp hr' with heq | hmem
        · cases heq
        · exact hbnd r' hmem

theorem heapResolve_congr {ag : AgHeap}
    {ev : Heap → SExpr → Except PyErr (Heap × Nat)}
    (hev : ∀ h e h' r, ev h e = .ok (h', r) →
      h.length ≤ h'.length ∧ (∀ i < h.length, h'.getD i [] = h.getD i []) ∧
      h.length ≤ r ∧ r < h'.length)
    (hcg : ∀ h₁ h₂ e h₁' r₁, ev h₁ e = .ok (h₁', r₁) →
      (∀ p ∈ ag.cols, p.2 < h₁.length ∧ p.2 < h₂.length ∧
        h₂.getD p.2 [] = h₁.getD p.2 []) →
      ∃ h₂' r₂, ev h₂ e = .ok (h₂', r₂) ∧
        h₂'.getD r₂ [] = h₁'.getD r₁ []) :
    ∀ (ops : List Operand) (h₁ h₂ : Heap) {h₁' : Heap} {hops₁ : List HOp},
    heapResolve ev h₁ ops = .ok (h₁', hops₁) →
    (∀ p ∈ ag.cols, p.2 < h₁.length ∧ p.2 < h₂.length ∧
      h₂.getD p.2 [] = h₁.getD p.2 []) →
    ∃ h₂' hops₂, heapResolve ev h₂ ops = .ok (h₂', hops₂) ∧
      hops₂.map (hopToGOp h₂') = hops₁.map (hopToGOp h₁') ∧
      (∀ r, HOp.ref r ∈ hops₁ → r < h₁'.length) ∧
      (∀ r, HOp.ref r ∈ hops₂ → r < h₂'.length) ∧
      (∀ p ∈ ag.cols, p.2 < h₁'.length ∧ p.2 < h₂'.length ∧
        h₂'.getD p.2 [] = h₁'.getD p.2 []) := by
  intro ops
  induction ops with
  | nil =>
    intro h₁ h₂ h₁' hops₁ hok hag
    simp only [heapResolve, Except.ok.injEq, Prod.mk.injEq] at hok
    rw [← hok.1, ← hok.2]
    exact ⟨h₂, [], rfl, rfl, fun r hr => by simp at hr,
      fun r hr => by simp at hr, hag⟩
  | cons op rest ih =>
    intro h₁ h₂ h₁' hops₁ hok hag
    cases op with
    | sub e =>
      simp only [heapResolve] at hok
      cases hs₁ : ev h₁ e with
      | error er => rw [hs₁] at hok; simp at hok
      | ok pr₁ =>
        obtain ⟨h11, r₁⟩ := pr₁
        rw [hs₁] at hok
        simp only [exc_bind_ok] at hok
        cases hr₁ : heapResolve ev h11 rest with
        | error er => rw [hr₁] at hok; simp at hok
        | ok pr₂ =>
          obtain ⟨hf₁, hops'⟩ := pr₂
          rw [hr₁] at hok
          simp only [exc_bind_ok, Except.ok.injEq, Prod.mk.injEq] at hok
          obtain ⟨hh, hhops⟩ := hok
          subst hh
          subst hhops
          obtain ⟨he₂, r₂, hs₂, hsv⟩ := hcg h₁ h₂ e h11 r₁ hs₁ hag
          obtain ⟨hl11, hfr11, hrn1, hrb1⟩ := hev h₁ e h11 r₁ hs₁
          obtain ⟨hl21, hfr21, hrn2, hrb2⟩ := hev h₂ e he₂ r₂ hs₂
          have hag1 : ∀ p ∈ ag.cols, p.2 < h11.length ∧ p.2 < he₂.length ∧
              he₂.getD p.2 [] = h11.getD p.2 [] := by
            intro p hp
            obtain ⟨hp1, hp2, hpv⟩ := hag p hp
            exact ⟨by omega, by omega,
              by rw [hfr21 p.2 hp2, hfr11 p.2 hp1, hpv]⟩
          obtain ⟨h₂', hops₂', hres₂, hmap', hbd₁', hbd₂', hag'⟩ :=
            ih h11 he₂ hr₁ hag1
          obtain ⟨hl1', hfr1', hbnd1'⟩ := heapResolve_frame hev rest h11 hr₁
          obtain ⟨hl2', hfr2', hbnd2'⟩ := heapResolve_frame hev rest he₂ hres₂
          refine ⟨h₂', .ref r₂ :: hops₂', ?_, ?_, ?_, ?_, hag'⟩
          · simp only [heapResolve, hs₂, exc_bind_ok, hres₂]
          · simp only [List.map_cons, hopToGOp, List.cons.injEq]
            refine ⟨?_, hmap'⟩
            rw [hfr2' r₂ hrb2, hfr1' r₁ hrb1, hsv]
          · intro r hr
            rcases List.mem_cons.mp hr with heq | hmem
            · cases heq
              omega
            · exact hbd₁' r hmem
          · intro r hr
            rcases List.mem_cons.mp hr with heq | hmem
            · cases heq
              omega
            · exact hbd₂' r hmem
    | leafOp l =>
      simp only [heapResolve] at hok
      cases hr₁ : heapResolve ev h₁ rest with
      | error er => rw [hr₁] at hok; simp at hok
      | ok pr₂ =>
        obtain ⟨hf₁, hops'⟩ := pr₂
        rw [hr₁] at hok
        simp only [exc_bind_ok, Except.ok.injEq, Prod.mk.injEq] at hok
        obtain ⟨hh, hhops⟩ := hok
        subst hh
        subst hhops
        obtain ⟨h₂', hops₂', hres₂, hmap', hbd₁', hbd₂', hag'⟩ :=
          ih h₁ h₂ hr₁ hag
        refine ⟨h₂', .leafOp l :: hops₂', ?_, ?_, ?_, ?_, hag'⟩
        · simp only [heapResolve, hres₂, exc_bind_ok]
        · simp only [List.map_cons, hopToGOp, List.cons.injEq]
          exact ⟨trivial, hmap'⟩
        · intro r hr
          rcases List.mem_cons.mp hr with heq | hmem
          · cases heq
          · exact hbd₁' r hmem
        · intro r hr
          rcases List.mem_cons.mp hr with heq | hmem
          · cases heq
          · exact hbd₂' r hmem
    | notOp l =>
      simp only [heapResolve] at hok
      cases hr₁ : heapResolve ev h₁ rest with
      | error er => rw [hr₁] at hok; simp at hok
      | ok pr₂ =>
        obtain ⟨hf₁, hops'⟩ := pr₂
        rw [hr₁] at hok
        simp only [exc_bind_ok, Except.ok.injEq, Prod.mk.injEq] at hok
        obtain ⟨hh, hhops⟩ := hok
        subst hh
        subst hhops
        obtain ⟨h₂', hops₂', hres₂, hmap', hbd₁', hbd₂', hag'⟩ :=
          ih h₁ h₂ hr₁ hag
        refine ⟨h₂', .notOp l :: hops₂', ?_, ?_, ?_, ?_, hag'⟩
        · simp only [heapResolve, hres₂, exc_bind_ok]
        · simp only [List.map_cons, hopToGOp, List.cons.injEq]
          exact ⟨trivial, hmap'⟩
        · intro r hr
          rcases List.mem_cons.mp hr with heq | hmem
          · cases heq
          · exact hbd₁' r hmem
        · intro r hr
          rcases List.mem_cons.mp hr with heq | hmem
          · cases heq
          · exact hbd₂' r hmem

theorem heapEval_frame {g : AtomGroup} {ag : AgHeap} {ks : KeywordState} :
    ∀ (fuel : Nat) (h : Heap) (e : SExpr) {h' : Heap} {r : Nat},
    heapEval g ag ks fuel h e = .ok (h', r) →
    h.length ≤ h'.length ∧ (∀ i < h.length, h'.getD i [] = h.getD i []) ∧
    h.length ≤ r ∧ r < h'.length := by
  intro fuel
  induction fuel with
  | zero => intro h e h' r hok; simp [heapEval] at hok
  | succ f ih =>
    intro h e h' r hok
    cases e with
    | leaf l =>
      cases l with
      | udata kw =>
        simp only [heapEval] at hok
        cases hl : lookupCol ag.cols kw with
        | none => rw [hl] at hok; simp at hok
        | some rr =>
          rw [hl] at hok
          simp only [Except.ok.injEq, Prod.mk.injEq] at hok
          rw [← hok.1, ← hok.2]
          exact ⟨by simp, fun i hi => getD_append_lt _ _ _ _ hi,
            le_refl _, by simp⟩
      | boolkw k =>
        simp only [heapEval] at hok
        cases hm : evalLeafOn g ks (.boolkw k) none with
        | error er => rw [hm] at hok; simp at hok
        | ok m =>
          rw [hm] at hok
          simp only [exc_bind_ok, Except.ok.injEq, Prod.mk.injEq] at hok
          rw [← hok.1, ← hok.2]
          exact ⟨by simp, fun i hi => getD_append_lt _ _ _ _ hi,
            le_refl _, by simp⟩
      | basic b =>
        simp only [heapEval] at hok
        cases hm : evalLeafOn g ks (.basic b) none with
        | error er => rw [hm] at hok; simp at hok
        | ok m =>
          rw [hm] at hok
          simp only [exc_bind_ok, Except.ok.injEq, Prod.mk.injEq] at hok
          rw [← hok.1, ← hok.2]
          exact ⟨by simp, fun i hi => getD_append_lt _ _ _ _ hi,
            le_refl _, by simp⟩
    | notE e' =>
      simp only [heapEval] at hok
      cases hs : heapEval g ag ks f h e' with
      | error er => rw [hs] at hok; simp at hok
      | ok pr =>
        obtain ⟨h1, rr⟩ := pr
        rw [hs] at hok
        simp only [exc_bind_ok, Except.ok.injEq, Prod.mk.injEq] at hok
        obtain ⟨hl1, hfr1, hrn, hrb⟩ := ih h e' hs
        rw [← hok.1, ← hok.2]
        refine ⟨by simp [List.length_set]; omega, ?_, hrn, ?_⟩
        · intro i hi
          rw [getD_set_ne _ _ _ (by omega), hfr1 i hi]
        · simp [List.length_set]
          omega
    | andE ops =>
      simp only [heapEval] at hok
      cases hr : heapResolve (heapEval g ag ks f) h ops with
      | error er => rw [hr] at hok; simp at hok
      | ok pr =>
        obtain ⟨h1, hops⟩ := pr
        rw [hr] at hok
        simp only [exc_bind_ok] at hok
        obtain ⟨hl1, hfr1, hbnd⟩ :=
          heapResolve_frame (fun h e h' r hk => ih h e hk) ops h hr
        obtain ⟨hl2, hfr2, hrn, hrb⟩ := heapChain_frame hl1 hbnd hok
        exact ⟨by omega, fun i hi => by rw [hfr2 i hi, hfr1 i hi],
          hrn, hrb⟩
    | orE ops =>
      simp only [heapEval] at hok
      cases hr : heapResolve (heapEval g ag ks f) h ops with
      | error er => rw [hr] at hok; simp at hok
      | ok pr =>
        obtain ⟨h1, hops⟩ := pr
        rw [hr] at hok
        simp only [exc_bind_ok] at hok
        obtain ⟨hl1, hfr1, hbnd⟩ :=
          heapResolve_frame (fun h e h' r hk => ih h e hk) ops h hr
        obtain ⟨hl2, hfr2, hrn, hrb⟩ := heapChain_frame hl1 hbnd hok
        exact ⟨by omega, fun i hi => by rw [hfr2 i hi, hfr1 i hi],
          hrn, hrb⟩
    | withinE rad excl e' =>
      simp only [heapEval] at hok
      cases hs : heapEval g ag ks f h e' with
      | error er => rw [hs] at hok; simp at hok
      | ok pr =>
        obtain ⟨h1, rf⟩ := pr
        rw [hs] at hok
        simp only [exc_bind_ok, Except.ok.injEq, Prod.mk.injEq] at hok
        obtain ⟨hl1, hfr1, hrn, hrb⟩ := ih h e' hs
        rw [← hok.1, ← hok.2]
        refine ⟨by simp; omega, ?_, by omega, by simp⟩
        intro i hi
        rw [getD_append_lt _ _ _ _ (by omega), hfr1 i hi]
    | withinCtx rad pts =>
      simp only [heapEval, Except.ok.injEq, Prod.mk.injEq] at hok
      rw [← hok.1, ← hok.2]
      exact ⟨by simp, fun i hi => getD_append_lt _ _ _ _ hi,
        le_refl _, by simp⟩
    | sameE what e' =>
      simp only [heapEval] at hok
      cases hs : heapEval g ag ks f h e' with
      | error er => rw [hs] at hok; simp at hok
      | ok pr =>
        obtain ⟨h1, rf⟩ := pr
        rw [hs] at hok
        simp only [exc_bind_ok] at hok
        cases hm : SelectSame g what (h1.getD rf []) with
        | error er => rw [hm] at hok; simp at hok
        | ok m =>
          rw [hm] at hok
          simp only [exc_bind_ok, Except.ok.injEq, Prod.mk.injEq] at hok
          obtain ⟨hl1, hfr1, hrn, hrb⟩ := ih h e' hs
          rw [← hok.1, ← hok.2]
          refine ⟨by simp; omega, ?_, by omega, by simp⟩
          intro i hi
          rw [getD_append_lt _ _ _ _ (by omega), hfr1 i hi]
    | compE first rest =>
      simp only [heapEval] at hok
      cases hf : evalNum g f first with
      | error er => rw [hf] at hok; simp at hok
      | ok l =>
        rw [hf] at hok
        simp only [exc_bind_ok] at hok
        cases hc : evalCmpList (evalNum g f) l none rest with
        | error er => rw [hc] at hok; simp at hok
        | ok c =>
          rw [hc] at hok
          cases c with
          | scalar b => exact Except.noConfusion hok
          | arr xs =>
            have hok2 : (h ++ [xs], h.length) = (h', r) := by
              injection hok
            obtain ⟨hh, hr⟩ := Prod.mk.injEq .. |>.mp hok2
            rw [← hh, ← hr]
            exact ⟨by simp, fun i hi => getD_append_lt _ _ _ _ hi,
              le_refl _, by simp⟩

theorem heapEval_congr {g : AtomGroup} {ag : AgHeap} {ks : KeywordState} :
    ∀ (fuel : Nat) (h₁ h₂ : Heap) (e : SExpr) {h₁' : Heap} {r₁ : Nat},
    heapEval g ag ks fuel h₁ e = .ok (h₁', r₁) →
    (∀ p ∈ ag.cols, p.2 < h₁.length ∧ p.2 < h₂.length ∧
      h₂.getD p.2 [] = h₁.getD p.2 []) →
    ∃ h₂' r₂, heapEval g ag ks fuel h₂ e = .ok (h₂', r₂) ∧
      h₂'.getD r₂ [] = h₁'.getD r₁ [] := by
  intro fuel
  induction fuel with
  | zero => intro h₁ h₂ e h₁' r₁ hok hag; simp [heapEval] at hok
  | succ f ih =>
    intro h₁ h₂ e h₁' r₁ hok hag
    cases e with
    | leaf l =>
      cases l with
      | udata kw =>
        simp only [heapEval] at hok ⊢
        cases hl : lookupCol ag.cols kw with
        | none => rw [hl] at hok; simp at hok
        | some rr =>
          rw [hl] at hok
          simp only [Except.ok.injEq, Prod.mk.injEq] at hok
          obtain ⟨p, hp, hrr⟩ : ∃ p ∈ ag.cols, p.2 = rr := by
            simp only [lookupCol] at hl
            cases hf : ag.cols.find? (fun p => p.1 = kw) with
            | none => rw [hf] at hl; simp at hl
            | some p =>
              rw [hf] at hl
              simp only [Option.some.injEq] at hl
              exact ⟨p, List.mem_of_find?_eq_some hf, hl⟩
          obtain ⟨hb1, hb2, hv⟩ := hag p hp
          rw [hrr] at hv
          refine ⟨h₂ ++ [h₂.getD rr []], h₂.length, rfl, ?_⟩
          rw [getD_append_self, ← hok.1, ← hok.2, getD_append_self, hv]
      | boolkw k =>
        simp only [heapEval] at hok ⊢
        cases hm : evalLeafOn g ks (.boolkw k) none with
        | error er => rw [hm] at hok; simp at hok
        | ok m =>
          rw [hm] at hok
          simp only [exc_bind_ok, Except.ok.injEq, Prod.mk.injEq] at hok
          refine ⟨h₂ ++ [m], h₂.length, rfl, ?_⟩
          rw [getD_append_self, ← hok.1, ← hok.2, getD_append_self]
      | basic b =>
        simp only [heapEval] at hok ⊢
        cases hm : evalLeafOn g ks (.basic b) none with
        | error er => rw [hm] at hok; simp at hok
        | ok m =>
          rw [hm] at hok
          simp only [exc_bind_ok, Except.ok.injEq, Prod.mk.injEq] at hok
          refine ⟨h₂ ++ [m], h₂.length, rfl, ?_⟩
          rw [getD_append_self, ← hok.1, ← hok.2, getD_append_self]
    | notE e' =>
      simp only [heapEval] at hok ⊢
      cases hs : heapEval g ag ks f h₁ e' with
      | error er => rw [hs] at hok; simp at hok
      | ok pr =>
        obtain ⟨h11, rr₁⟩ := pr
        rw [hs] at hok
        simp only [exc_bind_ok, Except.ok.injEq, Prod.mk.injEq] at hok
        obtain ⟨h12, rr₂, hs₂, hsv⟩ := ih h₁ h₂ e' hs hag
        obtain ⟨-, -, -, hrb₁⟩ := heapEval_frame f h₁ e' hs
        obtain ⟨-, -, -, hrb₂⟩ := heapEval_frame f h₂ e' hs₂
        rw [hs₂]
        simp only [exc_bind_ok]
        refine ⟨h12.set rr₂ (negMask (h12.getD rr₂ [])), rr₂, rfl, ?_⟩
        rw [getD_set_self _ _ _ _ hrb₂, ← hok.1, ← hok.2,
          getD_set_self _ _ _ _ hrb₁, hsv]
    | andE ops =>
      simp only [heapEval] at hok ⊢
      cases hr : heapResolve (heapEval g ag ks f) h₁ ops with
      | error er => rw [hr] at hok; simp at hok
      | ok pr =>
        obtain ⟨h11, hops₁⟩ := pr
        rw [hr] at hok
        simp only [exc_bind_ok] at hok
        obtain ⟨h12, hops₂, hres₂, hmap, hbd₁, hbd₂, hag'⟩ :=
          heapResolve_congr (fun h e h' r hk => heapEval_frame f h e hk)
            (fun ha hb e h' r hk hagr => ih ha hb e hk hagr) ops h₁ h₂ hr hag
        rw [hres₂]
        simp only [exc_bind_ok]
        exact heapChain_congr hmap hbd₁ hbd₂ hok
    | orE ops =>
      simp only [heapEval] at hok ⊢
      cases hr : heapResolve (heapEval g ag ks f) h₁ ops with
      | error er => rw [hr] at hok; simp at hok
      | ok pr =>
        obtain ⟨h11, hops₁⟩ := pr
        rw [hr] at hok
        simp only [exc_bind_ok] at hok
        obtain ⟨h12, hops₂, hres₂, hmap, hbd₁, hbd₂, hag'⟩ :=
          heapResolve_congr (fun h e h' r hk => heapEval_frame f h e hk)
            (fun ha hb e h' r hk hagr => ih ha hb e hk hagr) ops h₁ h₂ hr hag
        rw [hres₂]
        simp only [exc_bind_ok]
        exact heapChain_congr hmap hbd₁ hbd₂ hok
    | withinE rad excl e' =>
      simp only [heapEval] at hok ⊢
      cases hs : heapEval g ag ks f h₁ e' with
      | error er => rw [hs] at hok; simp at hok
      | ok pr =>
        obtain ⟨h11, rf₁⟩ := pr
        rw [hs] at hok
        simp only [exc_bind_ok, Except.ok.injEq, Prod.mk.injEq] at hok
        obtain ⟨h12, rf₂, hs₂, hsv⟩ := ih h₁ h₂ e' hs hag
        rw [hs₂]
        simp only [exc_bind_ok]
        refine ⟨h12 ++ [SelectWithin g rad excl (h12.getD rf₂ [])],
          h12.length, rfl, ?_⟩
        rw [getD_append_self, ← hok.1, ← hok.2, getD_append_self, hsv]
    | withinCtx rad pts =>
      simp only [heapEval, Except.ok.injEq, Prod.mk.injEq] at hok ⊢
      refine ⟨h₂ ++ [withinPoints g rad pts], h₂.length, ⟨rfl, rfl⟩, ?_⟩
      rw [getD_append_self, ← hok.1, ← hok.2, getD_append_self]
    | sameE what e' =>
      simp only [heapEval] at hok ⊢
      cases hs : heapEval g ag ks f h₁ e' with
      | error er => rw [hs] at hok; simp at hok
      | ok pr =>
        obtain ⟨h11, rf₁⟩ := pr
        rw [hs] at hok
        simp only [exc_bind_ok] at hok
        obtain ⟨h12, rf₂, hs₂, hsv⟩ := ih h₁ h₂ e' hs hag
        rw [hs₂]
        simp only [exc_bind_ok, hsv]
        cases hm : SelectSame g what (h11.getD rf₁ []) with
        | error er => rw [hm] at hok; simp at hok
        | ok m =>
          rw [hm] at hok
          simp only [exc_bind_ok, Except.ok.injEq, Prod.mk.injEq] at hok
          refine ⟨h12 ++ [m], h12.length, ?_, ?_⟩
          · simp only [exc_bind_ok]
          · rw [getD_append_self, ← hok.1, ← hok.2, getD_append_self]
    | compE first rest =>
      simp only [heapEval] at hok
      cases hf : evalNum g f first with
      | error er => rw [hf] at hok; simp at hok
      | ok l =>
        rw [hf] at hok
        simp only [exc_bind_ok] at hok
        cases hc : evalCmpList (evalNum g f) l none rest with
        | error er => rw [hc] at hok; simp at hok
        | ok c =>
          rw [hc] at hok
          simp only [exc_bind_ok] at hok
          cases c with
          | scalar b => exact Except.noConfusion hok
          | arr xs =>
            have hok2 : (h₁ ++ [xs], h₁.length) = (h₁', r₁) := by
              injection hok
            obtain ⟨hh, hr2⟩ := Prod.mk.injEq .. |>.mp hok2
            refine ⟨h₂ ++ [xs], h₂.length, ?_, ?_⟩
            · simp only [heapEval, hf, exc_bind_ok, hc]
            · rw [getD_append_self, ← hh, ← hr2, getD_append_self]

/-- C7: selection is a pure, deterministic and idempotent function of its
inputs, over the heap model of the mask data flow: a successful evaluation
of any query leaves every stored user boolean column buffer unchanged
(the column snapshot before and after the run coincide — in particular
`np.invert(torf, torf)` in `Select._not` hits only the copy `getData`
returned, never the store), and an immediately repeated evaluation of the
same query on the post-run state succeeds and returns an equal mask
value. -/
theorem C7_selection_pure {g : AtomGroup} {ag : AgHeap} {ks : KeywordState}
    {fuel : Nat} {h : Heap} {e : SExpr} {h' : Heap} {r : Nat}
    (hwf : hwfb h ag = true)
    (h1 : heapEval g ag ks fuel h e = .ok (h', r)) :
    snapshotCols h' ag = snapshotCols h ag ∧
    ∃ h'' r', heapEval g ag ks fuel h' e = .ok (h'', r') ∧
      h''.getD r' [] = h'.getD r [] := by
  have hb : ∀ p ∈ ag.cols, p.2 < h.length := by
    intro p hp
    have := List.all_eq_true.mp hwf p hp
    simpa using this
  obtain ⟨hlen, hfr, -, -⟩ := heapEval_frame fuel h e h1
  constructor
  · unfold snapshotCols
    apply List.map_congr_left
    intro p hp
    rw [hfr p.2 (hb p hp)]
  · exact heapEval_congr fuel h h' e h1
      (fun p hp => ⟨hb p hp, by have := hb p hp; omega,
        hfr p.2 (hb p hp)⟩)

theorem C7_witness :
    hwfb [[true, false, false]] ⟨[("q1", 0)]⟩ = true ∧
    heapEval demoG3 ⟨[("q1", 0)]⟩ initState 2 [[true, false, false]]
      (.notE (.leaf (.udata "q1"))) =
      .ok ([[true, false, false], [false, true, true]], 1) ∧
    snapshotCols [[true, false, false], [false, true, true]]
        ⟨[("q1", 0)]⟩ =
      snapshotCols [[true, false, false]] ⟨[("q1", 0)]⟩ := by
  have hwf : hwfb [[true, false, false]] ⟨[("q1", 0)]⟩ = true := by decide
  have h1 : heapEval demoG3 ⟨[("q1", 0)]⟩ initState 2 [[true, false, false]]
      (.notE (.leaf (.udata "q1"))) =
      .ok ([[true, false, false], [false, true, true]], 1) := by rfl
  exact ⟨hwf, h1, (C7_selection_pure hwf h1).1⟩

/-- C8: the mutation contract of `setKeywordResnames` is broken in two
ways. A read-only derived keyword (here `charged`) is not a failure: the
call returns with only a warning flag and every table unchanged. And a
mutable keyword (here `acidic := [ASP]`) rewrites `KEYWORD_RESNAMES` and
recomputes the read-only residue-name sets — the updated `charged` set no
longer lists GLU — but `KEYWORD_MAP`, the map evaluation actually reads,
is not rebuilt (unlike `setBackboneAtomNames`, which calls
`_buildKeywordMap`), so evaluating `charged` on a lone GLU atom still
selects it. -/
theorem C8_stale_keyword_map :
    setKeywordResnames initState "charged" ["GLX"] = .ok (initState, true) ∧
    setKeywordResnames initState "acidic" ["ASP"] =
      .ok (staleAfterAcidic, false) ∧
    ((lookupCol staleAfterAcidic.resnamesT "charged").map
      (fun l => l.contains "GLU")) = some false ∧
    evalExpr demoGLU staleAfterAcidic 1 (.leaf (.boolkw "charged")) =
      .ok [true] := by
  exact ⟨rfl, rfl, by decide, rfl⟩

/-- C9 (amended): the macro-management contract actually enforced:
`defSelectionMacro(name, body)` raises `ValueError` when `name` is a
selection keyword, and when `name` is not lowercase-alphabetic-only; a
body that fails to compile is reported with a warning and the macro table
is left exactly as it was (so no entry for a fresh name); and
`delSelectionMacro` of a name missing from the table warns and leaves the
table unchanged.  (Reserved non-keyword words such as `of` pass the
validation; see the counterexample.) -/
theorem C9_macro_management (table : List (String × String))
    (name selstr : String) (compiles : String → Bool) :
    (isKeywordW name = true →
      defSelectionMacroFn table name selstr compiles = .error .valueErr) ∧
    ((pyIsAlpha name && pyIsLower name) = false → isKeywordW name = false →
      defSelectionMacroFn table name selstr compiles = .error .valueErr) ∧
    (compiles selstr = false → isKeywordW name = false →
      (pyIsAlpha name && pyIsLower name) = true →
      defSelectionMacroFn table name selstr compiles = .ok (table, true)) ∧
    (table.any (fun p => p.1 = name) = false →
      delSelectionMacroFn table name = (table, true)) := by
  refine ⟨?_, ?_, ?_, ?_⟩
  · intro hk
    simp [defSelectionMacroFn, hk]
  · intro hl hk
    simp [defSelectionMacroFn, hk, hl]
  · intro hc hk hl
    simp [defSelectionMacroFn, hk, hl, hc]
  · intro hm
    simp [delSelectionMacroFn, hm]

/-- C9 counterexample: `of` is a reserved word (member of `RESERVED`) but
not a selection keyword, and `defSelectionMacro` accepts it as a macro
name without any error, storing the mapping — refuting the claim that a
reserved name fails validation. -/
theorem C9_counterexample_reserved_name :
    isReservedW "of" = true ∧
    isKeywordW "of" = false ∧
    defSelectionMacroFn [] "of" "protein" (fun _ => true) =
      .ok ([("of", "protein")], false) := by
  exact ⟨by decide, by decide, rfl⟩

theorem C9_witness :
    isKeywordW "protein" = true ∧
    defSelectionMacroFn [] "protein" "water" (fun _ => true) =
      .error .valueErr ∧
    ([] : List (String × String)).any (fun p => p.1 = "zap") = false ∧
    delSelectionMacroFn [] "zap" = ([], true) := by
  have h := C9_macro_management [] "protein" "water" (fun _ => true)
  exact ⟨by decide, h.1 (by decide), by decide, h.2.2.2 (by decide)⟩

/-- C10: whenever `getBoolArray` succeeds with mask `m`, `getIndices`
succeeds and returns exactly the positions at which `m` is true, as a
strictly increasing list of indices with no duplicates, empty exactly
when no atom matches. -/
theorem C10_getIndices_nonzero {g : AtomGroup} {ks : KeywordState}
    {fuel : Nat} {e : SExpr} {m : Mask}
    (hm : getBoolArray g ks fuel e = .ok m) :
    ∃ idx, getIndices g ks fuel e = .ok idx ∧
      (∀ i, i ∈ idx ↔ i < m.length ∧ m.getD i false = true) ∧
      idx.Pairwise (· < ·) ∧ idx.Nodup ∧
      (idx = [] ↔ ∀ i, m.getD i false ≠ true) := by
  refine ⟨nonzero m, ?_, fun i => mem_nonzero, ?_, ?_, ?_⟩
  · simp only [getIndices, hm, exc_bind_ok]
  · exact List.Pairwise.sublist (List.filter_sublist _)
      (List.sorted_lt_range m.length)
  · exact List.Pairwise.nodup
      (List.Pairwise.sublist (List.filter_sublist _)
        (List.sorted_lt_range m.length))
  · constructor
    · intro hnil i hi
      by_cases hil : i < m.length
      · have : i ∈ nonzero m := mem_nonzero.mpr ⟨hil, hi⟩
        rw [hnil] at this
        simp at this
      · rw [getD_oob _ i (by omega)] at hi
        exact absurd hi (by simp)
    · intro hall
      unfold nonzero
      rw [List.filter_eq_nil_iff]
      intro i _
      cases hd : m.getD i false with
      | false => simp
      | true => exact absurd hd (hall i)

theorem C10_witness :
    getBoolArray demoG3 initState 2 (.leaf (.udata "q2")) =
      .ok [false, true, false] ∧
    ∃ idx, getIndices demoG3 initState 2 (.leaf (.udata "q2")) = .ok idx ∧
      (∀ i, i ∈ idx ↔ i < ([false, true, false] : Mask).length ∧
        ([false, true, false] : Mask).getD i false = true) ∧
      idx.Pairwise (· < ·) ∧ idx.Nodup ∧
      (idx = [] ↔ ∀ i, ([false, true, false] : Mask).getD i false ≠ true) := by
  have hm : getBoolArray demoG3 initState 2 (.leaf (.udata "q2")) =
      .ok [false, true, false] := by rfl
  exact ⟨hm, C10_getIndices_nonzero hm⟩
